import Mathlib

/-!
The spaGO automatic-differentiation engine: a verification development

A shallow embedding of the graph engine (`ag/operator.go`), of the operator
name table and dispatcher (`pkg/ml/ag/operators.go`) and of the `Max` and
`ReduceSum` kernels (`pkg/ml/ag/fn/max.go`, `pkg/ml/ag/fn/reducesum.go`),
followed by the theorems about them.

Conventions of the embedding.

* Go pointers to nodes are addresses into a heap (a list of node objects); an
  address outside the heap plays the part of a nil `Node` interface value.
* A Go panic is the `error` branch of `Except String`, the `panicked` field of
  a backward run, or the `panic` outcome of a release.
* Element types are any type with the operations a kernel uses (a decidable
  linear order and a zero).
-/

namespace Spago

/-! ## Tensors -/

/-- Modelled from the spec: the dense 2-D matrix of the external tensor
library (`mat.Matrix`), which is not part of the sources: a shape
(rows × cols) and the row-major element buffer returned by `Data()`. -/
structure Matrix (α : Type) where
  rows : Nat
  cols : Nat
  data : List α
  size_eq : data.length = rows * cols
deriving DecidableEq, Repr

namespace Matrix

variable {α : Type}

/-- Modelled from the spec: `Size()`, the number of elements. -/
def Size (m : Matrix α) : Nat := m.rows * m.cols

/-- Modelled from the spec: `ZerosLike()`, the `zeros_like` constructor: a
zero-filled matrix of the same shape. -/
def ZerosLike [Zero α] (m : Matrix α) : Matrix α :=
  ⟨m.rows, m.cols, List.replicate (m.rows * m.cols) 0, List.length_replicate _ _⟩

/-- The store `data[i] = v` into the buffer of a matrix obtained by `Data()`;
the buffer is shared with the matrix. -/
def store (m : Matrix α) (i : Nat) (v : α) : Matrix α :=
  ⟨m.rows, m.cols, m.data.set i v, by rw [List.length_set]; exact m.size_eq⟩

/-- Modelled from the spec: `IsVector()`, a row or a column vector. -/
def IsVector (m : Matrix α) : Bool := m.rows == 1 || m.cols == 1

end Matrix

/-- Modelled from the spec: `mat.SameDims`, the same number of rows and of
columns. -/
def SameDims {α : Type} (a b : Matrix α) : Bool :=
  a.rows == b.rows && a.cols == b.cols

/-- Modelled from the spec: `mat.VectorsOfSameSize`, two vectors of equal
size. -/
def VectorsOfSameSize {α : Type} (a b : Matrix α) : Bool :=
  a.Size == b.Size && a.IsVector && b.IsVector

/-! ## Nodes and the heap -/

/-- A node reference: the address of a node object in the heap. -/
abbrev Addr := Nat

/-- The part of `fn.Function` the engine itself uses: the kernel's identity
and the operand list returned by `Operands()`. -/
structure Function where
  kernel : String
  operands : List Addr
deriving DecidableEq, Repr

/-- A `sync.RWMutex`, reduced to whether its write lock is held. -/
structure RWMutex where
  locked : Bool
deriving DecidableEq, Repr

/-- The `Operator` struct of `ag/operator.go`, field by field. Pointer fields
are options (`none` is nil); `valueCond` records only whether the condition
variable is present. -/
structure Operator (α : Type) where
  requiresGrad : Bool
  inBackward : Bool
  visited : Bool
  timeStep : Int
  graph : Option Nat
  function : Option Function
  value : Option (Matrix α)
  valueMx : Option RWMutex
  valueCond : Option Unit
  grad : Option (Matrix α)
  gradMx : Option RWMutex
  gradAccMx : Bool
  pendingGrads : Int
deriving DecidableEq, Repr

/-- The three node variants that are not operators. -/
inductive LeafKind where
  | variable
  | constant
  | wrap
deriving DecidableEq, Repr

/-- Modelled from the spec: a variable, constant or wrap node (their structs
are not part of the sources): the result of its `RequiresGrad()`, its value
and its gradient. -/
structure Leaf (α : Type) where
  kind : LeafKind
  requiresGrad : Bool
  value : Option (Matrix α)
  grad : Option (Matrix α)
deriving DecidableEq, Repr

/-- A node object: the dynamic type behind a `Node` interface value. -/
inductive NodeObj (α : Type) where
  | operator (o : Operator α)
  | leaf (l : Leaf α)
deriving DecidableEq, Repr

/-- The heap of node objects. -/
abbrev Heap (α : Type) := List (NodeObj α)

/-- The type assertion `node.(*Operator[T])`: true exactly when the reference
holds an operator; a nil interface value fails the assertion. -/
def isOperator {α : Type} (h : Heap α) (a : Addr) : Bool :=
  match h[a]? with
  | some (.operator _) => true
  | _ => false

/-- The interface call `node.RequiresGrad()`; it panics on a nil interface. -/
def RequiresGrad {α : Type} (h : Heap α) (a : Addr) : Except String Bool :=
  match h[a]? with
  | some (.operator o) => .ok o.requiresGrad
  | some (.leaf l) => .ok l.requiresGrad
  | none => .error "invalid memory address or nil pointer dereference"

/-- The function `anyNodeRequiresGrad`: the loop returns at the first node
that requires grad. -/
def anyNodeRequiresGrad {α : Type} (h : Heap α) : List Addr → Except String Bool
  | [] => .ok false
  | node :: rest =>
    match RequiresGrad h node with
    | .error e => .error e
    | .ok true => .ok true
    | .ok false => anyNodeRequiresGrad h rest

/-- The fields of `Graph` that `NewOperator` reads: the graph's identity (the
pointer stored in the operator) and its current time-step. -/
structure Graph where
  id : Nat
  curTimeStep : Int
deriving DecidableEq, Repr

/-- The process state `NewOperator` acts on: the heap, the process-wide
`ongoingComputations` counter and the forward tasks spawned so far. -/
structure World (α : Type) where
  heap : Heap α
  ongoingComputations : Int
  forwardTasks : List Addr
deriving DecidableEq, Repr

/-- The method `Graph.NewOperator`: builds the operator, takes the gradient
lock when the operator requires grad, counts one ongoing computation and
spawns the forward task. The new node's address is returned. -/
def NewOperator {α : Type} (w : World α) (g : Graph) (f : Function) :
    Except String (World α × Addr) :=
  match anyNodeRequiresGrad w.heap f.operands with
  | .error e => .error e
  | .ok rg =>
    let n : Operator α :=
      { graph := some g.id
        timeStep := g.curTimeStep
        function := some f
        value := none
        valueMx := some ⟨false⟩
        valueCond := some ()
        requiresGrad := rg
        grad := none
        gradMx := if rg then some ⟨true⟩ else none
        gradAccMx := false
        pendingGrads := 0
        visited := false
        inBackward := false }
    .ok ({ heap := w.heap ++ [.operator n]
           ongoingComputations := w.ongoingComputations + 1
           forwardTasks := w.forwardTasks ++ [w.heap.length] }, w.heap.length)

/-! ## Releasing operators (`ag/operator.go`) -/

/-- Modelled from the spec: what the method `Operator.releaseValue`, which is
not part of the sources, does to an operator that has not been released: it
releases the value tensor, leaving the value slot empty. What a call on a
released operator does is the matter of `Operator.call`. -/
def Operator.releaseValue {α : Type} (o : Operator α) : Operator α :=
  { o with value := none }

/-- Modelled from the spec: what the method `Operator.ZeroGrad`, which is not
part of the sources, does to an operator that has not been released: it
releases the grad tensor and resets pending-grads to zero. What a call on a
released operator does is the matter of `Operator.call`. -/
def Operator.ZeroGrad {α : Type} (o : Operator α) : Operator α :=
  { o with grad := none, pendingGrads := 0 }

/-- What the methods `releaseValue` and `ZeroGrad` do when they are called on
a released operator. The spec makes every method call on a released operator
a fatal programmer error, the sources do not show the two methods, and a
method that finds nothing left to release may as well return: both answers
are kept. -/
inductive OnReleased where
  | returns
  | panics
deriving DecidableEq, Repr

/-- The message of the panic of a method called on a released operator. -/
def releasedOperator : String := "ag: method called on a released operator"

/-- Modelled from the spec: a call of `releaseValue` or of `ZeroGrad` on the
operator `o`. On an operator that has not been released, whose `function` is
set, the method runs; on a released operator it runs as well or panics, as
`onRel` says. -/
def Operator.call {α : Type} (onRel : OnReleased) (method : Operator α → Operator α)
    (o : Operator α) : Except String (Operator α) :=
  if onRel = OnReleased.panics ∧ o.function = none then .error releasedOperator
  else .ok (method o)

/-- The five assignments that end `releaseOperators`: `graph`, `function`,
`valueMx`, `valueCond` and `gradMx` are set to nil. -/
def Operator.clearRefs {α : Type} (o : Operator α) : Operator α :=
  { o with graph := none, function := none, valueMx := none, valueCond := none,
           gradMx := none }

/-- A write through an operator pointer: the operator stored at the address
is replaced by its image; other addresses are not touched. -/
def updateOperator {α : Type} (h : Heap α) (a : Addr) (f : Operator α → Operator α) :
    Heap α :=
  match h[a]? with
  | some (.operator o) => h.set a (.operator (f o))
  | _ => h

/-- The calls that release resources, as recorded while operators are
released. -/
inductive ReleaseEvent where
  | releaseValue (a : Addr)
  | zeroGrad (a : Addr)
deriving DecidableEq, Repr

/-- The state of a `ReleaseOperators` call: the heap, the keys of the
`visited` map in the order they were added, and the record of the
`releaseValue` and `ZeroGrad` calls made so far. -/
structure ReleaseState (α : Type) where
  heap : Heap α
  visited : List Addr
  log : List ReleaseEvent
deriving DecidableEq, Repr

/-- How a run ends: it returns, it panics (the state reached is kept), or the
recursion budget of the embedding is used up. -/
inductive Outcome (σ : Type) where
  | done (s : σ)
  | panic (s : σ) (msg : String)
  | outOfFuel
deriving DecidableEq, Repr

/-- The message of the runtime panic raised by a call through a nil pointer
or nil interface value. -/
def nilDereference : String := "invalid memory address or nil pointer dereference"

/-- The loop shared by `ReleaseOperators` (over its arguments) and by
`releaseOperators` (over the operands): each node that passes the type
assertion `.(*Operator[T])` is handed to `visit`, the others are skipped. -/
def forEachOperator {α : Type}
    (visit : ReleaseState α → Addr → Outcome (ReleaseState α)) :
    ReleaseState α → List Addr → Outcome (ReleaseState α)
  | st, [] => .done st
  | st, node :: rest =>
    if isOperator st.heap node then
      match visit st node with
      | .done st' => forEachOperator visit st' rest
      | other => other
    else forEachOperator visit st rest

/-- The function `releaseOperators`. The argument `fuel` bounds the depth of
the recursion, `onRel` says what the two absent methods do on a released
operator. An operator already in `visited` is left alone; otherwise it is
added to `visited`, `releaseValue` and `ZeroGrad` are called, the operands
returned by `op.function.Operands()` are walked (a nil `function` panics), and
the five references are set to nil. A panic leaves the state reached by the
statements run before it. -/
def releaseOperators {α : Type} (onRel : OnReleased) :
    Nat → ReleaseState α → Addr → Outcome (ReleaseState α)
  | 0, _, _ => .outOfFuel
  | fuel + 1, st, op =>
    if op ∈ st.visited then .done st
    else
      match st.heap[op]? with
      | some (.operator o) =>
        match Operator.call onRel Operator.releaseValue o with
        | .error e =>
          .panic { heap := st.heap
                   visited := st.visited ++ [op]
                   log := st.log ++ [.releaseValue op] } e
        | .ok o1 =>
          match Operator.call onRel Operator.ZeroGrad o1 with
          | .error e =>
            .panic { heap := st.heap.set op (.operator o1)
                     visited := st.visited ++ [op]
                     log := st.log ++ [.releaseValue op, .zeroGrad op] } e
          | .ok o2 =>
            let st1 : ReleaseState α :=
              { heap := st.heap.set op (.operator o2)
                visited := st.visited ++ [op]
                log := st.log ++ [.releaseValue op, .zeroGrad op] }
            match o2.function with
            | none => .panic st1 nilDereference
            | some f =>
              match forEachOperator (releaseOperators onRel fuel) st1 f.operands with
              | .done st2 =>
                .done { st2 with heap := updateOperator st2.heap op Operator.clearRefs }
              | other => other
      | _ => .panic st nilDereference

/-- The function `ReleaseOperators`: a fresh `visited` map, then the loop over
the arguments. The recursion never goes deeper than the number of nodes of the
heap, which bounds the budget. -/
def ReleaseOperators {α : Type} (onRel : OnReleased) (h : Heap α) (nodes : List Addr) :
    Outcome (ReleaseState α) :=
  forEachOperator (releaseOperators onRel (h.length + 1)) ⟨h, [], []⟩ nodes

/-- An edge of the operand graph: `y` is an operand of the operator at `x`
and is itself an operator. -/
def Edge {α : Type} (h : Heap α) (x y : Addr) : Prop :=
  ∃ o f, h[x]? = some (.operator o) ∧ o.function = some f ∧ y ∈ f.operands ∧
    isOperator h y = true

/-- The operators reachable from the operator `r` through chains of operator
operands, `r` included. -/
def Reach {α : Type} (h : Heap α) (r a : Addr) : Prop :=
  isOperator h r = true ∧ Relation.ReflTransGen (Edge h) r a

/-- The state in which a completed release leaves an operator: value and
gradient released, pending-grads zero, the five references nil. -/
def Operator.freed {α : Type} (o : Operator α) : Operator α :=
  o.releaseValue.ZeroGrad.clearRefs

/-- The record of releasing the operators of a list in order: for each one a
`releaseValue` call followed by a `ZeroGrad` call. -/
def releaseEvents : List Addr → List ReleaseEvent
  | [] => []
  | a :: rest => .releaseValue a :: .zeroGrad a :: releaseEvents rest

/-- The relation between the state before and the state after a completed
walk that released exactly the operators `new`, in that order. -/
structure Walk {α : Type} (st : ReleaseState α) (new : List Addr) (st' : ReleaseState α) :
    Prop where
  len : st'.heap.length = st.heap.length
  visited_eq : st'.visited = st.visited ++ new
  log_eq : st'.log = st.log ++ releaseEvents new
  nodup : new.Nodup
  fresh : ∀ a ∈ new, a ∉ st.visited
  freed : ∀ a ∈ new, ∃ o f, st.heap[a]? = some (.operator o) ∧ o.function = some f ∧
    st'.heap[a]? = some (.operator o.freed) ∧
    ∀ b ∈ f.operands, isOperator st.heap b = true → b ∈ st'.visited
  frame : ∀ a, a ∉ new → st'.heap[a]? = st.heap[a]?


/-- The `visited` map holds no key twice, and only addresses of the heap. -/
def Bounded {α : Type} (st : ReleaseState α) : Prop :=
  st.visited.Nodup ∧ ∀ a ∈ st.visited, a < st.heap.length

/-- Every operator that can still be reached from `b` and is not yet in
`visited` has a function: it has not been released before. -/
def LiveFrom {α : Type} (st : ReleaseState α) (b : Addr) : Prop :=
  ∀ a, Relation.ReflTransGen (Edge st.heap) b a → a ∉ st.visited →
    ∀ o, st.heap[a]? = some (.operator o) → o.function ≠ none

/-- The state in which a run ended, when it returned or panicked. -/
def Outcome.state? {σ : Type} : Outcome σ → Option σ
  | .done s => some s
  | .panic s _ => some s
  | .outOfFuel => none


/-- A sample operator over integers, as `NewOperator` followed by a forward
and a backward pass leaves it: value, gradient and all references set. -/
def sampleOperator (operands : List Addr) : NodeObj Int :=
  .operator
    { requiresGrad := true
      inBackward := false
      visited := false
      timeStep := 0
      graph := some 0
      function := some ⟨"Add", operands⟩
      value := some ⟨1, 1, [3], rfl⟩
      valueMx := some ⟨false⟩
      valueCond := some ()
      grad := some ⟨1, 1, [1], rfl⟩
      gradMx := some ⟨true⟩
      gradAccMx := false
      pendingGrads := 0 }

/-- A sample variable with a value and a gradient. -/
def sampleVariable : NodeObj Int :=
  .leaf ⟨.variable, true, some ⟨1, 1, [3], rfl⟩, some ⟨1, 1, [4], rfl⟩⟩

/-- A sample heap: a variable at address 0 and a diamond of operators above
it, the operator at 4 having the operators at 2 and 3 as operands, both of
which have the operator at 1 as operand. -/
def sampleDiamond : Heap Int :=
  [sampleVariable, sampleOperator [0], sampleOperator [1, 0], sampleOperator [1],
    sampleOperator [2, 3]]


/-! ## The Max kernel (`pkg/ml/ag/fn/max.go`) -/

/-- Modelled from the spec: an `fn.Operand` as a kernel sees it: what
`Value()` and `RequiresGrad()` return. The calls of `PropagateGrad` are
recorded in the run of the backward pass. -/
structure Operand (α : Type) where
  value : Matrix α
  requiresGrad : Bool
deriving DecidableEq, Repr

/-- The struct `Max`: the two operands. -/
structure Max (α : Type) where
  x1 : Operand α
  x2 : Operand α
deriving DecidableEq, Repr

/-- Which operand of a kernel a gradient was propagated to: `x1` or `x2` of a
binary kernel, `x` of a unary one. -/
inductive Slot where
  | x1
  | x2
  | x
deriving DecidableEq, Repr

/-- What a backward pass did: the `PropagateGrad` calls in order, each with
the operand and the gradient passed, and the panic that ended it, if any. -/
structure BackwardRun (α : Type) where
  propagated : List (Slot × Matrix α)
  panicked : Option String
deriving DecidableEq, Repr

/-- The loop `for i := 0; i < n; i++ { if a[i] > b[i] { gxData[i] = gyData[i] } }`
of `Max.Backward`, with `k` iterations left from index `i`; every index
expression panics when out of range. -/
def maxGradLoop {α : Type} [LT α] [DecidableRel (fun (x y : α) => x < y)]
    (a b gyData : List α) : Nat → Nat → Matrix α → Except String (Matrix α)
  | 0, _, gx => .ok gx
  | k + 1, i, gx =>
    match a[i]?, b[i]? with
    | some ai, some bi =>
      if bi < ai then
        match gyData[i]? with
        | some g =>
          if i < gx.data.length then maxGradLoop a b gyData k (i + 1) (gx.store i g)
          else .error "index out of range"
        | none => .error "index out of range"
      else maxGradLoop a b gyData k (i + 1) gx
    | _, _ => .error "index out of range"

/-- The method `Max.Backward`. The guard panics only when `gy` is compatible
with neither operand value; then each operand that requires grad gets a
zero-initialised gradient of its own shape, filled by the loop and propagated.
The deferred `ReleaseMatrix` calls only return buffers to the pool. -/
def Max.Backward {α : Type} [LT α] [DecidableRel (fun (x y : α) => x < y)] [Zero α]
    (r : Max α) (gy : Matrix α) : BackwardRun α :=
  let x1v := r.x1.value
  let x2v := r.x2.value
  if (!(SameDims x1v gy || VectorsOfSameSize x1v gy)) &&
      (!(SameDims x2v gy || VectorsOfSameSize x2v gy)) then
    ⟨[], some "fn: matrices with not compatible size"⟩
  else
    let n := gy.Size
    let gyData := gy.data
    let x1vData := x1v.data
    let x2vData := x2v.data
    let first : BackwardRun α :=
      if r.x1.requiresGrad then
        match maxGradLoop x1vData x2vData gyData n 0 x1v.ZerosLike with
        | .ok gx => ⟨[(Slot.x1, gx)], none⟩
        | .error e => ⟨[], some e⟩
      else ⟨[], none⟩
    match first.panicked with
    | some _ => first
    | none =>
      if r.x2.requiresGrad then
        match maxGradLoop x2vData x1vData gyData n 0 x2v.ZerosLike with
        | .ok gx => ⟨first.propagated ++ [(Slot.x2, gx)], none⟩
        | .error e => ⟨first.propagated, some e⟩
      else first

/-! ## The operator name table (`pkg/ml/ag/operators.go`) -/

/-- The type `OpName`, declared `type OpName int`. -/
abbrev OpName := Int

/-- The constant `OpIdentity`, value 0 of the `iota` enumeration. -/
def OpIdentity : OpName := 0

/-- The constant `OpDropout`, value 1 of the `iota` enumeration. -/
def OpDropout : OpName := 1

/-- The constant `OpAtVec`, value 2 of the `iota` enumeration. -/
def OpAtVec : OpName := 2

/-- The constant `OpAt`, value 3 of the `iota` enumeration. -/
def OpAt : OpName := 3

/-- The constant `OpAdd`, value 4 of the `iota` enumeration. -/
def OpAdd : OpName := 4

/-- The constant `OpSub`, value 5 of the `iota` enumeration. -/
def OpSub : OpName := 5

/-- The constant `OpSubScalar`, value 6 of the `iota` enumeration. -/
def OpSubScalar : OpName := 6

/-- The constant `OpAddScalar`, value 7 of the `iota` enumeration. -/
def OpAddScalar : OpName := 7

/-- The constant `OpReverseSub`, value 8 of the `iota` enumeration. -/
def OpReverseSub : OpName := 8

/-- The constant `OpProd`, value 9 of the `iota` enumeration. -/
def OpProd : OpName := 9

/-- The constant `OpDiv`, value 10 of the `iota` enumeration. -/
def OpDiv : OpName := 10

/-- The constant `OpProdScalar`, value 11 of the `iota` enumeration. -/
def OpProdScalar : OpName := 11

/-- The constant `OpDivScalar`, value 12 of the `iota` enumeration. -/
def OpDivScalar : OpName := 12

/-- The constant `OpMul`, value 13 of the `iota` enumeration. -/
def OpMul : OpName := 13

/-- The constant `OpDot`, value 14 of the `iota` enumeration. -/
def OpDot : OpName := 14

/-- The constant `OpReshape`, value 15 of the `iota` enumeration. -/
def OpReshape : OpName := 15

/-- The constant `OpMaxPooling`, value 16 of the `iota` enumeration. -/
def OpMaxPooling : OpName := 16

/-- The constant `OpView`, value 17 of the `iota` enumeration. -/
def OpView : OpName := 17

/-- The constant `OpRowView`, value 18 of the `iota` enumeration. -/
def OpRowView : OpName := 18

/-- The constant `OpColView`, value 19 of the `iota` enumeration. -/
def OpColView : OpName := 19

/-- The constant `OpVec`, value 20 of the `iota` enumeration. -/
def OpVec : OpName := 20

/-- The constant `OpRotateR`, value 21 of the `iota` enumeration. -/
def OpRotateR : OpName := 21

/-- The constant `OpT`, value 22 of the `iota` enumeration. -/
def OpT : OpName := 22

/-- The constant `OpSquare`, value 23 of the `iota` enumeration. -/
def OpSquare : OpName := 23

/-- The constant `OpPow`, value 24 of the `iota` enumeration. -/
def OpPow : OpName := 24

/-- The constant `OpSqrt`, value 25 of the `iota` enumeration. -/
def OpSqrt : OpName := 25

/-- The constant `OpTan`, value 26 of the `iota` enumeration. -/
def OpTan : OpName := 26

/-- The constant `OpTanh`, value 27 of the `iota` enumeration. -/
def OpTanh : OpName := 27

/-- The constant `OpSigmoid`, value 28 of the `iota` enumeration. -/
def OpSigmoid : OpName := 28

/-- The constant `OpHardSigmoid`, value 29 of the `iota` enumeration. -/
def OpHardSigmoid : OpName := 29

/-- The constant `OpHardTanh`, value 30 of the `iota` enumeration. -/
def OpHardTanh : OpName := 30

/-- The constant `OpSoftsign`, value 31 of the `iota` enumeration. -/
def OpSoftsign : OpName := 31

/-- The constant `OpReLU`, value 32 of the `iota` enumeration. -/
def OpReLU : OpName := 32

/-- The constant `OpCELU`, value 33 of the `iota` enumeration. -/
def OpCELU : OpName := 33

/-- The constant `OpGELU`, value 34 of the `iota` enumeration. -/
def OpGELU : OpName := 34

/-- The constant `OpELU`, value 35 of the `iota` enumeration. -/
def OpELU : OpName := 35

/-- The constant `OpPositiveELU`, value 36 of the `iota` enumeration. -/
def OpPositiveELU : OpName := 36

/-- The constant `OpSwishB`, value 37 of the `iota` enumeration. -/
def OpSwishB : OpName := 37

/-- The constant `OpSwish`, value 38 of the `iota` enumeration. -/
def OpSwish : OpName := 38

/-- The constant `OpSiLU`, value 39 of the `iota` enumeration. -/
def OpSiLU : OpName := 39

/-- The constant `OpMish`, value 40 of the `iota` enumeration. -/
def OpMish : OpName := 40

/-- The constant `OpLeakyReLU`, value 41 of the `iota` enumeration. -/
def OpLeakyReLU : OpName := 41

/-- The constant `OpSELU`, value 42 of the `iota` enumeration. -/
def OpSELU : OpName := 42

/-- The constant `OpSoftPlus`, value 43 of the `iota` enumeration. -/
def OpSoftPlus : OpName := 43

/-- The constant `OpSoftShrink`, value 44 of the `iota` enumeration. -/
def OpSoftShrink : OpName := 44

/-- The constant `OpThreshold`, value 45 of the `iota` enumeration. -/
def OpThreshold : OpName := 45

/-- The constant `OpSoftmax`, value 46 of the `iota` enumeration. -/
def OpSoftmax : OpName := 46

/-- The constant `OpLogSoftmax`, value 47 of the `iota` enumeration. -/
def OpLogSoftmax : OpName := 47

/-- The constant `OpSparseMax`, value 48 of the `iota` enumeration. -/
def OpSparseMax : OpName := 48

/-- The constant `OpSparseMaxLoss`, value 49 of the `iota` enumeration. -/
def OpSparseMaxLoss : OpName := 49

/-- The constant `OpSin`, value 50 of the `iota` enumeration. -/
def OpSin : OpName := 50

/-- The constant `OpCos`, value 51 of the `iota` enumeration. -/
def OpCos : OpName := 51

/-- The constant `OpExp`, value 52 of the `iota` enumeration. -/
def OpExp : OpName := 52

/-- The constant `OpLog`, value 53 of the `iota` enumeration. -/
def OpLog : OpName := 53

/-- The constant `OpAbs`, value 54 of the `iota` enumeration. -/
def OpAbs : OpName := 54

/-- The constant `OpNeg`, value 55 of the `iota` enumeration. -/
def OpNeg : OpName := 55

/-- The constant `OpReciprocal`, value 56 of the `iota` enumeration. -/
def OpReciprocal : OpName := 56

/-- The constant `OpMax`, value 57 of the `iota` enumeration. -/
def OpMax : OpName := 57

/-- The constant `OpMin`, value 58 of the `iota` enumeration. -/
def OpMin : OpName := 58

/-- The constant `OpReduceSum`, value 59 of the `iota` enumeration. -/
def OpReduceSum : OpName := 59

/-- The constant `OpReduceMean`, value 60 of the `iota` enumeration. -/
def OpReduceMean : OpName := 60

/-- The constant `OpMean`, value 61 of the `iota` enumeration. -/
def OpMean : OpName := 61

/-- The constant `OpSum`, value 62 of the `iota` enumeration. -/
def OpSum : OpName := 62

/-- The constant `OpConcat`, value 63 of the `iota` enumeration. -/
def OpConcat : OpName := 63

/-- The constant `OpStack`, value 64 of the `iota` enumeration. -/
def OpStack : OpName := 64

/-- A Go map, as the list of its key-value pairs; no key occurs twice. -/
abbrev GoMap (κ ν : Type) := List (κ × ν)

namespace GoMap

variable {κ ν : Type} [DecidableEq κ]

/-- The lookup `v, ok := m[k]`. -/
def get (m : GoMap κ ν) (k : κ) : Option ν :=
  match m with
  | [] => none
  | e :: rest => if e.1 = k then some e.2 else get rest k

/-- The assignment `m[k] = v`: the pair replaces an earlier pair for `k`. -/
def set (m : GoMap κ ν) (k : κ) (v : ν) : GoMap κ ν :=
  (k, v) :: m.filter (fun e => !decide (e.1 = k))

/-- The keys of the map. -/
def keys (m : GoMap κ ν) : List κ := m.map Prod.fst

end GoMap

/-- The map `opNameToMethodName`. -/
def opNameToMethodName : GoMap OpName String := [
  (OpIdentity, "Identity"),
  (OpDropout, "Dropout"),
  (OpAtVec, "AtVec"),
  (OpAt, "At"),
  (OpAdd, "Add"),
  (OpSub, "Sub"),
  (OpSubScalar, "SubScalar"),
  (OpAddScalar, "AddScalar"),
  (OpReverseSub, "ReverseSub"),
  (OpProd, "Prod"),
  (OpDiv, "Div"),
  (OpProdScalar, "ProdScalar"),
  (OpDivScalar, "DivScalar"),
  (OpMul, "Mul"),
  (OpDot, "Dot"),
  (OpReshape, "Reshape"),
  (OpMaxPooling, "MaxPooling"),
  (OpView, "View"),
  (OpRowView, "RowView"),
  (OpColView, "ColView"),
  (OpVec, "Vec"),
  (OpRotateR, "RotateR"),
  (OpT, "T"),
  (OpSquare, "Square"),
  (OpPow, "Pow"),
  (OpSqrt, "Sqrt"),
  (OpTan, "Tan"),
  (OpTanh, "Tanh"),
  (OpSigmoid, "Sigmoid"),
  (OpHardSigmoid, "HardSigmoid"),
  (OpHardTanh, "HardTanh"),
  (OpSoftsign, "Softsign"),
  (OpReLU, "ReLU"),
  (OpCELU, "CELU"),
  (OpGELU, "GELU"),
  (OpELU, "ELU"),
  (OpPositiveELU, "PositiveELU"),
  (OpSwishB, "SwishB"),
  (OpSwish, "Swish"),
  (OpSiLU, "SiLU"),
  (OpMish, "Mish"),
  (OpLeakyReLU, "LeakyReLU"),
  (OpSELU, "SELU"),
  (OpSoftPlus, "SoftPlus"),
  (OpSoftShrink, "SoftShrink"),
  (OpThreshold, "Threshold"),
  (OpSoftmax, "Softmax"),
  (OpLogSoftmax, "LogSoftmax"),
  (OpSparseMax, "SparseMax"),
  (OpSparseMaxLoss, "SparseMaxLoss"),
  (OpSin, "Sin"),
  (OpCos, "Cos"),
  (OpExp, "Exp"),
  (OpLog, "Log"),
  (OpAbs, "Abs"),
  (OpNeg, "Neg"),
  (OpReciprocal, "Reciprocal"),
  (OpMax, "Max"),
  (OpMin, "Min"),
  (OpReduceSum, "ReduceSum"),
  (OpReduceMean, "ReduceMean"),
  (OpMean, "Mean"),
  (OpSum, "Sum"),
  (OpConcat, "Concat"),
  (OpStack, "Stack")]

/-- Go's `strings.ToLower` on a string of ASCII characters, which all method
names are: the letters A to Z are mapped to a to z. -/
def strings_ToLower (s : String) : String := ⟨s.data.map Char.toLower⟩

/-- The body of the function literal that builds `strToOpName`, run over the
pairs of a map in the order `entries`; Go leaves the order of a `range` over
a map unspecified. -/
def invertOpNames (entries : List (OpName × String)) : GoMap String OpName :=
  entries.foldl (fun invMap e => (invMap.set e.2 e.1).set (strings_ToLower e.2) e.1) []

/-- The map `strToOpName`, here built in the order of the map literal. -/
def strToOpName : GoMap String OpName := invertOpNames opNameToMethodName

/-- The function `GetOpName`: the pair of the operator and the error. -/
def GetOpName (str : String) : OpName × Option String :=
  match strToOpName.get str with
  | some value => (value, none)
  | none => (-1, some ("ag: unknown operator " ++ str))

/-- The pairs of a name table never give one key to two different operators:
whenever a method name or lower-cased method name of one pair equals a method
name or lower-cased method name of another, both pairs name the same
operator. -/
def KeysClashFree (entries : List (OpName × String)) : Prop :=
  ∀ e ∈ entries, ∀ e' ∈ entries,
    (e.2 = e'.2 ∨ e.2 = strings_ToLower e'.2 ∨ strings_ToLower e.2 = e'.2 ∨
      strings_ToLower e.2 = strings_ToLower e'.2) → e.1 = e'.1

instance (entries : List (OpName × String)) : Decidable (KeysClashFree entries) := by
  unfold KeysClashFree; infer_instance

/-! ## The backward pass of an operator (`ag/operator.go`) -/

/-- Modelled from the spec: the method `Operator.Grad`, which is not part of
the sources: it returns the currently accumulated grad, or nil if none. -/
def Operator.Grad {α : Type} (o : Operator α) : Option (Matrix α) := o.grad

/-- What a call of `Operator.backward` did: the heap it left, the calls of the
function's `Backward` it made, each with the function and the gradient passed,
and the panic that ended it, if any. -/
structure BackwardCall (α : Type) where
  heap : Heap α
  invoked : List (Function × Matrix α)
  panicked : Option String
deriving DecidableEq, Repr

/-- The deferred function of `Operator.backward`: `o.inBackward = false`. -/
def Operator.leaveBackward {α : Type} (o : Operator α) : Operator α :=
  { o with inBackward := false }

/-- The method `Operator.backward` of the operator at address `a`. The
function's `Backward` is an interface call; `kernel` stands for it and returns
the heap it leaves and its panic, if any. The deferred function runs on every
way out. -/
def Operator.backward {α : Type}
    (kernel : Function → Matrix α → Heap α → Heap α × Option String)
    (h : Heap α) (a : Addr) : BackwardCall α :=
  match h[a]? with
  | some (.operator o) =>
    if !o.requiresGrad then
      ⟨updateOperator h a Operator.leaveBackward, [], none⟩
    else
      match o.Grad with
      | none => ⟨updateOperator h a Operator.leaveBackward, [], none⟩
      | some grad =>
        match o.function with
        | none => ⟨updateOperator h a Operator.leaveBackward, [], some nilDereference⟩
        | some f =>
          ⟨updateOperator (kernel f grad h).1 a Operator.leaveBackward, [(f, grad)],
            (kernel f grad h).2⟩
  | _ => ⟨h, [], some nilDereference⟩

/-! ## Time-steps (`ag/operator.go`) -/

/-- Modelled from the spec: `increment_time_step`, which is not part of the
sources: it advances the graph's time-step counter. -/
def IncrementTimeStep (g : Graph) : Graph :=
  { g with curTimeStep := g.curTimeStep + 1 }

/-- A graph together with the process state its nodes live in. -/
structure GraphState (α : Type) where
  world : World α
  graph : Graph
deriving DecidableEq, Repr

/-- The state after `g.NewOperator(f)`; a call that panics leaves the state
as it was. -/
def GraphState.newOperator {α : Type} (s : GraphState α) (f : Function) : GraphState α :=
  match NewOperator s.world s.graph f with
  | .ok (w, _) => ⟨w, s.graph⟩
  | .error _ => s

/-- The graph states reached from a fresh graph, whose nodes so far are
variables, constants and wraps, by `NewOperator` calls on functions whose
operands are nodes of the heap and by `increment_time_step` calls. -/
inductive Reachable {α : Type} : GraphState α → Prop where
  | fresh (leaves : List (Leaf α)) (id : Nat) :
      Reachable ⟨⟨leaves.map NodeObj.leaf, 0, []⟩, ⟨id, 0⟩⟩
  | newOperator {s : GraphState α} (f : Function) :
      Reachable s → (∀ b ∈ f.operands, b < s.world.heap.length) →
      Reachable (s.newOperator f)
  | incrementTimeStep {s : GraphState α} :
      Reachable s → Reachable ⟨s.world, IncrementTimeStep s.graph⟩

/-! ## The ReduceSum kernel (`pkg/ml/ag/fn/reducesum.go`) -/

/-- Modelled from the spec: `Sum()`, the reduction that adds up all elements
of a matrix. -/
def Matrix.Sum {α : Type} [Add α] [Zero α] (m : Matrix α) : α := m.data.sum

/-- Modelled from the spec: `mat.NewScalar`, the 1 × 1 matrix holding a
value. -/
def NewScalar {α : Type} (v : α) : Matrix α := ⟨1, 1, [v], rfl⟩

/-- Modelled from the spec: `mat.IsScalar`, a matrix of exactly one
element. -/
def IsScalar {α : Type} (m : Matrix α) : Bool := m.Size == 1

/-- Modelled from the spec: `Scalar()`, the single element of a scalar
matrix; it panics on a matrix that is not a scalar. -/
def Matrix.Scalar {α : Type} (m : Matrix α) : Except String α :=
  if IsScalar m then
    match m.data with
    | v :: _ => .ok v
    | [] => .error "index out of range"
  else .error "mat: expected scalar but the matrix contains more elements"

/-- Modelled from the spec: the tensor library's `mat.NewInitVecDense`, which
is not part of the sources: by its name and arguments the dense vector of
`size` elements all equal to `v`, a column (size × 1). -/
def NewInitVecDense {α : Type} (size : Nat) (v : α) : Matrix α :=
  ⟨size, 1, List.replicate size v, by rw [List.length_replicate, Nat.mul_one]⟩

/-- The struct `ReduceSum`: the operand. -/
structure ReduceSum (α : Type) where
  x : Operand α
deriving DecidableEq, Repr

/-- The method `ReduceSum.Forward`. -/
def ReduceSum.Forward {α : Type} [Add α] [Zero α] (r : ReduceSum α) : Matrix α :=
  NewScalar r.x.value.Sum

/-- The method `ReduceSum.Backward`: the guard on `gy`, then, for an operand
that requires grad, a vector of `Size()` entries all equal to the scalar of
`gy` is built and propagated. The deferred `ReleaseDense` only returns the
buffer to the pool. -/
def ReduceSum.Backward {α : Type} (r : ReduceSum α) (gy : Matrix α) : BackwardRun α :=
  if !IsScalar gy then
    ⟨[], some "fn: the gradient had to be a scalar"⟩
  else if r.x.requiresGrad then
    match gy.Scalar with
    | .ok v => ⟨[(Slot.x, NewInitVecDense r.x.value.Size v)], none⟩
    | .error e => ⟨[], some e⟩
  else ⟨[], none⟩

/-! ## The forward pass of Max (`pkg/ml/ag/fn/max.go`) -/

/-- The shape test `mat.SameDims(a, b) || mat.VectorsOfSameSize(a, b)` that
guards the element-wise kernels. -/
def Compatible {α : Type} (a b : Matrix α) : Bool :=
  SameDims a b || VectorsOfSameSize a b

/-- The message of the panic raised by the shape guards of `Max`. -/
def notCompatible : String := "fn: matrices with not compatible size"

/-- The message of the panic raised by the tensor library on operands of
different shapes. -/
def notSameShape : String := "mat: matrices with not compatible size"

/-- Modelled from the spec: `Maximum`, the element-wise maximum of two
matrices. The arithmetic of the tensor library is shape-preserving: the result
has the shape of both operands, and operands that differ in their number of
rows or of columns are fatal, two vectors of equal size in different
orientations included. -/
def Matrix.Maximum {α : Type} [LT α] [DecidableRel (fun (x y : α) => x < y)]
    (a b : Matrix α) : Except String (Matrix α) :=
  if h : SameDims a b = true then
    .ok ⟨a.rows, a.cols, List.zipWith (fun x y => if x < y then y else x) a.data b.data, by
      have hlen : b.data.length = a.data.length := by
        rw [a.size_eq, b.size_eq]
        simp only [SameDims, Bool.and_eq_true, beq_iff_eq] at h
        rw [h.1, h.2]
      rw [List.length_zipWith, hlen, Nat.min_self]
      exact a.size_eq⟩
  else .error notSameShape

/-- The method `Max.Forward`. The values of the operands are interface values
of type `mat.Matrix`; `maximum` is the method `Maximum` that the call
`x1v.Maximum(x2v)` reaches, which is not part of the sources. -/
def Max.Forward {α : Type}
    (maximum : Matrix α → Matrix α → Except String (Matrix α))
    (r : Max α) : Except String (Matrix α) :=
  let x1v := r.x1.value
  let x2v := r.x2.value
  if !(SameDims x1v x2v || VectorsOfSameSize x1v x2v) then
    .error notCompatible
  else maximum x1v x2v

/-! ## Dispatch by name (`pkg/ml/ag/operators.go`) -/

/-- The methods of `*Graph` declared in `operators.go`, by name. Methods
declared in other files are not listed. -/
def graphMethods : List String := [
  "Invoke", "Identity", "Dropout", "AtVec", "At", "Add", "Sub", "SubScalar", "AddScalar",
  "ReverseSub", "Prod", "Div", "ProdScalar", "DivScalar", "Mul", "Dot", "Max", "Min",
  "Reshape", "MaxPooling", "View", "RowView", "RotateR", "ColView", "Vec", "T", "Square",
  "Pow", "Sqrt", "Tan", "Tanh", "Sigmoid", "HardSigmoid", "HardTanh", "Softsign", "ReLU",
  "CELU", "GELU", "ELU", "SwishB", "Swish", "SiLU", "Mish", "LeakyReLU", "SELU", "SoftPlus",
  "SoftShrink", "Threshold", "Softmax", "SparseMax", "SparseMaxLoss", "Sin", "Cos", "Exp",
  "Log", "Abs", "Neg", "Reciprocal", "ReduceSum", "ReduceMean", "Concat", "Stack"]

/-- Go's `reflect.Value.MethodByName` on a value whose method set is
`methods`: the method of that name, or the zero `Value` (here `none`) when
there is none. -/
def MethodByName (methods : List String) (name : String) : Option String :=
  if name ∈ methods then some name else none

/-- The message of the panic raised by `reflect.Value.Call` on the zero
`Value`. -/
def callOnZeroValue : String := "reflect: call of reflect.Value.Call on zero Value"

/-- The method `Graph.Invoke` on a graph whose method set is `methods`. A
missing key of `opNameToMethodName` yields the empty string. The result is
the call made: the method found and the arguments passed to it; the method's
own body is not part of `Invoke`. The signature has no error result. -/
def Invoke (methods : List String) (operator : OpName) (xs : List Addr) :
    Except String (String × List Addr) :=
  let v := MethodByName methods ((opNameToMethodName.get operator).getD "")
  let args := xs
  match v with
  | none => .error callOnZeroValue
  | some method => .ok (method, args)

/-! ## Sample graph states -/

/-- A fresh graph in which an operator without operands is built at time-step
0 and, after one `increment_time_step`, an operator on it at time-step 1. -/
def sampleTwoSteps : GraphState Int :=
  (GraphState.mk
    ((GraphState.mk ⟨[], 0, []⟩ ⟨0, 0⟩).newOperator ⟨"Identity", []⟩).world
    (IncrementTimeStep ⟨0, 0⟩)).newOperator ⟨"Neg", [0]⟩

/-- A fresh graph in which an operator without operands is built at time-step
0 and no time-step has passed since. -/
def sampleOneStep : GraphState Int :=
  (GraphState.mk ⟨[], 0, []⟩ ⟨0, 0⟩).newOperator ⟨"Identity", []⟩

/-! ## The forward tasks (`ag/operator.go`) -/

/-- How far the goroutine running `Operator.forward` has got: spawned by
`go n.forward()` with the deferred `Done` registered; after
`o.value.Store(o.function.Forward())`; after `o.valueMx.Lock()`; after
`o.valueCond.Broadcast()`; after `o.valueMx.Unlock()`; after the deferred
`ongoingComputations.Done()` of a task that returns; and after the deferred
`ongoingComputations.Done()` of a task that panics. -/
inductive ForwardPhase where
  | spawned
  | stored
  | locked
  | broadcast
  | unlocked
  | done
  | panicked
deriving DecidableEq, Repr

/-- Whether the deferred `Done` of the task has run. -/
def ForwardPhase.finished : ForwardPhase → Bool
  | .done => true
  | .panicked => true
  | _ => false

/-- What the interface call `o.function.Forward()` does when the forward task
reaches it: it is blocked on the value of an operand, it returns a value, or
it panics. -/
inductive ForwardResult (α : Type) where
  | blocked
  | value (v : Matrix α)
  | panicked (msg : String)
deriving DecidableEq, Repr

/-- The process state with its forward tasks: the phase of the task at each
position of `world.forwardTasks`, and the operators whose condition variable
has been broadcast. -/
structure Scheduler (α : Type) where
  world : World α
  phases : List ForwardPhase
  broadcasts : List Addr
deriving DecidableEq, Repr

/-- A call `g.NewOperator(f)` made while forward tasks are running; a call
that panics leaves the state as it was. -/
def Scheduler.newOperator {α : Type} (s : Scheduler α) (g : Graph) (f : Function) :
    Scheduler α :=
  match NewOperator s.world g f with
  | .ok (w, _) => { world := w, phases := s.phases ++ [ForwardPhase.spawned],
                    broadcasts := s.broadcasts }
  | .error _ => s

/-- A panic in the forward task at position `k`: the statements after it are
not run, the deferred `ongoingComputations.Done()` is. -/
def Scheduler.panicAt {α : Type} (s : Scheduler α) (k : Nat) : Scheduler α :=
  { s with
    world := { s.world with ongoingComputations := s.world.ongoingComputations - 1 }
    phases := s.phases.set k ForwardPhase.panicked }

/-- One step of the forward task at position `k`, the body of
`Operator.forward` statement by statement; `none` when the task cannot move.
The function's `Forward` is an interface call; `kernel` stands for it. A
`Forward` that panics, like a call through a nil `function` or a nil
`valueMx`, ends the task with the deferred `Done`, and no value is stored. -/
def Scheduler.forwardStep {α : Type} (kernel : Function → Heap α → ForwardResult α)
    (s : Scheduler α) (k : Nat) : Option (Scheduler α) :=
  match s.world.forwardTasks[k]?, s.phases[k]? with
  | some a, some ForwardPhase.spawned =>
    match s.world.heap[a]? with
    | some (.operator o) =>
      match o.function with
      | some f =>
        match kernel f s.world.heap with
        | .value v =>
          some { s with
            world := { s.world with
              heap := updateOperator s.world.heap a (fun o => { o with value := some v }) }
            phases := s.phases.set k ForwardPhase.stored }
        | .blocked => none
        | .panicked _ => some (s.panicAt k)
      | none => some (s.panicAt k)
    | _ => none
  | some a, some ForwardPhase.stored =>
    match s.world.heap[a]? with
    | some (.operator o) =>
      match o.valueMx with
      | some mx =>
        if mx.locked then none
        else
          some { s with
            world := { s.world with
              heap := updateOperator s.world.heap a
                (fun o => { o with valueMx := some ⟨true⟩ }) }
            phases := s.phases.set k ForwardPhase.locked }
      | none => some (s.panicAt k)
    | _ => none
  | some a, some ForwardPhase.locked =>
    some { s with
      phases := s.phases.set k ForwardPhase.broadcast
      broadcasts := s.broadcasts ++ [a] }
  | some a, some ForwardPhase.broadcast =>
    some { s with
      world := { s.world with
        heap := updateOperator s.world.heap a (fun o => { o with valueMx := some ⟨false⟩ }) }
      phases := s.phases.set k ForwardPhase.unlocked }
  | some _, some ForwardPhase.unlocked =>
    some { s with
      world := { s.world with ongoingComputations := s.world.ongoingComputations - 1 }
      phases := s.phases.set k ForwardPhase.done }
  | _, _ => none

/-- The states reached from a process without forward tasks, whose nodes are
variables, constants and wraps, by `NewOperator` calls and by steps of the
forward tasks, in any interleaving. -/
inductive Scheduler.Reachable {α : Type} (kernel : Function → Heap α → ForwardResult α) :
    Scheduler α → Prop where
  | fresh (leaves : List (Leaf α)) :
      Scheduler.Reachable kernel ⟨⟨leaves.map NodeObj.leaf, 0, []⟩, [], []⟩
  | newOperator {s : Scheduler α} (g : Graph) (f : Function) :
      Scheduler.Reachable kernel s → Scheduler.Reachable kernel (s.newOperator g f)
  | forwardStep {s s' : Scheduler α} (k : Nat) :
      Scheduler.Reachable kernel s → s.forwardStep kernel k = some s' →
      Scheduler.Reachable kernel s'

/-- The forward value of the operator at `a` has been published. -/
def Published {α : Type} (h : Heap α) (a : Addr) : Prop :=
  ∃ o v, h[a]? = some (NodeObj.operator o) ∧ o.value = some v

/-- What holds of the forward tasks in every reachable state: one phase per
task; the counter of ongoing computations is the number of tasks that have
not run their `Done`; a task past `spawned` that has not panicked has
published its value; a task past `locked` that has not panicked has
broadcast; the tasks belong to different operators of the heap; and the
operator of a task that has not locked yet has its function and its unlocked
mutex. -/
structure Scheduler.Invariant {α : Type} (s : Scheduler α) : Prop where
  len : s.phases.length = s.world.forwardTasks.length
  counter : s.world.ongoingComputations
    = ((s.phases.countP (fun ph => !ph.finished) : Nat) : Int)
  published : ∀ (k : Nat) (a : Addr) (ph : ForwardPhase),
    s.world.forwardTasks[k]? = some a → s.phases[k]? = some ph →
    ph ≠ ForwardPhase.spawned → ph ≠ ForwardPhase.panicked → Published s.world.heap a
  broadcast : ∀ (k : Nat) (a : Addr) (ph : ForwardPhase),
    s.world.forwardTasks[k]? = some a → s.phases[k]? = some ph →
    (ph = ForwardPhase.broadcast ∨ ph = ForwardPhase.unlocked ∨ ph = ForwardPhase.done) →
    a ∈ s.broadcasts
  bound : ∀ a ∈ s.world.forwardTasks, a < s.world.heap.length
  nodup : s.world.forwardTasks.Nodup
  live : ∀ (k : Nat) (a : Addr) (ph : ForwardPhase),
    s.world.forwardTasks[k]? = some a → s.phases[k]? = some ph →
    (ph = ForwardPhase.spawned ∨ ph = ForwardPhase.stored) →
    ∃ o, s.world.heap[a]? = some (NodeObj.operator o) ∧ o.function ≠ none ∧
      o.valueMx = some ⟨false⟩

/-- The forward task of the counterexample of the barrier: a process with one
operator without operands whose `Forward` panics, after the task has run. -/
def samplePanicked : Scheduler Int :=
  Scheduler.panicAt
    (Scheduler.newOperator ⟨⟨[], 0, []⟩, [], []⟩ ⟨0, 0⟩ ⟨"Add", []⟩) 0

/-! ## Client flags (`cmd/clientutils/client.go`) -/

/-- Go's `strings.EqualFold` on strings of ASCII characters: equality when
letter case is ignored. -/
def strings_EqualFold (s t : String) : Bool :=
  strings_ToLower s == strings_ToLower t

/-- The function `VerifyFlags`; `log.Fatalln` ends the process, which is the
`error` branch. -/
def VerifyFlags (outputFlag : String) : Except String Unit :=
  if !strings_EqualFold outputFlag "json" && !strings_EqualFold outputFlag "yaml" then
    .error "Unsupported output format"
  else .ok ()

/-- The two renderings of a response. -/
inductive Rendering where
  | json
  | yaml
deriving DecidableEq, Repr

/-- The function `Println`, reduced to the choice of the rendering:
`json.MarshalIndent` when `format == "json"`, `yaml.Marshal` otherwise. -/
def Println (format : String) : Rendering :=
  if format == "json" then Rendering.json else Rendering.yaml

/-! ## The RotateR kernel (`pkg/ml/ag/fn`, known by its test) -/

/-- Modelled from the spec: the right circular shift of a buffer by `i`
places, the body of `rotate_r`, whose source is not part of the sources: the
last `i` elements come first. -/
def rotateR {α : Type} (a : List α) (i : Nat) : List α :=
  a.drop (a.length - i) ++ a.take (a.length - i)

/-- Modelled from the spec: the left circular shift by `i` places, the
permutation that puts the incoming gradient of `rotate_r` back: the first `i`
elements go last. -/
def rotateL {α : Type} (a : List α) (i : Nat) : List α :=
  a.drop i ++ a.take i

/-- Modelled from the spec: the struct `RotateR`: the operand and the number
of places. -/
structure RotateR (α : Type) where
  x : Operand α
  i : Nat
deriving DecidableEq, Repr

/-- Modelled from the spec: `mat.NewVecDense`, the column vector holding the
given elements. -/
def NewVecDense {α : Type} (data : List α) : Matrix α :=
  ⟨data.length, 1, data, (Nat.mul_one _).symm⟩

/-- Modelled from the spec: `RotateR.Forward`, the operand value shifted right
by `i` places. -/
def RotateR.Forward {α : Type} (r : RotateR α) : Matrix α :=
  NewVecDense (rotateR r.x.value.data r.i)

/-- Modelled from the spec: `RotateR.Backward`: the incoming gradient shifted
left by `i` places is propagated to an operand that requires grad. -/
def RotateR.Backward {α : Type} (r : RotateR α) (gy : Matrix α) : BackwardRun α :=
  if r.x.requiresGrad then ⟨[(Slot.x, NewVecDense (rotateL gy.data r.i))], none⟩
  else ⟨[], none⟩

/-! ## The View kernel (`pkg/ml/ag/fn`, known by its test) -/

/-- Modelled from the spec: the struct `View`: the operand, then the first row
and the first column of the block and its numbers of rows and of columns,
named after the arguments of `Graph.View`. -/
structure View (α : Type) where
  x : Operand α
  row : Nat
  column : Nat
  xStride : Nat
  yStride : Nat
deriving DecidableEq, Repr

/-- Modelled from the spec: `At(i, j)`, the element in row `i` and column `j`
of the row-major buffer; an index outside the matrix is fatal. -/
def Matrix.At {α : Type} (m : Matrix α) (i j : Nat) : Except String α :=
  if i < m.rows ∧ j < m.cols then
    match m.data[i * m.cols + j]? with
    | some v => .ok v
    | none => .error "index out of range"
  else .error "mat: argument out of range"

/-- The positions of a block of `h` rows and `w` columns, row by row: the
order in which the nested loops over the rows and the columns visit them. -/
def blockPositions (h w : Nat) : List (Nat × Nat) :=
  (List.range (h * w)).map (fun p => (p / w, p % w))

/-- Modelled from the spec: `View.Forward`, the matrix of `xStride` rows and
`yStride` columns read off the block of the operand value that starts at
`(row, column)`; a block that does not lie inside the operand value is
fatal. -/
def View.Forward {α : Type} [Zero α] (r : View α) : Except String (Matrix α) :=
  if r.row + r.xStride ≤ r.x.value.rows ∧ r.column + r.yStride ≤ r.x.value.cols then
    .ok ⟨r.xStride, r.yStride,
      (blockPositions r.xStride r.yStride).map (fun p =>
        r.x.value.data.getD ((p.1 + r.row) * r.x.value.cols + (p.2 + r.column)) 0),
      by simp [blockPositions]⟩
  else .error "mat: argument out of range"

/-- Modelled from the spec: `View.Backward`: the incoming gradient must have
the shape of the block; for an operand that requires grad it is written,
position by position, into the block of a zero-initialised buffer of the
shape of the operand value, which is then propagated. -/
def View.Backward {α : Type} [Zero α] (r : View α) (gy : Matrix α) : BackwardRun α :=
  if !(gy.rows == r.xStride && gy.cols == r.yStride) then ⟨[], some notCompatible⟩
  else if r.x.requiresGrad then
    ⟨[(Slot.x, (blockPositions r.xStride r.yStride).foldl
        (fun gx p => gx.store ((p.1 + r.row) * r.x.value.cols + (p.2 + r.column))
          (gy.data.getD (p.1 * r.yStride + p.2) 0))
        r.x.value.ZerosLike)], none⟩
  else ⟨[], none⟩

/-! ## The ReLU kernel (`pkg/ml/ag/fn`, known by the test of the activation layer) -/

/-- Modelled from the spec: the struct `ReLU`: the operand. -/
structure ReLU (α : Type) where
  x : Operand α
deriving DecidableEq, Repr

/-- Modelled from the spec: `ReLU.Forward`: each element is kept where it is
positive and replaced by 0 elsewhere. -/
def ReLU.Forward {α : Type} [LT α] [DecidableRel (fun (x y : α) => x < y)] [Zero α]
    (r : ReLU α) : Matrix α :=
  ⟨r.x.value.rows, r.x.value.cols, r.x.value.data.map (fun v => if 0 < v then v else 0),
    by rw [List.length_map]; exact r.x.value.size_eq⟩

/-- Modelled from the spec: `ReLU.Backward`: a shape mismatch between `gy` and
the operand value is fatal; for an operand that requires grad the incoming
gradient is passed on where the derivative of the kernel is 1 and replaced by
0 where it is 0. The derivative is 1 at a positive element and 0 at a negative
one. Neither the spec nor the test says which of the two it is at 0, so the
kernel's choice is the argument `atZero`: `true` when the kernel tests
`x ≥ 0`, `false` when it tests `x > 0`. -/
def ReLU.Backward {α : Type} [LT α] [DecidableRel (fun (x y : α) => x < y)] [LE α]
    [DecidableRel (fun (x y : α) => x ≤ y)] [Zero α]
    (atZero : Bool) (r : ReLU α) (gy : Matrix α) : BackwardRun α :=
  if !(Compatible r.x.value gy) then ⟨[], some notCompatible⟩
  else if r.x.requiresGrad then
    ⟨[(Slot.x, ⟨r.x.value.rows, r.x.value.cols,
        (List.range (r.x.value.rows * r.x.value.cols)).map (fun p =>
          if (if atZero then decide (0 ≤ r.x.value.data.getD p 0)
              else decide (0 < r.x.value.data.getD p 0)) then gy.data.getD p 0
          else 0),
        by simp⟩)], none⟩
  else ⟨[], none⟩

/-- Modelled from the spec: `propagate_grad` of a variable, whose struct is
not part of the sources: a variable that requires grad takes the partial as
its gradient when it has none and adds the partial to its gradient
otherwise. -/
def Leaf.PropagateGrad {α : Type} [Add α] [Zero α] (l : Leaf α) (gx : Matrix α) : Leaf α :=
  if l.requiresGrad then
    match l.grad with
    | none => { l with grad := some gx }
    | some g =>
      { l with grad := some ⟨g.rows, g.cols,
          (List.range (g.rows * g.cols)).map (fun p => g.data.getD p 0 + gx.data.getD p 0),
          by simp⟩ }
  else l

/-- Modelled from the spec: `graph.backward(y, seed)` for `y = relu(x)` on a
variable `x`: the seed is the gradient of `y`, the backward of `y` runs the
kernel's `Backward` on it, and the `PropagateGrad` calls of the kernel reach
the variable. The variable after the backward pass is returned; `atZero` is
the kernel's choice of derivative at 0. -/
def backwardReLU {α : Type} [LT α] [DecidableRel (fun (x y : α) => x < y)] [LE α]
    [DecidableRel (fun (x y : α) => x ≤ y)] [Add α] [Zero α]
    (atZero : Bool) (x : Leaf α) (seed : Matrix α) : Except String (Leaf α) :=
  match x.value with
  | none => .error nilDereference
  | some xv =>
    let run := ReLU.Backward atZero ⟨⟨xv, x.requiresGrad⟩⟩ seed
    match run.panicked with
    | some e => .error e
    | none => .ok (run.propagated.foldl (fun l p => l.PropagateGrad p.2) x)

/-- The kernel of the test of `View`, in tenths: the 3 × 4 operand value and
the block of 2 rows and 2 columns that starts at `(1, 1)`. -/
def sampleView : View Int :=
  ⟨⟨⟨3, 4, [1, 2, 3, 0, 4, 5, -6, 7, -5, 8, -8, -1], rfl⟩, true⟩, 1, 1, 2, 2⟩

/-- The incoming gradient of the test of `View`, in tenths. -/
def sampleViewGrad : Matrix Int := ⟨2, 2, [1, 2, -8, -1], rfl⟩

/-- The variable of the test of the ReLU activation, in tenths: it requires
grad and has no gradient yet. -/
def sampleReLUInput : Leaf Int :=
  ⟨LeafKind.variable, true, some (NewVecDense [1, -2, 3, 0]), none⟩

/-- The seed of the test of the ReLU activation, in tenths. -/
def sampleReLUSeed : Matrix Int := NewVecDense [-10, 5, 8, 0]

/-! ## Values of graph nodes (`pkg/ml/ag/operators.go`)

`Value.F x` is the value of the node that the graph method `F` returns for
operands with the given values: the result of `Forward` of the kernel the
method wraps. A panic of the kernel is an error. -/

/-- The addition of the element type, under a name that the graph method
`Add` below does not hide. -/
abbrev ElemAdd (α : Type) := Add α

/-- The subtraction of the element type, under a name that the graph method
`Sub` below does not hide. -/
abbrev ElemSub (α : Type) := Sub α

/-- The multiplication of the element type, under a name that the graph
method `Mul` below does not hide. -/
abbrev ElemMul (α : Type) := Mul α

/-- Modelled from the spec: an element-wise unary operation of the tensor
library: the shape is kept and `f` is applied to every element. -/
def Matrix.apply {α : Type} (f : α → α) (a : Matrix α) : Matrix α :=
  ⟨a.rows, a.cols, a.data.map f, by rw [List.length_map]; exact a.size_eq⟩

/-- Modelled from the spec: an element-wise binary operation of the tensor
library, in the shape of the receiver; a shape mismatch (neither same dims nor
two vectors of equal size) is fatal. -/
def Matrix.elementWise {α : Type} (f : α → α → α) (a b : Matrix α) :
    Except String (Matrix α) :=
  if h : Compatible a b = true then
    .ok ⟨a.rows, a.cols, List.zipWith f a.data b.data, by
      have hlen : b.data.length = a.data.length := by
        rw [a.size_eq, b.size_eq]
        simp only [Compatible, SameDims, VectorsOfSameSize, Matrix.Size, Bool.or_eq_true,
          Bool.and_eq_true, beq_iff_eq] at h
        rcases h with h | h
        · rw [h.1, h.2]
        · exact h.1.1.symm
      rw [List.length_zipWith, hlen, Nat.min_self]
      exact a.size_eq⟩
  else .error "mat: matrices with not compatible size"

/-- Modelled from the spec: the value of `g.Sub(x1, x2)`, the element-wise
difference behind the shape guard of the binary kernels. -/
def Value.Sub {α : Type} [Sub α] (x1 x2 : Matrix α) : Except String (Matrix α) :=
  if !(Compatible x1 x2) then .error notCompatible
  else x1.elementWise (fun a b => a - b) x2

/-- Modelled from the spec: the value of `g.Prod(x1, x2)`, the element-wise
product behind the shape guard of the binary kernels. -/
def Value.Prod {α : Type} [Mul α] (x1 x2 : Matrix α) : Except String (Matrix α) :=
  if !(Compatible x1 x2) then .error notCompatible
  else x1.elementWise (fun a b => a * b) x2

/-- Modelled from the spec: the value of `g.Square(x)`, by the comment of the
method the element-wise product of `x` with itself. -/
def Value.Square {α : Type} [Mul α] (x : Matrix α) : Matrix α :=
  x.apply (fun v => v * v)

/-- Modelled from the spec: the value of `g.ProdScalar(x1, x2)`: every element
of `x1` times the scalar held by `x2`; an `x2` that is not a scalar is
fatal. -/
def Value.ProdScalar {α : Type} [Mul α] (x1 x2 : Matrix α) : Except String (Matrix α) := do
  let k ← x2.Scalar
  pure (x1.apply (fun v => v * k))

/-- Modelled from the spec: the value of `g.ReverseSub(x1, x2)`, the kernel
`ReverseSubScalar`: the scalar held by `x2` minus every element of `x1`; an
`x2` that is not a scalar is fatal. -/
def Value.ReverseSub {α : Type} [ElemSub α] (x1 x2 : Matrix α) :
    Except String (Matrix α) := do
  let k ← x2.Scalar
  pure (x1.apply (fun v => k - v))

/-- The value of `g.ReduceSum(x)`: `Forward` of the kernel `ReduceSum`. -/
def Value.ReduceSum {α : Type} [Add α] [Zero α] (x : Matrix α) : Matrix α :=
  ReduceSum.Forward ⟨⟨x, false⟩⟩

/-- Modelled from the spec: the value of `g.ReduceMean(x)`: the scalar
holding the sum of the elements divided by their number. -/
def Value.ReduceMean {α : Type} [Field α] (x : Matrix α) : Matrix α :=
  NewScalar (x.Sum / (x.Size : α))

/-! ## Losses (`pkg/ml/losses/losses.go`) -/

/-- The function `MSE`, on the values of `x` and `y`; `g.Constant(0.5)` is the
scalar one half. -/
def MSE {α : Type} [Field α] (x y : Matrix α) (reduceMean : Bool) :
    Except String (Matrix α) := do
  let loss ← Value.ProdScalar (Value.Square (← Value.Sub x y)) (NewScalar (1 / 2))
  if reduceMean then
    return Value.ReduceMean loss
  return Value.ReduceSum loss

/-- The function `ZeroOneQuantization`, on the value of `x`. -/
def ZeroOneQuantization {α : Type} [Add α] [Sub α] [Mul α] [Zero α] [One α]
    (x : Matrix α) : Except String (Matrix α) := do
  return Value.ReduceSum
    (← Value.Prod (Value.Square x) (Value.Square (← Value.ReverseSub x (NewScalar 1))))

/-- The mean of the squared differences of two buffers of `n` elements, the
mean squared error in the words of the claim. -/
def meanSquaredError {α : Type} [Field α] (x y : List α) : α :=
  (1 / (x.length : α)) * (List.zipWith (fun a b => (a - b) * (a - b)) x y).sum

/-- The sum of the squared differences of two buffers, the squared L2 norm of
their difference. -/
def squaredL2 {α : Type} [Field α] (x y : List α) : α :=
  (List.zipWith (fun a b => (a - b) * (a - b)) x y).sum

/-! ## The LSTM (`nn/recurrent/lstm/lstm.go`) -/

/-- Modelled from the spec: `mat.NewEmptyDense`, the zero-filled matrix of the
given shape. -/
def NewEmptyDense {α : Type} [Zero α] (rows cols : Nat) : Matrix α :=
  ⟨rows, cols, List.replicate (rows * cols) 0, List.length_replicate _ _⟩

/-- Modelled from the spec: `mat.NewEmptyVecDense`, the zero-filled column
vector of the given size. -/
def NewEmptyVecDense {α : Type} [Zero α] (size : Nat) : Matrix α :=
  NewInitVecDense size 0

/-- Modelled from the spec: the value of `Mul(x1, x2)`, the matrix product; a
left operand whose number of columns is not the number of rows of the right
operand is fatal. -/
def Value.Mul {α : Type} [Add α] [Mul α] [Zero α] (x1 x2 : Matrix α) :
    Except String (Matrix α) :=
  if x1.cols ≠ x2.rows then .error "mat: matrices with not compatible size"
  else
    .ok ⟨x1.rows, x2.cols,
      (List.range (x1.rows * x2.cols)).map (fun p =>
        ((List.range x1.cols).map (fun k =>
          x1.data.getD (p / x2.cols * x1.cols + k) 0 *
            x2.data.getD (k * x2.cols + p % x2.cols) 0)).sum),
      by simp⟩

/-- Modelled from the spec: the value of `Add(x1, x2)`, the element-wise sum
behind the shape guard of the binary kernels. The first operand of the graph
method may be nil: a zero matrix of the shape of `x2` then stands for it. -/
def Value.Add {α : Type} [Add α] [Zero α] (x1 : Option (Matrix α)) (x2 : Matrix α) :
    Except String (Matrix α) :=
  let x1v := match x1 with
    | some v => v
    | none => x2.ZerosLike
  if !(Compatible x1v x2) then .error notCompatible
  else x1v.elementWise (fun a b => a + b) x2

/-- Modelled from the spec: the value of `Affine(b, w, x, wRec, yPrev)`, whose
source is not part of the sources: `b + w·x`, to which `wRec·yPrev` is added
when `yPrev` is not nil. -/
def Value.Affine {α : Type} [ElemAdd α] [ElemMul α] [Zero α] (b w x wRec : Matrix α)
    (yPrev : Option (Matrix α)) : Except String (Matrix α) := do
  let y ← Value.Add (some b) (← Value.Mul w x)
  match yPrev with
  | some yp => Value.Add (some y) (← Value.Mul wRec yp)
  | none => pure y

/-- The scalar functions behind the element-wise activations `Sigmoid` and
`Tanh`. -/
structure Activations (α : Type) where
  sigmoid : α → α
  tanh : α → α

/-- Modelled from the spec: the value of `Sigmoid(x)`. -/
def Value.Sigmoid {α : Type} (act : Activations α) (x : Matrix α) : Matrix α :=
  x.apply act.sigmoid

/-- Modelled from the spec: the value of `Tanh(x)`. -/
def Value.Tanh {α : Type} (act : Activations α) (x : Matrix α) : Matrix α :=
  x.apply act.tanh

/-- The struct `Model` of the LSTM: the option and the values of the twelve
parameters. -/
structure LSTM.Model (α : Type) where
  UseRefinedGates : Bool
  WIn : Matrix α
  WInRec : Matrix α
  BIn : Matrix α
  WOut : Matrix α
  WOutRec : Matrix α
  BOut : Matrix α
  WFor : Matrix α
  WForRec : Matrix α
  BFor : Matrix α
  WCand : Matrix α
  WCandRec : Matrix α
  BCand : Matrix α
deriving DecidableEq, Repr

/-- The struct `State` of the LSTM, with the values of its nodes. -/
structure LSTM.State (α : Type) where
  InG : Matrix α
  OutG : Matrix α
  ForG : Matrix α
  Cand : Matrix α
  Cell : Matrix α
  Y : Matrix α
deriving DecidableEq, Repr

/-- The function `newGateParams`: the values of `w`, `wRec` and `b`. -/
def LSTM.newGateParams {α : Type} [Zero α] (inp out : Nat) :
    Matrix α × Matrix α × Matrix α :=
  (NewEmptyDense out inp, NewEmptyDense out out, NewEmptyVecDense out)

/-- The function `New` without options. -/
def LSTM.New {α : Type} [Zero α] (inp out : Nat) : LSTM.Model α :=
  let gIn : Matrix α × Matrix α × Matrix α := LSTM.newGateParams inp out
  let gOut : Matrix α × Matrix α × Matrix α := LSTM.newGateParams inp out
  let gFor : Matrix α × Matrix α × Matrix α := LSTM.newGateParams inp out
  let gCand : Matrix α × Matrix α × Matrix α := LSTM.newGateParams inp out
  { UseRefinedGates := false,
    WIn := gIn.1, WInRec := gIn.2.1, BIn := gIn.2.2,
    WOut := gOut.1, WOutRec := gOut.2.1, BOut := gOut.2.2,
    WFor := gFor.1, WForRec := gFor.2.1, BFor := gFor.2.2,
    WCand := gCand.1, WCandRec := gCand.2.1, BCand := gCand.2.2 }

/-- The method `Next`: one forward step from the previous state (`none` is
nil) and the input `x`. -/
def LSTM.Model.Next {α : Type} [Add α] [Mul α] [Zero α] (act : Activations α)
    (m : LSTM.Model α)
    (state : Option (LSTM.State α)) (x : Matrix α) : Except String (LSTM.State α) := do
  let yPrev := state.map (fun s => s.Y)
  let cellPrev := state.map (fun s => s.Cell)
  let inG0 := Value.Sigmoid act (← Value.Affine m.BIn m.WIn x m.WInRec yPrev)
  let outG0 := Value.Sigmoid act (← Value.Affine m.BOut m.WOut x m.WOutRec yPrev)
  let forG := Value.Sigmoid act (← Value.Affine m.BFor m.WFor x m.WForRec yPrev)
  let cand := Value.Tanh act (← Value.Affine m.BCand m.WCand x m.WCandRec yPrev)
  let inG ← if m.UseRefinedGates then Value.Prod inG0 x else pure inG0
  let outG ← if m.UseRefinedGates then Value.Prod outG0 x else pure outG0
  let cell ← match cellPrev with
    | some c => do Value.Add (some (← Value.Prod inG cand)) (← Value.Prod forG c)
    | none => Value.Prod inG cand
  let y ← Value.Prod outG (Value.Tanh act cell)
  pure ⟨inG, outG, forG, cand, cell, y⟩

/-- The loop of `Forward`: the list `states`, from the state before the first
input. -/
def LSTM.Model.unroll {α : Type} [Add α] [Mul α] [Zero α] (act : Activations α)
    (m : LSTM.Model α) :
    Option (LSTM.State α) → List (Matrix α) → Except String (List (LSTM.State α))
  | _, [] => .ok []
  | s, x :: xs => do
    let s1 ← m.Next act s x
    let rest ← LSTM.Model.unroll act m (some s1) xs
    pure (s1 :: rest)

/-- The method `Forward`: the outputs `ys`, one per input. -/
def LSTM.Model.Forward {α : Type} [Add α] [Mul α] [Zero α] (act : Activations α)
    (m : LSTM.Model α)
    (xs : List (Matrix α)) : Except String (List (Matrix α)) := do
  let states ← m.unroll act none xs
  pure (states.map (fun s => s.Y))

/-- The state of an LSTM whose gates hold `sigmoid 0` and whose candidate,
cell and output are zero. -/
def LSTM.zeroState {α : Type} [Zero α] (act : Activations α) (out : Nat) : LSTM.State α :=
  ⟨NewInitVecDense out (act.sigmoid 0), NewInitVecDense out (act.sigmoid 0),
    NewInitVecDense out (act.sigmoid 0), NewEmptyVecDense out, NewEmptyVecDense out,
    NewEmptyVecDense out⟩

/-! ## The CRF (`pkg/ml/nn/crf/crf.go`) -/

/-- The scalar functions behind the element-wise kernels `Exp` and `Log`. -/
structure ExpLog (α : Type) where
  exp : α → α
  log : α → α

/-- Modelled from the spec: the value of `g.Exp(x)`. -/
def Value.Exp {α : Type} (f : ExpLog α) (x : Matrix α) : Matrix α := x.apply f.exp

/-- Modelled from the spec: the value of `g.Log(x)`. -/
def Value.Log {α : Type} (f : ExpLog α) (x : Matrix α) : Matrix α := x.apply f.log

/-- Modelled from the spec: the value of `g.At(x, i, j)`, the scalar holding
the element in row `i` and column `j`. -/
def Value.At {α : Type} (x : Matrix α) (i j : Nat) : Except String (Matrix α) := do
  pure (NewScalar (← x.At i j))

/-- Modelled from the spec: `AtVec(i)`, element `i` of a vector; a matrix
that is not a vector and an index outside the vector are fatal. -/
def Matrix.AtVec {α : Type} (m : Matrix α) (i : Nat) : Except String α :=
  if !m.IsVector then .error "mat: expected vector"
  else
    match m.data[i]? with
    | some v => .ok v
    | none => .error "mat: argument out of range"

/-- Modelled from the spec: the value of `g.AtVec(x, i)`, the scalar holding
element `i` of the vector `x`. -/
def Value.AtVec {α : Type} (x : Matrix α) (i : Nat) : Except String (Matrix α) := do
  pure (NewScalar (← x.AtVec i))

/-- Modelled from the spec: the value of `g.Concat(xs...)`, the column vector
of the elements of the vectors `xs`, in order; an operand that is not a vector
is fatal. -/
def Value.Concat {α : Type} (xs : List (Matrix α)) : Except String (Matrix α) :=
  if xs.all (fun x => x.IsVector) then .ok (NewVecDense (xs.flatMap (fun x => x.data)))
  else .error "mat: required vector, found matrix"

/-- The struct `Processor`, reduced to the value of `transitionScores`, which
wraps the parameter `TransitionScores` of the model. -/
structure CRF.Processor (α : Type) where
  transitionScores : Matrix α
deriving DecidableEq, Repr

/-- The two statements `size := p.model.TransitionScores.Value().Rows() - 1`
and `scores := make([]ag.Node, size)`: a negative length is fatal. -/
def CRF.Processor.size {α : Type} (p : CRF.Processor α) : Except String Nat :=
  if p.transitionScores.rows = 0 then .error "makeslice: len out of range"
  else .ok (p.transitionScores.rows - 1)

/-- The loop of `goldScore` over the remaining emission scores and targets,
followed by the addition of the end transition. -/
def CRF.Processor.goldScoreFrom {α : Type} [Add α] [Zero α] (p : CRF.Processor α) :
    Matrix α → Nat → List (Matrix α) → List Nat → Except String (Matrix α)
  | goldScore, prevIndex, _, [] => do
    Value.Add (some goldScore) (← Value.At p.transitionScores prevIndex 0)
  | _, _, [], _ :: _ => .error "index out of range"
  | goldScore, prevIndex, e :: es, t :: ts => do
    let g1 ← Value.Add (some goldScore) (← Value.At e t 0)
    let g2 ← Value.Add (some g1) (← Value.At p.transitionScores prevIndex (t + 1))
    CRF.Processor.goldScoreFrom p g2 (t + 1) es ts

/-- The method `goldScore`: the score of the target sequence. -/
def CRF.Processor.goldScore {α : Type} [Add α] [Zero α] (p : CRF.Processor α)
    (emissionScores : List (Matrix α)) (target : List Nat) : Except String (Matrix α) :=
  match emissionScores, target with
  | e0 :: es, t0 :: ts => do
    let g0 ← Value.At e0 t0 0
    let g1 ← Value.Add (some g0) (← Value.At p.transitionScores 0 (t0 + 1))
    p.goldScoreFrom g1 (t0 + 1) es ts
  | _, _ => .error "index out of range"

/-- The method `totalScoreStart`. -/
def CRF.Processor.totalScoreStart {α : Type} [Add α] [Zero α] (p : CRF.Processor α)
    (stepVec : Matrix α) : Except String (Matrix α) := do
  let size ← p.size
  let scores ← (List.range size).mapM (fun i => do
    Value.Add (some (← Value.AtVec stepVec i)) (← Value.At p.transitionScores 0 (i + 1)))
  Value.Concat scores

/-- The method `totalScoreEnd`; the entries of `scores` are nil before they
are added to. -/
def CRF.Processor.totalScoreEnd {α : Type} [Add α] [Zero α] (f : ExpLog α)
    (p : CRF.Processor α)
    (stepVec : Matrix α) : Except String (Matrix α) := do
  let size ← p.size
  let scores ← (List.range size).mapM (fun i => do
    let vecTrans ← Value.Add (some (← Value.AtVec stepVec i))
      (← Value.At p.transitionScores (i + 1) 0)
    Value.Add none (Value.Exp f vecTrans))
  Value.Concat scores

/-- The body of the inner loop of `totalScoreStep`, for the indexes `i` and
`j`: `scores[j]`, nil at first, is added to. -/
def CRF.Processor.accumulate {α : Type} [Add α] [Zero α] (f : ExpLog α) (p : CRF.Processor α)
    (totalVec stepVec : Matrix α) (i : Nat) (scores : List (Option (Matrix α))) (j : Nat) :
    Except String (List (Option (Matrix α))) := do
  let vecSum ← Value.Add (some (← Value.AtVec totalVec i)) (← Value.AtVec stepVec j)
  let vecTrans ← Value.Add (some vecSum) (← Value.At p.transitionScores (i + 1) (j + 1))
  let s ← Value.Add (scores.getD j none) (Value.Exp f vecTrans)
  pure (scores.set j (some s))

/-- The method `totalScoreStep`: the nested loops that accumulate into
`scores`, the loop that takes the logarithm of every entry (a nil entry is a
nil dereference), and the concatenation. -/
def CRF.Processor.totalScoreStep {α : Type} [Add α] [Zero α] (f : ExpLog α)
    (p : CRF.Processor α)
    (totalVec stepVec : Matrix α) : Except String (Matrix α) := do
  let size ← p.size
  let scores ← (List.range size).foldlM
    (fun scores i => (List.range size).foldlM (p.accumulate f totalVec stepVec i) scores)
    (List.replicate size none)
  let logs ← scores.mapM (fun s =>
    match s with
    | some v => (.ok (Value.Log f v) : Except String (Matrix α))
    | none => .error nilDereference)
  Value.Concat logs

/-- The method `totalScore`. -/
def CRF.Processor.totalScore {α : Type} [Add α] [Zero α] (f : ExpLog α) (p : CRF.Processor α)
    (predicted : List (Matrix α)) : Except String (Matrix α) :=
  match predicted with
  | [] => .error "index out of range"
  | x0 :: rest => do
    let start ← p.totalScoreStart x0
    let totalVector ← rest.foldlM (fun tv x => p.totalScoreStep f tv x) start
    let totalVector ← p.totalScoreEnd f totalVector
    pure (Value.Log f (Value.ReduceSum totalVector))

/-- The method `NegativeLogLoss`. -/
def CRF.Processor.NegativeLogLoss {α : Type} [Add α] [Sub α] [Zero α] (f : ExpLog α)
    (p : CRF.Processor α)
    (emissionScores : List (Matrix α)) (target : List Nat) : Except String (Matrix α) := do
  let goldScore ← p.goldScore emissionScores target
  let totalScore ← p.totalScore f emissionScores
  Value.Sub totalScore goldScore

/-- The element in row `i` and column `j` of the row-major buffer, 0 outside
the buffer. -/
def Matrix.entry {α : Type} [Zero α] (m : Matrix α) (i j : Nat) : α :=
  m.data.getD (i * m.cols + j) 0

/-- The score of a label sequence `l` in the words of the claim:
`Σ_i e_i[l_i] + T[0][l_0+1] + Σ_{i≥1} T[l_{i−1}+1][l_i+1] + T[l_{n−1}+1][0]`. -/
def CRF.score {α : Type} [Add α] [Zero α] (T : Matrix α) (E : List (Matrix α))
    (l : List Nat) : α :=
  (List.zipWith (fun (e : Matrix α) li => e.data.getD li 0) E l).sum
    + T.entry 0 (l.headD 0 + 1)
    + (List.zipWith (fun a b => T.entry (a + 1) (b + 1)) l l.tail).sum
    + T.entry (l.getLastD 0 + 1) 0

/-- All sequences of `n` labels out of `L`. -/
def CRF.labelSequences (L : Nat) : Nat → List (List Nat)
  | 0 => [[]]
  | n + 1 => (List.range L).flatMap (fun j => (CRF.labelSequences L n).map (fun l => j :: l))

/-- The brute-force total score in the words of the claim: the logarithm of
the sum, over all label sequences, of the exponential of the score. -/
def CRF.bruteForce {α : Type} [Add α] [Zero α] (f : ExpLog α) (T : Matrix α) (E : List (Matrix α))
    (L : Nat) : α :=
  f.log (((CRF.labelSequences L E.length).map (fun l => f.exp (CRF.score T E l))).sum)

/-- The score that the loop of `goldScore` adds from the row `prevIndex` of the
transition scores on: the emissions and transitions of the remaining targets
and the end transition. -/
def CRF.chain {α : Type} [Add α] [Zero α] (T : Matrix α) : Nat → List (Matrix α) → List Nat → α
  | prevIndex, _, [] => T.entry prevIndex 0
  | _, [], _ :: _ => 0
  | prevIndex, e :: es, t :: ts =>
    e.data.getD t 0 + T.entry prevIndex (t + 1) + CRF.chain T (t + 1) es ts

/-- The buffer of the vector that `totalScoreStart` returns for `L` labels. -/
def CRF.alphaStart {α : Type} [Add α] [Zero α] (T : Matrix α) (L : Nat) (e : Matrix α) : List α :=
  (List.range L).map (fun j => e.data.getD j 0 + T.entry 0 (j + 1))

/-- The buffer of the vector that `totalScoreStep` returns for `L` labels and
the buffer `a` of `totalVec`. -/
def CRF.alphaStep {α : Type} [Add α] [Zero α] (f : ExpLog α) (T : Matrix α) (L : Nat) (a : List α)
    (e : Matrix α) : List α :=
  (List.range L).map (fun j =>
    f.log ((List.range L).map (fun i =>
      f.exp (a.getD i 0 + e.data.getD j 0 + T.entry (i + 1) (j + 1)))).sum)

/-- The buffer of the vector that `totalScoreEnd` returns for `L` labels and
the buffer `a` of `stepVec`. -/
def CRF.alphaEnd {α : Type} [Add α] [Zero α] (f : ExpLog α) (T : Matrix α) (L : Nat) (a : List α) :
    List α :=
  (List.range L).map (fun i => f.exp (a.getD i 0 + T.entry (i + 1) 0))

/-- The entry `scores[j]` of `totalScoreStep` after `k` rounds of the outer
loop, for the buffer `a` of `totalVec`: nil before the first round, then the
scalar holding the sum accumulated so far. -/
def CRF.runningScore {α : Type} [Add α] [Zero α] (f : ExpLog α) (T : Matrix α) (a : List α)
    (e : Matrix α) (k j : Nat) : Option (Matrix α) :=
  if k = 0 then none
  else some (NewScalar ((List.range k).map (fun i =>
    f.exp (a.getD i 0 + e.data.getD j 0 + T.entry (i + 1) (j + 1)))).sum)

/-- The processor of the test of the CRF: two labels, the transition scores
`0, 1, ..., 8` in three rows and columns. -/
def sampleCRF (α : Type) [Field α] : CRF.Processor α :=
  ⟨⟨3, 3, [0, 1, 2, 3, 4, 5, 6, 7, 8], rfl⟩⟩

/-- The emission scores of the test of the CRF: two vectors over two
labels. -/
def sampleEmissions (α : Type) [Field α] : List (Matrix α) :=
  [NewVecDense [1, 2], NewVecDense [3, 4]]

/-! ## The element type `float64`

`mat.Float` is a Go floating-point type; the arithmetic of the kernels is the
IEEE 754 arithmetic of Go, rounding to nearest with ties to even. -/

/-- A `float64`: not a number, an infinity, or the finite value
`(-1)^neg · m · 2^e`. Finite values are kept in the form of the format:
`2^52 ≤ m < 2^53` and `-1074 ≤ e ≤ 971` (normal), or `m < 2^52` and
`e = -1074` (subnormal and zero). Zero carries no sign: `-0` and `0` compare
equal in Go and are one value here. -/
inductive F64 where
  | nan
  | inf (neg : Bool)
  | fin (neg : Bool) (m : Nat) (e : Int)
deriving DecidableEq, Repr

/-- The least `k` among `k0`, `2·k0`, `4·k0`, ... with `m < 2^k`; `fuel`
bounds the recursion. -/
def F64.bitBound : Nat → Nat → Nat → Nat
  | 0, k, _ => k
  | fuel + 1, k, m => if m < 2 ^ k then k else F64.bitBound fuel (2 * k) m

/-- The number `n` with `2^(n-1) ≤ m < 2^n`, searched by bisection between
`lo` and `hi`, where `2^lo ≤ m < 2^hi`; `fuel` bounds the recursion. -/
def F64.bitSearch : Nat → Nat → Nat → Nat → Nat
  | 0, _, hi, _ => hi
  | fuel + 1, lo, hi, m =>
    if hi ≤ lo + 1 then hi
    else if m < 2 ^ ((lo + hi) / 2) then F64.bitSearch fuel lo ((lo + hi) / 2) m
    else F64.bitSearch fuel ((lo + hi) / 2) hi m

/-- The number of binary digits of `m`. -/
def F64.bitLength (m : Nat) : Nat :=
  if m = 0 then 0 else F64.bitSearch m 0 (F64.bitBound m 1 m) m

/-- The `float64` nearest to the exact value `(-1)^neg · m · 2^e`, ties to the
even mantissa: the exponent `e1` of the result is chosen so that the mantissa
has 53 digits, or is `-1074` for a subnormal result; the digits below `2^e1`
are rounded away; a value beyond the largest `float64` becomes an
infinity. -/
def F64.round (neg : Bool) (m : Nat) (e : Int) : F64 :=
  if m = 0 then .fin false 0 (-1074)
  else
    let e1 : Int := max (e + (F64.bitLength m : Nat) - 53) (-1074)
    if e1 ≤ e then
      if 971 < e1 then .inf neg else .fin neg (m * 2 ^ (e - e1).toNat) e1
    else
      let s : Nat := (e1 - e).toNat
      let q : Nat := m / 2 ^ s
      let r : Nat := m % 2 ^ s
      let q1 : Nat := if 2 ^ (s - 1) < r ∨ (2 ^ (s - 1) = r ∧ q % 2 = 1) then q + 1 else q
      if q1 = 0 then .fin false 0 (-1074)
      else if q1 = 2 ^ 53 then
        if 971 < e1 + 1 then .inf neg else .fin neg (2 ^ 52) (e1 + 1)
      else if 971 < e1 then .inf neg
      else .fin neg q1 e1

/-- The integer `(-1)^neg · m · 2^(e - c)`, for an exponent `c ≤ e`. -/
def F64.signed (neg : Bool) (m : Nat) (e c : Int) : Int :=
  if neg then -((m * 2 ^ (e - c).toNat : Nat) : Int) else ((m * 2 ^ (e - c).toNat : Nat) : Int)

/-- The product `x * y` of Go: not a number when an operand is, and for zero
times an infinity; otherwise the exact product, rounded. -/
def F64.mul : F64 → F64 → F64
  | .nan, _ => .nan
  | _, .nan => .nan
  | .inf s, .inf t => .inf (s != t)
  | .inf s, .fin t m _ => if m = 0 then .nan else .inf (s != t)
  | .fin s m _, .inf t => if m = 0 then .nan else .inf (s != t)
  | .fin s m e, .fin t k d => F64.round (s != t) (m * k) (e + d)

/-- The sum `x + y` of Go: not a number when an operand is, and for the sum
of the two infinities; otherwise the exact sum, rounded. -/
def F64.add : F64 → F64 → F64
  | .nan, _ => .nan
  | _, .nan => .nan
  | .inf s, .inf t => if s = t then .inf s else .nan
  | .inf s, .fin _ _ _ => .inf s
  | .fin _ _ _, .inf t => .inf t
  | .fin s m e, .fin t k d =>
    let v : Int := F64.signed s m e (min e d) + F64.signed t k d (min e d)
    F64.round (decide (v < 0)) v.natAbs (min e d)

/-- The negation `-x` of Go. -/
def F64.neg : F64 → F64
  | .nan => .nan
  | .inf s => .inf (!s)
  | .fin s m e => if m = 0 then .fin s m e else .fin (!s) m e

/-- The comparison `x < y` of Go: false when an operand is not a number. -/
def F64.lt : F64 → F64 → Bool
  | .nan, _ => false
  | _, .nan => false
  | .inf s, .inf t => s && !t
  | .inf s, .fin _ _ _ => s
  | .fin _ _ _, .inf t => !t
  | .fin s m e, .fin t k d =>
    decide (F64.signed s m e (min e d) < F64.signed t k d (min e d))

/-- The comparison `x <= y` of Go: false when an operand is not a number. -/
def F64.le : F64 → F64 → Bool
  | .nan, _ => false
  | _, .nan => false
  | .inf s, .inf t => s || !t
  | .inf s, .fin _ _ _ => s
  | .fin _ _ _, .inf t => !t
  | .fin s m e, .fin t k d =>
    decide (F64.signed s m e (min e d) ≤ F64.signed t k d (min e d))

instance : Zero F64 := ⟨.fin false 0 (-1074)⟩

instance : One F64 := ⟨.fin false (2 ^ 52) (-52)⟩

instance : Add F64 := ⟨F64.add⟩

instance : Mul F64 := ⟨F64.mul⟩

instance : Neg F64 := ⟨F64.neg⟩

instance : Sub F64 := ⟨fun x y => F64.add x (F64.neg y)⟩

/-- The `float64` value of `2^k`. -/
def F64.pow2 (k : Int) : F64 := F64.round false 1 k

/-- Modelled from the spec: the scalar functions of the kernels `Exp` and
`Log` on `float64`, where the format fixes them: the exponential of not a
number is not a number; the exponential of an argument below `2^-54` in
magnitude is `1`, the `float64` nearest to the exact value (and the value of
`1 + x`, which Go's `math.Exp` returns for arguments below `2^-28`); the
logarithm of `1` is `0`. On the other arguments `core` stands for them. -/
def F64.expLog (core : ExpLog F64) : ExpLog F64 :=
  { exp := fun x =>
      match x with
      | .nan => .nan
      | .inf s => core.exp (.inf s)
      | .fin s m e => if e ≤ -107 then 1 else core.exp (.fin s m e)
    log := fun x => if x = 1 then 0 else core.log x }

/-- Modelled from the spec: the scalar functions of the kernels `Sigmoid` and
`Tanh` on `float64`, where the format fixes them: both send not a number to
not a number, `sigmoid 0 = 1/2` and `tanh 0 = 0`. On the other arguments
`core` stands for them. -/
def F64.activations (core : Activations F64) : Activations F64 :=
  { sigmoid := fun x =>
      match x with
      | .nan => .nan
      | .inf s => core.sigmoid (.inf s)
      | .fin s m e => if m = 0 then F64.pow2 (-1) else core.sigmoid (.fin s m e)
    tanh := fun x =>
      match x with
      | .nan => .nan
      | .inf s => core.tanh (.inf s)
      | .fin s m e => if m = 0 then 0 else core.tanh (.fin s m e) }

/-! ## Theorems -/

/-- The loop of `anyNodeRequiresGrad` answers true exactly when some node of
the list answers true to `RequiresGrad()`. -/
theorem anyNodeRequiresGrad_eq_true_iff {α : Type} (h : Heap α) (nodes : List Addr) (b : Bool)
    (hb : anyNodeRequiresGrad h nodes = .ok b) :
    b = true ↔ ∃ a ∈ nodes, RequiresGrad h a = .ok true := by
  induction nodes with
  | nil =>
    simp only [anyNodeRequiresGrad, Except.ok.injEq] at hb
    subst hb
    simp
  | cons node rest ih =>
    simp only [anyNodeRequiresGrad] at hb
    cases hr : RequiresGrad h node with
    | error e => rw [hr] at hb; cases hb
    | ok v =>
      rw [hr] at hb
      cases v with
      | true =>
        simp only [Except.ok.injEq] at hb
        subst hb
        simp [hr]
      | false =>
        simp only at hb
        rw [ih hb]
        simp [hr]

/-- When no operand is a nil reference the loop of `anyNodeRequiresGrad`
returns. -/
theorem anyNodeRequiresGrad_total {α : Type} (h : Heap α) (nodes : List Addr)
    (hv : ∀ a ∈ nodes, a < h.length) : ∃ b, anyNodeRequiresGrad h nodes = .ok b := by
  induction nodes with
  | nil => exact ⟨false, rfl⟩
  | cons node rest ih =>
    have hlt : node < h.length := hv node (by simp)
    obtain ⟨b, hb⟩ := ih (fun a ha => hv a (by simp [ha]))
    have hr : ∃ v, RequiresGrad h node = .ok v := by
      simp only [RequiresGrad, List.getElem?_eq_getElem hlt]
      cases h[node] with
      | operator o => exact ⟨_, rfl⟩
      | leaf l => exact ⟨_, rfl⟩
    obtain ⟨v, hr⟩ := hr
    cases v with
    | true => exact ⟨true, by simp [anyNodeRequiresGrad, hr]⟩
    | false => exact ⟨b, by simp [anyNodeRequiresGrad, hr, hb]⟩

/-- C1: `NewOperator` returns whenever no operand is nil, and the operator it
builds requires grad if and only if some operand of the function answers true
to `RequiresGrad()`; with an empty operand list it does not require grad. -/
theorem NewOperator_requiresGrad_iff {α : Type} (w : World α) (g : Graph) (f : Function) :
    ((∀ a ∈ f.operands, a < w.heap.length) → ∃ r, NewOperator w g f = .ok r) ∧
    ∀ w' n, NewOperator w g f = .ok (w', n) →
      ∃ o, w'.heap[n]? = some (.operator o) ∧
        (o.requiresGrad = true ↔ ∃ a ∈ f.operands, RequiresGrad w.heap a = .ok true) ∧
        (f.operands = [] → o.requiresGrad = false) := by
  constructor
  · intro hv
    obtain ⟨b, hb⟩ := anyNodeRequiresGrad_total w.heap f.operands hv
    simp [NewOperator, hb]
  · intro w' n hn
    simp only [NewOperator] at hn
    cases hb : anyNodeRequiresGrad w.heap f.operands with
    | error e => rw [hb] at hn; cases hn
    | ok rg =>
      rw [hb] at hn
      simp only [Except.ok.injEq, Prod.mk.injEq] at hn
      obtain ⟨hw, hn⟩ := hn
      subst hw hn
      refine ⟨_, List.getElem?_concat_length _ _, ?_, ?_⟩
      · exact anyNodeRequiresGrad_eq_true_iff w.heap f.operands rg hb
      · intro he
        rw [he] at hb
        simp only [anyNodeRequiresGrad, Except.ok.injEq] at hb
        exact hb.symm


/-! ### The Max kernel -/

/-- What the loop of `Max.Backward` leaves in the gradient buffer when it
completes: the shape is kept, entries outside the index range are kept, and
inside the range entry `j` receives `gyData[j]` exactly when `a[j] > b[j]`. -/
theorem maxGradLoop_ok {α : Type} [LT α] [DecidableRel (fun (x y : α) => x < y)]
    (a b g : List α) (k : Nat) : ∀ (i : Nat) (gx out : Matrix α),
    maxGradLoop a b g k i gx = .ok out →
    out.rows = gx.rows ∧ out.cols = gx.cols ∧
    ∀ j, ((j < i ∨ i + k ≤ j) → out.data[j]? = gx.data[j]?) ∧
      (i ≤ j → j < i + k → ∃ aj bj, a[j]? = some aj ∧ b[j]? = some bj ∧
        (bj < aj → out.data[j]? = g[j]? ∧ j < gx.data.length ∧ j < g.length) ∧
        (¬ bj < aj → out.data[j]? = gx.data[j]?)) := by
  induction k with
  | zero =>
    intro i gx out h
    simp only [maxGradLoop, Except.ok.injEq] at h
    subst h
    refine ⟨rfl, rfl, fun j => ⟨fun _ => rfl, fun h1 h2 => ?_⟩⟩
    omega
  | succ k ih =>
    intro i gx out h
    rw [maxGradLoop] at h
    cases ha : a[i]? with
    | none => rw [ha] at h; cases h
    | some ai =>
      cases hb : b[i]? with
      | none => rw [ha, hb] at h; cases h
      | some bi =>
        rw [ha, hb] at h
        simp only at h
        by_cases hlt : bi < ai
        · rw [if_pos hlt] at h
          cases hg : g[i]? with
          | none => rw [hg] at h; cases h
          | some gi =>
            rw [hg] at h
            simp only at h
            by_cases hi : i < gx.data.length
            · rw [if_pos hi] at h
              obtain ⟨hr, hc, hj⟩ := ih (i + 1) (gx.store i gi) out h
              refine ⟨hr, hc, fun j => ⟨fun hout => ?_, fun h1 h2 => ?_⟩⟩
              · have hne : i ≠ j := by omega
                rw [(hj j).1 (by omega)]
                simp [Matrix.store, List.getElem?_set, hne]
              · by_cases hij : i = j
                · subst hij
                  refine ⟨ai, bi, ha, hb, fun _ => ⟨?_, hi, ?_⟩, fun hn => absurd hlt hn⟩
                  · rw [(hj i).1 (by omega), hg]
                    simp [Matrix.store, List.getElem?_set, hi]
                  · by_contra hcon
                    rw [List.getElem?_eq_none (by omega)] at hg
                    cases hg
                · obtain ⟨aj, bj, haj, hbj, hw, hnw⟩ := (hj j).2 (by omega) (by omega)
                  refine ⟨aj, bj, haj, hbj, fun hl => ?_, fun hn => ?_⟩
                  · obtain ⟨e1, e2, e3⟩ := hw hl
                    refine ⟨e1, ?_, e3⟩
                    simpa [Matrix.store] using e2
                  · rw [hnw hn]
                    simp [Matrix.store, List.getElem?_set, hij]
            · rw [if_neg hi] at h; cases h
        · rw [if_neg hlt] at h
          obtain ⟨hr, hc, hj⟩ := ih (i + 1) gx out h
          refine ⟨hr, hc, fun j => ⟨fun hout => (hj j).1 (by omega), fun h1 h2 => ?_⟩⟩
          by_cases hij : i = j
          · subst hij
            refine ⟨ai, bi, ha, hb, fun hl => absurd hl hlt, fun _ => (hj i).1 (by omega)⟩
          · exact (hj j).2 (by omega) (by omega)

/-- The loop of `Max.Backward` completes when the index range lies inside all
four buffers. -/
theorem maxGradLoop_total {α : Type} [LT α] [DecidableRel (fun (x y : α) => x < y)]
    (a b g : List α) (k : Nat) : ∀ (i : Nat) (gx : Matrix α),
    i + k ≤ a.length → i + k ≤ b.length → i + k ≤ g.length → i + k ≤ gx.data.length →
    ∃ out, maxGradLoop a b g k i gx = .ok out := by
  induction k with
  | zero => intro i gx _ _ _ _; exact ⟨gx, rfl⟩
  | succ k ih =>
    intro i gx h1 h2 h3 h4
    rw [maxGradLoop]
    rw [List.getElem?_eq_getElem (show i < a.length by omega),
      List.getElem?_eq_getElem (show i < b.length by omega),
      List.getElem?_eq_getElem (show i < g.length by omega)]
    simp only
    by_cases hlt : b[i] < a[i]
    · rw [if_pos hlt, if_pos (show i < gx.data.length by omega)]
      exact ih (i + 1) _ (by omega) (by omega) (by omega)
        (by simp only [Matrix.store, List.length_set]; omega)
    · rw [if_neg hlt]
      exact ih (i + 1) _ (by omega) (by omega) (by omega) (by omega)

/-- A run of `Max.Backward` with both operands requiring grad that does not
panic ran both loops to completion and propagated their buffers, first to
`x1`, then to `x2`. -/
theorem Max_Backward_both {α : Type} [LT α] [DecidableRel (fun (x y : α) => x < y)] [Zero α]
    (r : Max α) (gy : Matrix α) (h1 : r.x1.requiresGrad = true) (h2 : r.x2.requiresGrad = true)
    (hp : (Max.Backward r gy).panicked = none) :
    ∃ gx1 gx2,
      maxGradLoop r.x1.value.data r.x2.value.data gy.data gy.Size 0 r.x1.value.ZerosLike
        = .ok gx1 ∧
      maxGradLoop r.x2.value.data r.x1.value.data gy.data gy.Size 0 r.x2.value.ZerosLike
        = .ok gx2 ∧
      (Max.Backward r gy).propagated = [(Slot.x1, gx1), (Slot.x2, gx2)] := by
  unfold Max.Backward at hp ⊢
  simp only [h1, h2, if_true] at hp ⊢
  split at hp
  · simp at hp
  · rename_i hguard
    rw [if_neg hguard]
    cases hl1 : maxGradLoop r.x1.value.data r.x2.value.data gy.data gy.Size 0
        r.x1.value.ZerosLike with
    | error e => rw [hl1] at hp; simp at hp
    | ok gx1 =>
      rw [hl1] at hp
      simp only at hp ⊢
      cases hl2 : maxGradLoop r.x2.value.data r.x1.value.data gy.data gy.Size 0
          r.x2.value.ZerosLike with
      | error e => rw [hl2] at hp; simp at hp
      | ok gx2 => exact ⟨gx1, gx2, rfl, rfl, by simp⟩

/-- When `gy` has the dimensions of both operand values, `Max.Backward` does
not panic. -/
theorem Max_Backward_sameDims {α : Type} [LT α] [DecidableRel (fun (x y : α) => x < y)]
    [Zero α] (r : Max α) (gy : Matrix α)
    (hd1 : SameDims r.x1.value gy = true) (hd2 : SameDims r.x2.value gy = true) :
    (Max.Backward r gy).panicked = none := by
  have e1 : r.x1.value.data.length = gy.Size := by
    simp only [SameDims, Bool.and_eq_true, beq_iff_eq] at hd1
    rw [r.x1.value.size_eq, Matrix.Size, hd1.1, hd1.2]
  have e2 : r.x2.value.data.length = gy.Size := by
    simp only [SameDims, Bool.and_eq_true, beq_iff_eq] at hd2
    rw [r.x2.value.size_eq, Matrix.Size, hd2.1, hd2.2]
  have e3 : gy.data.length = gy.Size := gy.size_eq
  have z1 : r.x1.value.ZerosLike.data.length = gy.Size := by
    rw [r.x1.value.ZerosLike.size_eq, ← e1, r.x1.value.size_eq]; rfl
  have z2 : r.x2.value.ZerosLike.data.length = gy.Size := by
    rw [r.x2.value.ZerosLike.size_eq, ← e2, r.x2.value.size_eq]; rfl
  obtain ⟨gx1, hl1⟩ := maxGradLoop_total r.x1.value.data r.x2.value.data gy.data gy.Size 0
    r.x1.value.ZerosLike (by omega) (by omega) (by omega) (by omega)
  obtain ⟨gx2, hl2⟩ := maxGradLoop_total r.x2.value.data r.x1.value.data gy.data gy.Size 0
    r.x2.value.ZerosLike (by omega) (by omega) (by omega) (by omega)
  unfold Max.Backward
  simp only [hd1, hd2, hl1, hl2, Bool.true_or, Bool.not_true, Bool.and_self, Bool.false_eq_true,
    if_false]
  cases r.x1.requiresGrad <;> cases r.x2.requiresGrad <;> simp

/-- Entry by entry, what a run of `Max.Backward` that does not panic
propagates when both operands require grad: index `i` of the gradient for
`x1` holds `gy[i]` if `x1[i] > x2[i]` and 0 otherwise, and index `i` of the
gradient for `x2` holds `gy[i]` if `x2[i] > x1[i]` and 0 otherwise. -/
theorem Max_Backward_pointwise {α : Type} [LT α] [DecidableRel (fun (x y : α) => x < y)]
    [Zero α] (r : Max α) (gy : Matrix α)
    (h1 : r.x1.requiresGrad = true) (h2 : r.x2.requiresGrad = true)
    (hp : (Max.Backward r gy).panicked = none) :
    ∃ gx1 gx2, (Max.Backward r gy).propagated = [(Slot.x1, gx1), (Slot.x2, gx2)] ∧
      ∀ i, i < gy.Size → ∃ u v g, r.x1.value.data[i]? = some u ∧
        r.x2.value.data[i]? = some v ∧ gy.data[i]? = some g ∧
        gx1.data[i]? = some (if v < u then g else 0) ∧
        gx2.data[i]? = some (if u < v then g else 0) := by
  obtain ⟨gx1, gx2, hl1, hl2, hprop⟩ := Max_Backward_both r gy h1 h2 hp
  refine ⟨gx1, gx2, hprop, fun i hi => ?_⟩
  obtain ⟨-, -, hj1⟩ := maxGradLoop_ok _ _ _ _ _ _ _ hl1
  obtain ⟨-, -, hj2⟩ := maxGradLoop_ok _ _ _ _ _ _ _ hl2
  obtain ⟨u, v, hu, hv, hw1, hn1⟩ := (hj1 i).2 (Nat.zero_le i) (by omega)
  obtain ⟨v', u', hv', hu', hw2, hn2⟩ := (hj2 i).2 (Nat.zero_le i) (by omega)
  rw [hv] at hv'
  rw [hu] at hu'
  simp only [Option.some.injEq] at hv' hu'
  subst hv' hu'
  have hg : i < gy.data.length := by rw [gy.size_eq]; exact hi
  have hlen1 : i < r.x1.value.rows * r.x1.value.cols := by
    rw [← r.x1.value.size_eq]
    by_contra hcon
    rw [List.getElem?_eq_none (by omega)] at hu
    cases hu
  have hlen2 : i < r.x2.value.rows * r.x2.value.cols := by
    rw [← r.x2.value.size_eq]
    by_contra hcon
    rw [List.getElem?_eq_none (by omega)] at hv
    cases hv
  refine ⟨u, v, gy.data[i], hu, hv, List.getElem?_eq_getElem hg, ?_, ?_⟩
  · by_cases hlt : v < u
    · rw [if_pos hlt, (hw1 hlt).1, List.getElem?_eq_getElem hg]
    · rw [if_neg hlt, hn1 hlt]
      simp [Matrix.ZerosLike, List.getElem?_replicate, hlen1]
  · by_cases hlt : u < v
    · rw [if_pos hlt, (hw2 hlt).1, List.getElem?_eq_getElem hg]
    · rw [if_neg hlt, hn2 hlt]
      simp [Matrix.ZerosLike, List.getElem?_replicate, hlen2]

/-- C2 (counterexample): with `x1 = x2 = [1]` and `gy = [5]`, both operands
requiring grad, the tie at index 0 sends nothing to the first operand: the
gradient propagated to `x1` holds 0, not `gy[0] = 5`, at that index. -/
theorem Max_Backward_tie_counterexample :
    ¬ (∀ (r : Max Int) (gy gx1 gx2 : Matrix Int),
        r.x1.requiresGrad = true → r.x2.requiresGrad = true →
        (Max.Backward r gy).propagated = [(Slot.x1, gx1), (Slot.x2, gx2)] →
        ∀ i, i < gy.Size → r.x1.value.data[i]? = r.x2.value.data[i]? →
          gx1.data[i]? = gy.data[i]? ∧ gx2.data[i]? = some 0) := by
  intro h
  have hc := h ⟨⟨⟨1, 1, [1], rfl⟩, true⟩, ⟨⟨1, 1, [1], rfl⟩, true⟩⟩ ⟨1, 1, [5], rfl⟩
    ⟨1, 1, [0], rfl⟩ ⟨1, 1, [0], rfl⟩ rfl rfl (by decide) 0 (by decide) rfl
  exact absurd hc.1 (by decide)

/-- C2 (amended): with both operands requiring grad, `Max.Backward` does not
panic when `gy` has the dimensions of both operand values, and in every run
that does not panic it propagates one gradient to `x1` and then one to `x2`
in which every index `i` with `x1[i] = x2[i]` holds 0: a tie sends the
incoming gradient to neither operand. -/
theorem Max_Backward_tie_zero {α : Type} [LinearOrder α] [Zero α]
    (r : Max α) (gy : Matrix α)
    (h1 : r.x1.requiresGrad = true) (h2 : r.x2.requiresGrad = true) :
    (SameDims r.x1.value gy = true → SameDims r.x2.value gy = true →
      (Max.Backward r gy).panicked = none) ∧
    ((Max.Backward r gy).panicked = none →
      ∃ gx1 gx2, (Max.Backward r gy).propagated = [(Slot.x1, gx1), (Slot.x2, gx2)] ∧
        ∀ i, i < gy.Size → r.x1.value.data[i]? = r.x2.value.data[i]? →
          gx1.data[i]? = some 0 ∧ gx2.data[i]? = some 0) := by
  refine ⟨Max_Backward_sameDims r gy, fun hp => ?_⟩
  obtain ⟨gx1, gx2, hl1, hl2, hprop⟩ := Max_Backward_both r gy h1 h2 hp
  refine ⟨gx1, gx2, hprop, fun i hi htie => ?_⟩
  obtain ⟨-, -, hj1⟩ := maxGradLoop_ok _ _ _ _ _ _ _ hl1
  obtain ⟨-, -, hj2⟩ := maxGradLoop_ok _ _ _ _ _ _ _ hl2
  obtain ⟨a1, b1, ha1, hb1, -, hn1⟩ := (hj1 i).2 (Nat.zero_le i) (by omega)
  obtain ⟨a2, b2, ha2, hb2, -, hn2⟩ := (hj2 i).2 (Nat.zero_le i) (by omega)
  rw [ha1, hb1] at htie
  rw [ha2] at hb1
  rw [hb2] at ha1
  simp only [Option.some.injEq] at htie hb1 ha1
  subst htie hb1
  subst ha1
  have hlen1 : i < r.x1.value.rows * r.x1.value.cols := by
    rw [← r.x1.value.size_eq]
    by_contra hcon
    rw [List.getElem?_eq_none (by omega)] at hb2
    cases hb2
  have hlen2 : i < r.x2.value.rows * r.x2.value.cols := by
    rw [← r.x2.value.size_eq]
    by_contra hcon
    rw [List.getElem?_eq_none (by omega)] at ha2
    cases ha2
  constructor
  · rw [hn1 (lt_irrefl _)]
    simp [Matrix.ZerosLike, List.getElem?_replicate, hlen1]
  · rw [hn2 (lt_irrefl _)]
    simp [Matrix.ZerosLike, List.getElem?_replicate, hlen2]

/-- C2 (witness): the amended statement at `x1 = [1, 4]`, `x2 = [1, 2]`,
`gy = [5, 6]`. -/
theorem Max_Backward_tie_zero_witness :
    (Max.Backward (⟨⟨⟨1, 2, [1, 4], rfl⟩, true⟩, ⟨⟨1, 2, [1, 2], rfl⟩, true⟩⟩ : Max Int)
        ⟨1, 2, [5, 6], rfl⟩).panicked = none ∧
    ∃ gx1 gx2,
      (Max.Backward (⟨⟨⟨1, 2, [1, 4], rfl⟩, true⟩, ⟨⟨1, 2, [1, 2], rfl⟩, true⟩⟩ : Max Int)
        ⟨1, 2, [5, 6], rfl⟩).propagated = [(Slot.x1, gx1), (Slot.x2, gx2)] ∧
      gx1.data[0]? = some 0 ∧ gx2.data[0]? = some 0 :=
  have hw := Max_Backward_tie_zero
    (⟨⟨⟨1, 2, [1, 4], rfl⟩, true⟩, ⟨⟨1, 2, [1, 2], rfl⟩, true⟩⟩ : Max Int)
    ⟨1, 2, [5, 6], rfl⟩ rfl rfl
  have hp := hw.1 (by decide) (by decide)
  have ⟨gx1, gx2, hprop, hz⟩ := hw.2 hp
  ⟨hp, gx1, gx2, hprop, hz 0 (by decide) (by decide)⟩

/-- C3: over a totally ordered element type, with both operands requiring
grad, `Max.Backward` does not panic when `gy` has the dimensions of both
operand values, and in every run that does not panic, at each index `i` where
`x1[i] ≠ x2[i]` the operand holding the larger value receives `gy[i]` and the
other receives 0; at no index do both operands receive a non-zero `gy[i]`. -/
theorem Max_Backward_larger_takes_gradient {α : Type} [LinearOrder α] [Zero α]
    (r : Max α) (gy : Matrix α)
    (h1 : r.x1.requiresGrad = true) (h2 : r.x2.requiresGrad = true) :
    (SameDims r.x1.value gy = true → SameDims r.x2.value gy = true →
      (Max.Backward r gy).panicked = none) ∧
    ((Max.Backward r gy).panicked = none →
      ∃ gx1 gx2, (Max.Backward r gy).propagated = [(Slot.x1, gx1), (Slot.x2, gx2)] ∧
        ∀ i, i < gy.Size → ∃ u v g, r.x1.value.data[i]? = some u ∧
          r.x2.value.data[i]? = some v ∧ gy.data[i]? = some g ∧
          (u ≠ v →
            (v < u ∧ gx1.data[i]? = some g ∧ gx2.data[i]? = some 0) ∨
            (u < v ∧ gx2.data[i]? = some g ∧ gx1.data[i]? = some 0)) ∧
          (g ≠ 0 → ¬ (gx1.data[i]? = some g ∧ gx2.data[i]? = some g))) := by
  refine ⟨Max_Backward_sameDims r gy, fun hp => ?_⟩
  obtain ⟨gx1, gx2, hprop, hpt⟩ := Max_Backward_pointwise r gy h1 h2 hp
  refine ⟨gx1, gx2, hprop, fun i hi => ?_⟩
  obtain ⟨u, v, g, hu, hv, hg, e1, e2⟩ := hpt i hi
  refine ⟨u, v, g, hu, hv, hg, fun hne => ?_, fun hg0 hboth => ?_⟩
  · rcases lt_or_gt_of_ne hne with hlt | hgt
    · right
      refine ⟨hlt, ?_, ?_⟩
      · rw [e2, if_pos hlt]
      · rw [e1, if_neg (not_lt_of_gt hlt)]
    · left
      refine ⟨hgt, ?_, ?_⟩
      · rw [e1, if_pos hgt]
      · rw [e2, if_neg (not_lt_of_gt hgt)]
  · obtain ⟨b1, b2⟩ := hboth
    rw [e1] at b1
    rw [e2] at b2
    simp only [Option.some.injEq] at b1 b2
    by_cases hlt : v < u
    · rw [if_neg (not_lt_of_gt hlt)] at b2
      exact hg0 b2.symm
    · rw [if_neg hlt] at b1
      exact hg0 b1.symm

/-- C3 (witness): the statement at `x1 = [1, 4]`, `x2 = [3, 2]`,
`gy = [5, 6]`, where index 0 goes to `x2` and index 1 to `x1`. -/
theorem Max_Backward_larger_takes_gradient_witness :
    (Max.Backward (⟨⟨⟨1, 2, [1, 4], rfl⟩, true⟩, ⟨⟨1, 2, [3, 2], rfl⟩, true⟩⟩ : Max Int)
        ⟨1, 2, [5, 6], rfl⟩).panicked = none ∧
    (Max.Backward (⟨⟨⟨1, 2, [1, 4], rfl⟩, true⟩, ⟨⟨1, 2, [3, 2], rfl⟩, true⟩⟩ : Max Int)
        ⟨1, 2, [5, 6], rfl⟩).propagated
      = [(Slot.x1, ⟨1, 2, [0, 6], rfl⟩), (Slot.x2, ⟨1, 2, [5, 0], rfl⟩)] :=
  have hw := Max_Backward_larger_takes_gradient
    (⟨⟨⟨1, 2, [1, 4], rfl⟩, true⟩, ⟨⟨1, 2, [3, 2], rfl⟩, true⟩⟩ : Max Int)
    ⟨1, 2, [5, 6], rfl⟩ rfl rfl
  ⟨hw.1 (by decide) (by decide), by decide⟩

/-! ### The operator name table -/

/-- Lookups of other keys are not affected by removing a key. -/
theorem GoMap.get_filter_ne {κ ν : Type} [DecidableEq κ] (m : GoMap κ ν) (k s : κ)
    (h : s ≠ k) :
    GoMap.get (List.filter (fun e => !decide (e.1 = k)) m) s = GoMap.get m s := by
  induction m with
  | nil => rfl
  | cons e rest ih =>
    by_cases hk : e.1 = k
    · have hs : e.1 ≠ s := fun he => h (he ▸ hk)
      rw [List.filter_cons_of_neg (by simp [hk]), ih]
      simp [GoMap.get, hs]
    · rw [List.filter_cons_of_pos (by simp [hk])]
      by_cases hs : e.1 = s
      · simp [GoMap.get, hs]
      · simp [GoMap.get, hs, ih]

/-- A lookup after an assignment. -/
theorem GoMap.get_set {κ ν : Type} [DecidableEq κ] (m : GoMap κ ν) (k : κ) (v : ν) (s : κ) :
    GoMap.get (GoMap.set m k v) s = if k = s then some v else GoMap.get m s := by
  by_cases hk : k = s
  · simp [GoMap.set, GoMap.get, hk]
  · have hs : s ≠ k := fun he => hk he.symm
    simp only [GoMap.set, GoMap.get, hk, if_false]
    exact GoMap.get_filter_ne m k s hs

/-- A lookup fails exactly on the strings that are not keys. -/
theorem GoMap.get_eq_none_iff {κ ν : Type} [DecidableEq κ] (m : GoMap κ ν) (s : κ) :
    GoMap.get m s = none ↔ s ∉ GoMap.keys m := by
  induction m with
  | nil => simp [GoMap.get, GoMap.keys]
  | cons e rest ih =>
    by_cases hs : e.1 = s
    · simp [GoMap.get, GoMap.keys, hs]
    · have hs' : ¬ s = e.1 := fun he => hs he.symm
      simp only [GoMap.keys] at ih
      simp [GoMap.get, GoMap.keys, hs, hs', ih]

/-- In a map without repeated keys the lookup of a key returns the value it
is paired with. -/
theorem GoMap.get_eq_some_iff {κ ν : Type} [DecidableEq κ] (m : GoMap κ ν)
    (hnd : (GoMap.keys m).Nodup) (k : κ) (v : ν) :
    GoMap.get m k = some v ↔ (k, v) ∈ m := by
  induction m with
  | nil => simp [GoMap.get]
  | cons e rest ih =>
    simp only [GoMap.keys, List.map_cons, List.nodup_cons] at hnd
    have ih' := ih hnd.2
    by_cases hk : e.1 = k
    · simp only [GoMap.get, hk, if_true, Option.some.injEq, List.mem_cons]
      constructor
      · intro hv
        left
        rw [← hv, ← hk]
      · rintro (he | hmem)
        · rw [← he]
        · exfalso
          apply hnd.1
          rw [hk]
          exact List.mem_map_of_mem Prod.fst hmem
    · simp only [GoMap.get, hk, if_false, List.mem_cons]
      rw [ih']
      constructor
      · exact fun hmem => Or.inr hmem
      · rintro (he | hmem)
        · exact absurd (by rw [← he]) hk
        · exact hmem

/-- Building the inverse map leaves the lookup of a string alone when the
string is no key of the pairs processed. -/
theorem invertOpNames_foldl_absent (l : List (OpName × String)) :
    ∀ (m0 : GoMap String OpName) (s : String),
    (∀ e ∈ l, s ≠ e.2 ∧ s ≠ strings_ToLower e.2) →
    GoMap.get (l.foldl (fun invMap e =>
      GoMap.set (GoMap.set invMap e.2 e.1) (strings_ToLower e.2) e.1) m0) s
      = GoMap.get m0 s := by
  induction l with
  | nil => intro m0 s _; rfl
  | cons e rest ih =>
    intro m0 s h
    rw [List.foldl_cons, ih _ s (fun e' he' => h e' (List.mem_cons_of_mem _ he'))]
    obtain ⟨h1, h2⟩ := h e (List.mem_cons_self _ _)
    rw [GoMap.get_set, GoMap.get_set, if_neg (fun he => h2 he.symm),
      if_neg (fun he => h1 he.symm)]

/-- Building the inverse map from pairs that are free of key clashes maps
every method name and every lower-cased method name to its operator, whatever
the order of the pairs. -/
theorem invertOpNames_foldl_present (l : List (OpName × String)) :
    KeysClashFree l → ∀ (m0 : GoMap String OpName) (s : String) (e : OpName × String),
    e ∈ l → (s = e.2 ∨ s = strings_ToLower e.2) →
    GoMap.get (l.foldl (fun invMap e =>
      GoMap.set (GoMap.set invMap e.2 e.1) (strings_ToLower e.2) e.1) m0) s
      = some e.1 := by
  induction l with
  | nil => intro _ m0 s e he; cases he
  | cons e0 rest ih =>
    intro hnc m0 s e he hs
    have hnc' : KeysClashFree rest := fun a ha b hb hab =>
      hnc a (List.mem_cons_of_mem _ ha) b (List.mem_cons_of_mem _ hb) hab
    rw [List.foldl_cons]
    by_cases hex : ∃ e' ∈ rest, s = e'.2 ∨ s = strings_ToLower e'.2
    · obtain ⟨e', he', hs'⟩ := hex
      rw [ih hnc' _ s e' he' hs']
      congr 1
      apply hnc e' (List.mem_cons_of_mem _ he') e he
      rcases hs with hs | hs <;> rcases hs' with hs' | hs'
      · exact Or.inl (hs' ▸ hs)
      · exact Or.inr (Or.inr (Or.inl (hs' ▸ hs)))
      · exact Or.inr (Or.inl (hs' ▸ hs))
      · exact Or.inr (Or.inr (Or.inr (hs' ▸ hs)))
    · have hab : ∀ e' ∈ rest, s ≠ e'.2 ∧ s ≠ strings_ToLower e'.2 := by
        intro e' he'
        constructor
        · exact fun h => hex ⟨e', he', Or.inl h⟩
        · exact fun h => hex ⟨e', he', Or.inr h⟩
      rw [invertOpNames_foldl_absent rest _ s hab]
      have he0 : e = e0 := by
        rcases List.mem_cons.mp he with h | h
        · exact h
        · exact absurd ⟨e, h, hs⟩ hex
      subst he0
      rw [GoMap.get_set, GoMap.get_set]
      rcases hs with hs | hs
      · by_cases hl : strings_ToLower e.2 = s
        · rw [if_pos hl]
        · rw [if_neg hl, if_pos hs.symm]
      · rw [if_pos hs.symm]

/-- The lookups of an inverse map built from clash-free pairs: a string is
mapped to an operator exactly when it is the method name or the lower-cased
method name of a pair for that operator. -/
theorem invertOpNames_get_iff (l : List (OpName × String)) (hnc : KeysClashFree l)
    (s : String) (op : OpName) :
    GoMap.get (invertOpNames l) s = some op ↔
      ∃ e ∈ l, e.1 = op ∧ (s = e.2 ∨ s = strings_ToLower e.2) := by
  unfold invertOpNames
  constructor
  · intro hget
    by_cases hex : ∃ e ∈ l, s = e.2 ∨ s = strings_ToLower e.2
    · obtain ⟨e, he, hs⟩ := hex
      rw [invertOpNames_foldl_present l hnc [] s e he hs] at hget
      exact ⟨e, he, Option.some.inj hget, hs⟩
    · have hab : ∀ e ∈ l, s ≠ e.2 ∧ s ≠ strings_ToLower e.2 := by
        intro e he
        constructor
        · exact fun h => hex ⟨e, he, Or.inl h⟩
        · exact fun h => hex ⟨e, he, Or.inr h⟩
      rw [invertOpNames_foldl_absent l [] s hab] at hget
      cases hget
  · rintro ⟨e, he, hop, hs⟩
    rw [invertOpNames_foldl_present l hnc [] s e he hs, hop]

set_option maxRecDepth 1000000 in
/-- The pairs of `opNameToMethodName` are free of key clashes. -/
theorem opNameToMethodName_clashFree : KeysClashFree opNameToMethodName := by decide

/-- No operator occurs twice as a key of `opNameToMethodName`. -/
theorem opNameToMethodName_keys_nodup : (GoMap.keys opNameToMethodName).Nodup := by decide

/-- The keys of `opNameToMethodName` are the 65 values 0 to 64, in order. -/
theorem opNameToMethodName_keys :
    GoMap.keys opNameToMethodName = (List.range 65).map Int.ofNat := by decide

/-- The function `GetOpName` succeeds with an operator exactly when the lookup
in `strToOpName` finds it. -/
theorem GetOpName_eq_iff_get (s : String) (op : OpName) :
    GetOpName s = (op, none) ↔ GoMap.get strToOpName s = some op := by
  unfold GetOpName
  cases GoMap.get strToOpName s with
  | none => simp
  | some v => simp

/-- The lookups of `strToOpName`: a string is mapped to an operator exactly
when it is the operator's method name or that name in lower case. -/
theorem strToOpName_get_iff (s : String) (op : OpName) :
    GoMap.get strToOpName s = some op ↔
      ∃ name, GoMap.get opNameToMethodName op = some name ∧
        (s = name ∨ s = strings_ToLower name) := by
  unfold strToOpName
  rw [invertOpNames_get_iff _ opNameToMethodName_clashFree]
  constructor
  · rintro ⟨e, he, hop, hs⟩
    refine ⟨e.2, ?_, hs⟩
    rw [GoMap.get_eq_some_iff _ opNameToMethodName_keys_nodup, ← hop]
    exact he
  · rintro ⟨name, hget, hs⟩
    rw [GoMap.get_eq_some_iff _ opNameToMethodName_keys_nodup] at hget
    exact ⟨(op, name), hget, rfl, hs⟩

/-- C4 (counterexample): "RELU" equals the method name "ReLU" of `OpReLU` when
letter case is ignored, yet `GetOpName "RELU"` returns -1 and an error. -/
theorem GetOpName_case_counterexample :
    ¬ (∀ (op : OpName) (name s : String), GoMap.get opNameToMethodName op = some name →
        strings_ToLower s = strings_ToLower name → GetOpName s = (op, none)) := by
  intro h
  have hc := h OpReLU "ReLU" "RELU" (by decide) (by decide)
  rw [GetOpName_eq_iff_get, strToOpName_get_iff] at hc
  obtain ⟨name, hget, hs⟩ := hc
  have hname : name = "ReLU" := by
    have : GoMap.get opNameToMethodName OpReLU = some "ReLU" := by decide
    rw [this] at hget
    exact (Option.some.inj hget).symm
  subst hname
  revert hs
  decide

/-- C4 (amended): `GetOpName s` returns `(op, nil)` exactly when `s` is the
method name of `op` as written in the table or that name entirely in lower
case; other spellings are not recognised. -/
theorem GetOpName_exact_or_lowercase (s : String) (op : OpName) :
    GetOpName s = (op, none) ↔
      ∃ name, GoMap.get opNameToMethodName op = some name ∧
        (s = name ∨ s = strings_ToLower name) := by
  rw [GetOpName_eq_iff_get, strToOpName_get_iff]

/-- C5: every one of the 65 values `OpIdentity` (0) to `OpStack` (64) has a
method name in `opNameToMethodName`; `GetOpName` maps that name and its
lower-cased form back to the operator; no two operators share a method name
or a lower-cased method name; and the lookups of the inverse map are the same
for every order in which the pairs of the table are ranged over. -/
theorem strToOpName_inverse :
    (OpIdentity = 0 ∧ OpStack = 64 ∧
      ∀ op : OpName, 0 ≤ op → op ≤ 64 →
        ∃ name, GoMap.get opNameToMethodName op = some name) ∧
    (∀ (op : OpName) (name : String), GoMap.get opNameToMethodName op = some name →
      GetOpName name = (op, none) ∧ GetOpName (strings_ToLower name) = (op, none)) ∧
    (∀ (op op' : OpName) (name name' : String),
      GoMap.get opNameToMethodName op = some name →
      GoMap.get opNameToMethodName op' = some name' →
      (name = name' ∨ strings_ToLower name = strings_ToLower name') → op = op') ∧
    (∀ l : List (OpName × String), l.Perm opNameToMethodName →
      ∀ s, GoMap.get (invertOpNames l) s = GoMap.get strToOpName s) := by
  refine ⟨⟨rfl, rfl, fun op h0 h64 => ?_⟩, fun op name hget => ?_,
    fun op op' name name' hg hg' hn => ?_, fun l hl s => ?_⟩
  · have hmem : op ∈ GoMap.keys opNameToMethodName := by
      rw [opNameToMethodName_keys, List.mem_map]
      have h0' : (0 : Int) ≤ op := h0
      have h64' : op ≤ (64 : Int) := h64
      have h1 : Int.toNat op < 65 := by
        have hlt : ((Int.toNat op : Nat) : Int) < 65 := by
          rw [Int.toNat_of_nonneg h0']
          exact Int.lt_of_le_of_lt h64' (by decide)
        exact_mod_cast hlt
      have h2 : Int.ofNat (Int.toNat op) = op := Int.toNat_of_nonneg h0'
      exact ⟨Int.toNat op, List.mem_range.mpr h1, h2⟩
    cases hg : GoMap.get opNameToMethodName op with
    | none => exact absurd hmem ((GoMap.get_eq_none_iff _ _).mp hg)
    | some name => exact ⟨name, rfl⟩
  · constructor
    · rw [GetOpName_eq_iff_get, strToOpName_get_iff]
      exact ⟨name, hget, Or.inl rfl⟩
    · rw [GetOpName_eq_iff_get, strToOpName_get_iff]
      exact ⟨name, hget, Or.inr rfl⟩
  · rw [GoMap.get_eq_some_iff _ opNameToMethodName_keys_nodup] at hg hg'
    apply opNameToMethodName_clashFree (op, name) hg (op', name') hg'
    rcases hn with hn | hn
    · exact Or.inl hn
    · exact Or.inr (Or.inr (Or.inr hn))
  · have hnc : KeysClashFree l := fun a ha b hb hab =>
      opNameToMethodName_clashFree a (hl.mem_iff.mp ha) b (hl.mem_iff.mp hb) hab
    apply Option.ext
    intro op
    simp only [Option.mem_def]
    unfold strToOpName
    rw [invertOpNames_get_iff l hnc, invertOpNames_get_iff _ opNameToMethodName_clashFree]
    constructor
    · rintro ⟨e, he, h⟩
      exact ⟨e, hl.mem_iff.mp he, h⟩
    · rintro ⟨e, he, h⟩
      exact ⟨e, hl.mem_iff.mpr he, h⟩

/-- C6: `GetOpName` is a total function; it returns a non-nil error exactly
when the string is not a key of `strToOpName`, the value returned with an
error is -1, which is no member of the enumeration, and the value returned
with a nil error is a member of the enumeration. -/
theorem GetOpName_unknown_returned (s : String) :
    ((GetOpName s).2 ≠ none ↔ s ∉ GoMap.keys strToOpName) ∧
    ((GetOpName s).2 ≠ none → GetOpName s = (-1, some ("ag: unknown operator " ++ s))) ∧
    ((-1 : OpName) ∉ GoMap.keys opNameToMethodName) ∧
    ((GetOpName s).2 = none → (GetOpName s).1 ∈ GoMap.keys opNameToMethodName) := by
  refine ⟨?_, ?_, by decide, ?_⟩
  · rw [← GoMap.get_eq_none_iff]
    unfold GetOpName
    cases GoMap.get strToOpName s with
    | none => simp
    | some v => simp
  · unfold GetOpName
    cases GoMap.get strToOpName s with
    | none => simp
    | some v => simp
  · unfold GetOpName
    cases hg : GoMap.get strToOpName s with
    | none => simp
    | some v =>
      intro _
      simp only
      obtain ⟨name, hget, -⟩ := (strToOpName_get_iff s v).mp hg
      by_contra hcon
      rw [← GoMap.get_eq_none_iff, hget] at hcon
      cases hcon

/-! ### Releasing operators -/

/-- The record of a concatenation is the concatenation of the records. -/
theorem releaseEvents_append (l1 l2 : List Addr) :
    releaseEvents (l1 ++ l2) = releaseEvents l1 ++ releaseEvents l2 := by
  induction l1 with
  | nil => rfl
  | cons a rest ih => simp [releaseEvents, ih]

/-- A walk that releases nothing. -/
theorem Walk.refl {α : Type} (st : ReleaseState α) : Walk st [] st where
  len := rfl
  visited_eq := by simp
  log_eq := by simp [releaseEvents]
  nodup := List.nodup_nil
  fresh := fun a ha => by cases ha
  freed := fun a ha => by cases ha
  frame := fun _ _ => rfl

/-- A completed walk keeps the dynamic type of every node. -/
theorem Walk.isOperator_eq {α : Type} {st st' : ReleaseState α} {new : List Addr}
    (w : Walk st new st') (a : Addr) : isOperator st'.heap a = isOperator st.heap a := by
  by_cases ha : a ∈ new
  · obtain ⟨o, f, h1, -, h2, -⟩ := w.freed a ha
    simp [isOperator, h1, h2]
  · simp [isOperator, w.frame a ha]

/-- A completed walk adds no edge to the operand graph. -/
theorem Walk.edge {α : Type} {st st' : ReleaseState α} {new : List Addr}
    (w : Walk st new st') {x y : Addr} (he : Edge st'.heap x y) : Edge st.heap x y := by
  obtain ⟨o, f, hx, hf, hy, hop⟩ := he
  by_cases hxn : x ∈ new
  · obtain ⟨o', f', -, -, h2, -⟩ := w.freed x hxn
    rw [h2] at hx
    simp only [Option.some.injEq, NodeObj.operator.injEq] at hx
    subst hx
    simp [Operator.freed, Operator.clearRefs] at hf
  · rw [w.frame x hxn] at hx
    rw [w.isOperator_eq] at hop
    exact ⟨o, f, hx, hf, hy, hop⟩

/-- Reachability after a completed walk implies reachability before it. -/
theorem Walk.reach {α : Type} {st st' : ReleaseState α} {new : List Addr}
    (w : Walk st new st') {x y : Addr} (h : Relation.ReflTransGen (Edge st'.heap) x y) :
    Relation.ReflTransGen (Edge st.heap) x y :=
  Relation.ReflTransGen.mono (fun _ _ he => w.edge he) h

/-- Two completed walks in sequence make one walk. -/
theorem Walk.trans {α : Type} {st st1 st2 : ReleaseState α} {n1 n2 : List Addr}
    (w1 : Walk st n1 st1) (w2 : Walk st1 n2 st2) : Walk st (n1 ++ n2) st2 where
  len := by rw [w2.len, w1.len]
  visited_eq := by rw [w2.visited_eq, w1.visited_eq, List.append_assoc]
  log_eq := by rw [w2.log_eq, w1.log_eq, releaseEvents_append, List.append_assoc]
  nodup := by
    rw [List.nodup_append]
    refine ⟨w1.nodup, w2.nodup, ?_⟩
    intro a ha1 ha2
    exact w2.fresh a ha2 (by rw [w1.visited_eq]; exact List.mem_append_right _ ha1)
  fresh := by
    intro a ha hv
    rcases List.mem_append.mp ha with h | h
    · exact w1.fresh a h hv
    · exact w2.fresh a h (by rw [w1.visited_eq]; exact List.mem_append_left _ hv)
  freed := by
    intro a ha
    rcases List.mem_append.mp ha with h | h
    · obtain ⟨o, f, h1, hf, h2, hcl⟩ := w1.freed a h
      have hn2 : a ∉ n2 := fun h2' =>
        w2.fresh a h2' (by rw [w1.visited_eq]; exact List.mem_append_right _ h)
      refine ⟨o, f, h1, hf, by rw [w2.frame a hn2]; exact h2, fun b hb hop => ?_⟩
      rw [w2.visited_eq]
      exact List.mem_append_left _ (hcl b hb hop)
    · obtain ⟨o, f, h1, hf, h2, hcl⟩ := w2.freed a h
      have hn1 : a ∉ n1 := fun h1' =>
        w2.fresh a h (by rw [w1.visited_eq]; exact List.mem_append_right _ h1')
      refine ⟨o, f, by rw [← w1.frame a hn1]; exact h1, hf, h2, fun b hb hop => ?_⟩
      exact hcl b hb (by rw [w1.isOperator_eq]; exact hop)
  frame := by
    intro a ha
    rw [List.mem_append, not_or] at ha
    rw [w2.frame a ha.2, w1.frame a ha.1]

/-- The loop over a node list, for a `visit` that behaves as a completed walk
from the node it is given: the loop is a completed walk, every operator of
the list ends up visited, and every released operator is reachable from an
operator of the list. -/
theorem forEachOperator_walk {α : Type}
    (visit : ReleaseState α → Addr → Outcome (ReleaseState α))
    (hv : ∀ st op st', visit st op = .done st' →
      ∃ n, Walk st n st' ∧ op ∈ st'.visited ∧
        ∀ a ∈ n, Relation.ReflTransGen (Edge st.heap) op a) :
    ∀ (l : List Addr) (st st' : ReleaseState α), forEachOperator visit st l = .done st' →
      ∃ n, Walk st n st' ∧ (∀ b ∈ l, isOperator st.heap b = true → b ∈ st'.visited) ∧
        ∀ a ∈ n, ∃ b ∈ l, isOperator st.heap b = true ∧
          Relation.ReflTransGen (Edge st.heap) b a := by
  intro l
  induction l with
  | nil =>
    intro st st' h
    simp only [forEachOperator, Outcome.done.injEq] at h
    subst h
    exact ⟨[], Walk.refl st, fun b hb => (by cases hb), fun a ha => (by cases ha)⟩
  | cons node rest ih =>
    intro st st' h
    rw [forEachOperator] at h
    by_cases hop : isOperator st.heap node = true
    · rw [if_pos hop] at h
      cases hvis : visit st node with
      | outOfFuel => rw [hvis] at h; cases h
      | panic s m => rw [hvis] at h; cases h
      | done st1 =>
        rw [hvis] at h
        simp only at h
        obtain ⟨n1, w1, hm1, hr1⟩ := hv st node st1 hvis
        obtain ⟨n2, w2, hm2, hr2⟩ := ih st1 st' h
        refine ⟨n1 ++ n2, w1.trans w2, fun b hb hbo => ?_, fun a ha => ?_⟩
        · rcases List.mem_cons.mp hb with hb | hb
          · subst hb
            rw [w2.visited_eq]
            exact List.mem_append_left _ hm1
          · exact hm2 b hb (by rw [w1.isOperator_eq]; exact hbo)
        · rcases List.mem_append.mp ha with ha | ha
          · exact ⟨node, List.mem_cons_self _ _, hop, hr1 a ha⟩
          · obtain ⟨b, hb, hbo, hr⟩ := hr2 a ha
            exact ⟨b, List.mem_cons_of_mem _ hb, by rw [← w1.isOperator_eq]; exact hbo,
              w1.reach hr⟩
    · rw [if_neg hop] at h
      obtain ⟨n2, w2, hm2, hr2⟩ := ih st st' h
      refine ⟨n2, w2, fun b hb hbo => ?_, fun a ha => ?_⟩
      · rcases List.mem_cons.mp hb with hb | hb
        · subst hb
          exact absurd hbo hop
        · exact hm2 b hb hbo
      · obtain ⟨b, hb, hbo, hr⟩ := hr2 a ha
        exact ⟨b, List.mem_cons_of_mem _ hb, hbo, hr⟩

/-- An index at which a list has an element lies inside the list. -/
theorem lt_length_of_getElem? {β : Type} {l : List β} {i : Nat} {x : β}
    (h : l[i]? = some x) : i < l.length := by
  by_contra hcon
  rw [List.getElem?_eq_none (Nat.le_of_not_lt hcon)] at h
  cases h

/-- Reading a heap after a write through an operator pointer. -/
theorem getElem?_updateOperator {α : Type} (h : Heap α) (a : Addr)
    (f : Operator α → Operator α) (b : Addr) :
    (updateOperator h a f)[b]? =
      if a = b then (match h[a]? with
        | some (.operator o) => some (.operator (f o))
        | other => other)
      else h[b]? := by
  unfold updateOperator
  by_cases hab : a = b
  · subst hab
    rw [if_pos rfl]
    cases hh : h[a]? with
    | none => simp [hh]
    | some n =>
      cases n with
      | leaf l => simp [hh]
      | operator o =>
        have hlt : a < h.length := lt_length_of_getElem? hh
        simp [List.getElem?_set, hlt]
  · rw [if_neg hab]
    cases hh : h[a]? with
    | none => rfl
    | some n =>
      cases n with
      | leaf l => rfl
      | operator o => simp [List.getElem?_set, hab]

/-- A write through an operator pointer keeps the size of the heap. -/
theorem length_updateOperator {α : Type} (h : Heap α) (a : Addr)
    (f : Operator α → Operator α) : (updateOperator h a f).length = h.length := by
  unfold updateOperator
  cases h[a]? with
  | none => rfl
  | some n =>
    cases n with
    | leaf l => rfl
    | operator o => simp

/-- A method called on a released operator panics when released operators
are fatal. -/
theorem Operator.call_released {α : Type} (onRel : OnReleased)
    (method : Operator α → Operator α) (o : Operator α)
    (h : onRel = OnReleased.panics ∧ o.function = none) :
    Operator.call onRel method o = .error releasedOperator := by
  simp only [Operator.call, if_pos h]

/-- A method called on an operator runs, unless the operator is released and
released operators are fatal. -/
theorem Operator.call_live {α : Type} (onRel : OnReleased)
    (method : Operator α → Operator α) (o : Operator α)
    (h : ¬ (onRel = OnReleased.panics ∧ o.function = none)) :
    Operator.call onRel method o = .ok (method o) := by
  simp only [Operator.call, if_neg h]

/-- A completed call of `releaseOperators` is a completed walk: the operator
it was called on ends up visited and every operator it released is reachable
from that operator. -/
theorem releaseOperators_walk {α : Type} (onRel : OnReleased) (fuel : Nat) :
    ∀ (st : ReleaseState α) (op : Addr) (st' : ReleaseState α),
    releaseOperators onRel fuel st op = .done st' →
      ∃ n, Walk st n st' ∧ op ∈ st'.visited ∧
        ∀ a ∈ n, Relation.ReflTransGen (Edge st.heap) op a := by
  induction fuel with
  | zero => intro st op st' h; simp [releaseOperators] at h
  | succ fuel ih =>
    intro st op st' h
    rw [releaseOperators] at h
    by_cases hvis : op ∈ st.visited
    · rw [if_pos hvis] at h
      simp only [Outcome.done.injEq] at h
      subst h
      exact ⟨[], Walk.refl st, hvis, fun a ha => by cases ha⟩
    · rw [if_neg hvis] at h
      cases hop : st.heap[op]? with
      | none => rw [hop] at h; cases h
      | some node =>
        cases node with
        | leaf l => rw [hop] at h; cases h
        | operator o =>
          rw [hop] at h
          simp only at h
          have hrel : ¬ (onRel = OnReleased.panics ∧ o.function = none) := by
            intro hrel
            rw [Operator.call_released onRel _ o hrel] at h
            cases h
          rw [Operator.call_live onRel _ o hrel] at h
          simp only at h
          rw [Operator.call_live onRel _ o.releaseValue hrel] at h
          simp only at h
          cases hf : o.releaseValue.ZeroGrad.function with
          | none => rw [hf] at h; cases h
          | some f =>
            rw [hf] at h
            simp only at h
            have hfo : o.function = some f := hf
            have hlt : op < st.heap.length := lt_length_of_getElem? hop
            generalize hst1 : ({ heap := st.heap.set op (.operator o.releaseValue.ZeroGrad)
                                 visited := st.visited ++ [op]
                                 log := st.log ++ [.releaseValue op, .zeroGrad op] } :
                                ReleaseState α) = st1 at h
            have h1heap : st1.heap = st.heap.set op (.operator o.releaseValue.ZeroGrad) := by
              rw [← hst1]
            have h1vis : st1.visited = st.visited ++ [op] := by rw [← hst1]
            have h1log : st1.log = st.log ++ [.releaseValue op, .zeroGrad op] := by
              rw [← hst1]
            have h1get : ∀ b, st1.heap[b]? =
                if op = b then some (.operator o.releaseValue.ZeroGrad) else st.heap[b]? := by
              intro b
              rw [h1heap, List.getElem?_set]
              by_cases hb : op = b
              · subst hb
                simp [hlt]
              · simp [hb]
            have h1op : ∀ b, isOperator st1.heap b = isOperator st.heap b := by
              intro b
              simp only [isOperator, h1get]
              by_cases hb : op = b
              · subst hb; simp [hop]
              · simp [hb]
            have h1edge : ∀ x y, Edge st1.heap x y → Edge st.heap x y := by
              rintro x y ⟨o', f', hx, hf', hy, hyo⟩
              rw [h1op] at hyo
              rw [h1get] at hx
              by_cases hb : op = x
              · subst hb
                simp only [if_true, Option.some.injEq, NodeObj.operator.injEq] at hx
                subst hx
                exact ⟨o, f', hop, hf', hy, hyo⟩
              · rw [if_neg hb] at hx
                exact ⟨o', f', hx, hf', hy, hyo⟩
            cases hloop : forEachOperator (releaseOperators onRel fuel) st1 f.operands with
            | outOfFuel => rw [hloop] at h; cases h
            | panic s m => rw [hloop] at h; cases h
            | done st2 =>
              rw [hloop] at h
              simp only [Outcome.done.injEq] at h
              obtain ⟨n, w, hm, hr⟩ := forEachOperator_walk (releaseOperators onRel fuel) ih
                f.operands st1 st2 hloop
              have hopn : op ∉ n := fun hn =>
                w.fresh op hn (by rw [h1vis]; simp)
              have h2op : st2.heap[op]? = some (.operator o.releaseValue.ZeroGrad) := by
                rw [w.frame op hopn, h1get, if_pos rfl]
              have h3get : ∀ b, st'.heap[b]? =
                  if op = b then some (.operator o.freed) else st2.heap[b]? := by
                intro b
                rw [← h]
                simp only
                rw [getElem?_updateOperator, h2op]
                rfl
              refine ⟨op :: n, ?_, ?_, ?_⟩
              · refine ⟨?_, ?_, ?_, ?_, ?_, ?_, ?_⟩
                · rw [← h]
                  simp only
                  rw [length_updateOperator, w.len, h1heap, List.length_set]
                · rw [← h]
                  simp only
                  rw [w.visited_eq, h1vis]
                  simp
                · rw [← h]
                  simp only
                  rw [w.log_eq, h1log]
                  simp [releaseEvents]
                · exact List.nodup_cons.mpr ⟨hopn, w.nodup⟩
                · intro a ha hav
                  rcases List.mem_cons.mp ha with ha | ha
                  · subst ha; exact hvis hav
                  · exact w.fresh a ha (by rw [h1vis]; exact List.mem_append_left _ hav)
                · intro a ha
                  rcases List.mem_cons.mp ha with ha | ha
                  · subst ha
                    refine ⟨o, f, hop, hfo, by rw [h3get, if_pos rfl], fun b hb hbo => ?_⟩
                    rw [← h]
                    simp only
                    exact hm b hb (by rw [h1op]; exact hbo)
                  · obtain ⟨o', f', h1', hf', h2', hcl⟩ := w.freed a ha
                    have hne : op ≠ a := fun he => hopn (he ▸ ha)
                    rw [h1get, if_neg hne] at h1'
                    refine ⟨o', f', h1', hf', by rw [h3get, if_neg hne]; exact h2',
                      fun b hb hbo => ?_⟩
                    rw [← h]
                    simp only
                    exact hcl b hb (by rw [h1op]; exact hbo)
                · intro a ha
                  rw [List.mem_cons, not_or] at ha
                  have hne : op ≠ a := fun he => ha.1 he.symm
                  rw [h3get, if_neg hne, w.frame a ha.2, h1get, if_neg hne]
              · rw [← h]
                simp only
                rw [w.visited_eq, h1vis]
                simp
              · intro a ha
                rcases List.mem_cons.mp ha with ha | ha
                · subst ha; exact Relation.ReflTransGen.refl
                · obtain ⟨b, hb, hbo, hr'⟩ := hr a ha
                  have hedge : Edge st.heap op b :=
                    ⟨o, f, hop, hfo, hb, by rw [← h1op]; exact hbo⟩
                  exact Relation.ReflTransGen.head hedge
                    (Relation.ReflTransGen.mono h1edge hr')

/-- A bounded `visited` map has at most as many keys as the heap has nodes. -/
theorem Bounded.length_le {α : Type} {st : ReleaseState α} (hb : Bounded st) :
    st.visited.length ≤ st.heap.length := by
  have hsub : st.visited ⊆ List.range st.heap.length :=
    fun a ha => List.mem_range.mpr (hb.2 a ha)
  have hlen := (List.subperm_of_subset hb.1 hsub).length_le
  rwa [List.length_range] at hlen

/-- A completed walk keeps the `visited` map bounded. -/
theorem Walk.bounded {α : Type} {st st' : ReleaseState α} {new : List Addr}
    (w : Walk st new st') (hb : Bounded st) : Bounded st' := by
  constructor
  · rw [w.visited_eq, List.nodup_append]
    exact ⟨hb.1, w.nodup, fun a ha hn => w.fresh a hn ha⟩
  · intro a ha
    rw [w.visited_eq] at ha
    rw [w.len]
    rcases List.mem_append.mp ha with ha | ha
    · exact hb.2 a ha
    · obtain ⟨o, f, h1, -⟩ := w.freed a ha
      exact lt_length_of_getElem? h1

/-- A completed walk does not shrink the `visited` map. -/
theorem Walk.visited_length {α : Type} {st st' : ReleaseState α} {new : List Addr}
    (w : Walk st new st') : st.visited.length ≤ st'.visited.length := by
  rw [w.visited_eq, List.length_append]
  exact Nat.le_add_right _ _

/-- The loop over a node list does not use up the recursion budget when
`visit` does not. -/
theorem forEachOperator_fuel {α : Type}
    (visit : ReleaseState α → Addr → Outcome (ReleaseState α)) (k : Nat)
    (hv : ∀ st op st', visit st op = .done st' →
      ∃ n, Walk st n st' ∧ op ∈ st'.visited ∧
        ∀ a ∈ n, Relation.ReflTransGen (Edge st.heap) op a)
    (hf : ∀ st op, Bounded st → st.heap.length - st.visited.length < k →
      visit st op ≠ .outOfFuel) :
    ∀ (l : List Addr) (st : ReleaseState α), Bounded st →
      st.heap.length - st.visited.length < k →
      forEachOperator visit st l ≠ .outOfFuel := by
  intro l
  induction l with
  | nil => intro st _ _ h; simp [forEachOperator] at h
  | cons node rest ih =>
    intro st hb hk
    rw [forEachOperator]
    by_cases hop : isOperator st.heap node = true
    · rw [if_pos hop]
      cases hvis : visit st node with
      | outOfFuel => exact absurd hvis (hf st node hb hk)
      | panic s m => simp
      | done st1 =>
        simp only
        obtain ⟨n1, w1, -, -⟩ := hv st node st1 hvis
        apply ih st1 (w1.bounded hb)
        have h1 := w1.visited_length
        have h2 := w1.len
        omega
    · rw [if_neg hop]
      exact ih st hb hk

/-- A call of `releaseOperators` does not use up a recursion budget larger
than the number of nodes that are not yet in `visited`. -/
theorem releaseOperators_fuel {α : Type} (onRel : OnReleased) (fuel : Nat) :
    ∀ (st : ReleaseState α) (op : Addr), Bounded st →
      st.heap.length - st.visited.length < fuel →
      releaseOperators onRel fuel st op ≠ .outOfFuel := by
  induction fuel with
  | zero => intro st op _ h; exact absurd h (Nat.not_lt_zero _)
  | succ fuel ih =>
    intro st op hb hk
    rw [releaseOperators]
    by_cases hvis : op ∈ st.visited
    · rw [if_pos hvis]; simp
    · rw [if_neg hvis]
      cases hop : st.heap[op]? with
      | none => simp
      | some node =>
        cases node with
        | leaf l => simp
        | operator o =>
          simp only
          by_cases hrel : onRel = OnReleased.panics ∧ o.function = none
          · rw [Operator.call_released onRel _ o hrel]
            simp
          rw [Operator.call_live onRel _ o hrel]
          simp only
          rw [Operator.call_live onRel _ o.releaseValue hrel]
          simp only
          cases hf : o.releaseValue.ZeroGrad.function with
          | none => simp
          | some f =>
            simp only
            have hlt : op < st.heap.length := lt_length_of_getElem? hop
            have hb1 : Bounded ({ heap := st.heap.set op (.operator o.releaseValue.ZeroGrad)
                                  visited := st.visited ++ [op]
                                  log := st.log ++ [.releaseValue op, .zeroGrad op] } :
                                ReleaseState α) := by
              constructor
              · simp only
                rw [List.nodup_append]
                refine ⟨hb.1, List.nodup_singleton op, fun a ha hn => ?_⟩
                rw [List.mem_singleton] at hn
                exact hvis (hn ▸ ha)
              · intro a ha
                simp only [List.length_set]
                rcases List.mem_append.mp ha with ha | ha
                · exact hb.2 a ha
                · rw [List.mem_singleton] at ha
                  exact ha ▸ hlt
            have hlen1 := hb1.length_le
            simp only [List.length_set, List.length_append, List.length_singleton] at hlen1
            have hloop := forEachOperator_fuel (releaseOperators onRel fuel) fuel
              (releaseOperators_walk onRel fuel) ih f.operands _ hb1
              (by simp only [List.length_set, List.length_append, List.length_singleton]
                  omega)
            cases hl : forEachOperator (releaseOperators onRel fuel)
                ({ heap := st.heap.set op (.operator o.releaseValue.ZeroGrad)
                   visited := st.visited ++ [op]
                   log := st.log ++ [.releaseValue op, .zeroGrad op] } : ReleaseState α)
                f.operands with
            | outOfFuel => exact absurd hl hloop
            | panic s m => simp
            | done st2 => simp

/-- The recursion budget set by `ReleaseOperators` is never used up. -/
theorem ReleaseOperators_fuel {α : Type} (onRel : OnReleased) (h : Heap α) (nodes : List Addr) :
    ReleaseOperators onRel h nodes ≠ .outOfFuel := by
  unfold ReleaseOperators
  apply forEachOperator_fuel (releaseOperators onRel (h.length + 1)) (h.length + 1)
    (releaseOperators_walk onRel _) (releaseOperators_fuel onRel _)
  · exact ⟨List.nodup_nil, fun a ha => by cases ha⟩
  · simp

/-- Liveness survives a completed walk. -/
theorem Walk.liveFrom {α : Type} {st st' : ReleaseState α} {new : List Addr}
    (w : Walk st new st') {b : Addr} (hl : LiveFrom st b) : LiveFrom st' b := by
  intro a hr hv o ho
  have hv0 : a ∉ st.visited := fun h => hv (by rw [w.visited_eq]; exact List.mem_append_left _ h)
  have hn : a ∉ new := fun h => hv (by rw [w.visited_eq]; exact List.mem_append_right _ h)
  rw [w.frame a hn] at ho
  exact hl a (w.reach hr) hv0 o ho

/-- The loop over a node list does not panic when `visit` does not panic on
operators that are live. -/
theorem forEachOperator_noPanic {α : Type}
    (visit : ReleaseState α → Addr → Outcome (ReleaseState α))
    (hv : ∀ st op st', visit st op = .done st' →
      ∃ n, Walk st n st' ∧ op ∈ st'.visited ∧
        ∀ a ∈ n, Relation.ReflTransGen (Edge st.heap) op a)
    (hp : ∀ st op, isOperator st.heap op = true → LiveFrom st op →
      ∀ s m, visit st op ≠ .panic s m) :
    ∀ (l : List Addr) (st : ReleaseState α),
      (∀ b ∈ l, isOperator st.heap b = true → LiveFrom st b) →
      ∀ s m, forEachOperator visit st l ≠ .panic s m := by
  intro l
  induction l with
  | nil => intro st _ s m h; simp [forEachOperator] at h
  | cons node rest ih =>
    intro st hl s m
    rw [forEachOperator]
    by_cases hop : isOperator st.heap node = true
    · rw [if_pos hop]
      cases hvis : visit st node with
      | outOfFuel => simp
      | panic s' m' => exact absurd hvis (hp st node hop (hl node (List.mem_cons_self _ _) hop) s' m')
      | done st1 =>
        simp only
        obtain ⟨n1, w1, -, -⟩ := hv st node st1 hvis
        apply ih st1
        intro b hb hbo
        rw [w1.isOperator_eq] at hbo
        exact w1.liveFrom (hl b (List.mem_cons_of_mem _ hb) hbo)
    · rw [if_neg hop]
      exact ih st (fun b hb hbo => hl b (List.mem_cons_of_mem _ hb) hbo) s m

/-- A call of `releaseOperators` on an operator does not panic when every
operator reachable from it that is not yet visited has a function. -/
theorem releaseOperators_noPanic {α : Type} (onRel : OnReleased) (fuel : Nat) :
    ∀ (st : ReleaseState α) (op : Addr), isOperator st.heap op = true → LiveFrom st op →
      ∀ s m, releaseOperators onRel fuel st op ≠ .panic s m := by
  induction fuel with
  | zero => intro st op _ _ s m h; simp [releaseOperators] at h
  | succ fuel ih =>
    intro st op hopr hl s m
    rw [releaseOperators]
    by_cases hvis : op ∈ st.visited
    · rw [if_pos hvis]; simp
    · rw [if_neg hvis]
      cases hop : st.heap[op]? with
      | none => simp [isOperator, hop] at hopr
      | some node =>
        cases node with
        | leaf l => simp [isOperator, hop] at hopr
        | operator o =>
          simp only
          have hlive : o.function ≠ none := hl op Relation.ReflTransGen.refl hvis o hop
          have hrel : ¬ (onRel = OnReleased.panics ∧ o.function = none) :=
            fun hrel => hlive hrel.2
          rw [Operator.call_live onRel _ o hrel]
          simp only
          rw [Operator.call_live onRel _ o.releaseValue hrel]
          simp only
          cases hf : o.releaseValue.ZeroGrad.function with
          | none => exact absurd hf hlive
          | some f =>
            simp only
            have hfo : o.function = some f := hf
            have hlt : op < st.heap.length := lt_length_of_getElem? hop
            generalize hst1 : ({ heap := st.heap.set op (.operator o.releaseValue.ZeroGrad)
                                 visited := st.visited ++ [op]
                                 log := st.log ++ [.releaseValue op, .zeroGrad op] } :
                                ReleaseState α) = st1
            have h1heap : st1.heap = st.heap.set op (.operator o.releaseValue.ZeroGrad) := by
              rw [← hst1]
            have h1vis : st1.visited = st.visited ++ [op] := by rw [← hst1]
            have h1get : ∀ b, st1.heap[b]? =
                if op = b then some (.operator o.releaseValue.ZeroGrad) else st.heap[b]? := by
              intro b
              rw [h1heap, List.getElem?_set]
              by_cases hb : op = b
              · subst hb
                simp [hlt]
              · simp [hb]
            have h1op : ∀ b, isOperator st1.heap b = isOperator st.heap b := by
              intro b
              simp only [isOperator, h1get]
              by_cases hb : op = b
              · subst hb; simp [hop]
              · simp [hb]
            have h1edge : ∀ x y, Edge st1.heap x y → Edge st.heap x y := by
              rintro x y ⟨o', f', hx, hf', hy, hyo⟩
              rw [h1op] at hyo
              rw [h1get] at hx
              by_cases hb : op = x
              · subst hb
                simp only [if_true, Option.some.injEq, NodeObj.operator.injEq] at hx
                subst hx
                exact ⟨o, f', hop, hf', hy, hyo⟩
              · rw [if_neg hb] at hx
                exact ⟨o', f', hx, hf', hy, hyo⟩
            have hl1 : ∀ b ∈ f.operands, isOperator st1.heap b = true → LiveFrom st1 b := by
              intro b hb hbo a hr hv o' ho'
              rw [h1op] at hbo
              have hne : op ≠ a := fun he => hv (by rw [h1vis, ← he]; simp)
              rw [h1get, if_neg hne] at ho'
              have hv0 : a ∉ st.visited :=
                fun h => hv (by rw [h1vis]; exact List.mem_append_left _ h)
              exact hl a (Relation.ReflTransGen.head ⟨o, f, hop, hfo, hb, hbo⟩
                (Relation.ReflTransGen.mono h1edge hr)) hv0 o' ho'
            have hloop := forEachOperator_noPanic (releaseOperators onRel fuel)
              (releaseOperators_walk onRel fuel) ih f.operands st1 hl1
            cases hlp : forEachOperator (releaseOperators onRel fuel) st1 f.operands with
            | outOfFuel => simp
            | panic s' m' => exact absurd hlp (hloop s' m')
            | done st2 => simp

/-- The function `ReleaseOperators` returns when no operator reachable from
its arguments has been released before. -/
theorem ReleaseOperators_returns {α : Type} (onRel : OnReleased) (h : Heap α) (nodes : List Addr)
    (hlive : ∀ r ∈ nodes, ∀ a, Reach h r a →
      ∀ o, h[a]? = some (.operator o) → o.function ≠ none) :
    ∃ st', ReleaseOperators onRel h nodes = .done st' := by
  have hfuel := ReleaseOperators_fuel onRel h nodes
  have hnp : ∀ s m, ReleaseOperators onRel h nodes ≠ .panic s m := by
    unfold ReleaseOperators
    apply forEachOperator_noPanic (releaseOperators onRel (h.length + 1))
      (releaseOperators_walk onRel _) (releaseOperators_noPanic onRel _)
    intro b hb hbo a hr _ o ho
    exact hlive b hb a ⟨hbo, hr⟩ o ho
  cases hres : ReleaseOperators onRel h nodes with
  | outOfFuel => exact absurd hres hfuel
  | panic s m => exact absurd hres (hnp s m)
  | done st' => exact ⟨st', rfl⟩

/-- What a completed `ReleaseOperators` call did: it is a completed walk from
the initial state, and the operators it released are exactly those reachable
from its arguments. -/
theorem ReleaseOperators_walk {α : Type} (onRel : OnReleased) (h : Heap α) (nodes : List Addr)
    (st' : ReleaseState α) (hdone : ReleaseOperators onRel h nodes = .done st') :
    Walk ⟨h, [], []⟩ st'.visited st' ∧
      ∀ a, a ∈ st'.visited ↔ ∃ r ∈ nodes, Reach h r a := by
  unfold ReleaseOperators at hdone
  obtain ⟨n, w, hm, hr⟩ := forEachOperator_walk (releaseOperators onRel (h.length + 1))
    (releaseOperators_walk onRel _) nodes ⟨h, [], []⟩ st' hdone
  have hvis : st'.visited = n := by rw [w.visited_eq]; rfl
  rw [hvis]
  refine ⟨w, fun a => ⟨fun ha => ?_, ?_⟩⟩
  · obtain ⟨b, hb, hbo, hreach⟩ := hr a ha
    exact ⟨b, hb, hbo, hreach⟩
  · rintro ⟨r, hrn, hro, hreach⟩
    have hstart : r ∈ n := by rw [← hvis]; exact hm r hrn hro
    induction hreach with
    | refl => exact hstart
    | @tail x y _ hedge ih =>
      obtain ⟨o, f, hx, hf, hy, hyo⟩ := hedge
      obtain ⟨o', f', hx', hf', -, hcl⟩ := w.freed x ih
      simp only at hx'
      rw [hx] at hx'
      simp only [Option.some.injEq, NodeObj.operator.injEq] at hx'
      subst hx'
      rw [hf] at hf'
      simp only [Option.some.injEq] at hf'
      subst hf'
      rw [← hvis]
      exact hcl y hy hyo

/-- The loop over a node list leaves every node that is not an operator as it
was, in the state it returns or panics in, when `visit` does. -/
theorem forEachOperator_leaves {α : Type}
    (visit : ReleaseState α → Addr → Outcome (ReleaseState α))
    (hv : ∀ st op s, (visit st op).state? = some s →
      ∀ a, isOperator st.heap a = false → s.heap[a]? = st.heap[a]?) :
    ∀ (l : List Addr) (st s : ReleaseState α), (forEachOperator visit st l).state? = some s →
      ∀ a, isOperator st.heap a = false → s.heap[a]? = st.heap[a]? := by
  intro l
  induction l with
  | nil =>
    intro st s h a _
    simp only [forEachOperator, Outcome.state?, Option.some.injEq] at h
    rw [h]
  | cons node rest ih =>
    intro st s h a ha
    rw [forEachOperator] at h
    by_cases hop : isOperator st.heap node = true
    · rw [if_pos hop] at h
      cases hvis : visit st node with
      | outOfFuel => rw [hvis] at h; simp [Outcome.state?] at h
      | panic s' m =>
        rw [hvis] at h
        exact hv st node s (by rw [hvis]; exact h) a ha
      | done st1 =>
        rw [hvis] at h
        simp only at h
        have h1 := hv st node st1 (by rw [hvis]; rfl) a ha
        have ha1 : isOperator st1.heap a = false := by
          simp only [isOperator, h1]
          exact ha
        rw [ih st1 s h a ha1, h1]
    · rw [if_neg hop] at h
      exact ih st s h a ha

/-- A call of `releaseOperators` leaves every node that is not an operator as
it was, whether it returns or panics. -/
theorem releaseOperators_leaves {α : Type} (onRel : OnReleased) (fuel : Nat) :
    ∀ (st : ReleaseState α) (op : Addr) (s : ReleaseState α),
      (releaseOperators onRel fuel st op).state? = some s →
      ∀ a, isOperator st.heap a = false → s.heap[a]? = st.heap[a]? := by
  induction fuel with
  | zero => intro st op s h; simp [releaseOperators, Outcome.state?] at h
  | succ fuel ih =>
    intro st op s h a ha
    rw [releaseOperators] at h
    by_cases hvis : op ∈ st.visited
    · rw [if_pos hvis] at h
      simp only [Outcome.state?, Option.some.injEq] at h
      rw [← h]
    · rw [if_neg hvis] at h
      cases hop : st.heap[op]? with
      | none =>
        rw [hop] at h
        simp only [Outcome.state?, Option.some.injEq] at h
        rw [← h]
      | some node =>
        cases node with
        | leaf l =>
          rw [hop] at h
          simp only [Outcome.state?, Option.some.injEq] at h
          rw [← h]
        | operator o =>
          rw [hop] at h
          simp only at h
          have hne : op ≠ a := by
            intro he
            subst he
            simp [isOperator, hop] at ha
          have h1 : (st.heap.set op (.operator o.releaseValue.ZeroGrad))[a]? = st.heap[a]? := by
            rw [List.getElem?_set]
            simp [hne]
          by_cases hrel : onRel = OnReleased.panics ∧ o.function = none
          · rw [Operator.call_released onRel _ o hrel] at h
            simp only [Outcome.state?, Option.some.injEq] at h
            rw [← h]
          rw [Operator.call_live onRel _ o hrel] at h
          simp only at h
          rw [Operator.call_live onRel _ o.releaseValue hrel] at h
          simp only at h
          cases hf : o.releaseValue.ZeroGrad.function with
          | none =>
            rw [hf] at h
            simp only [Outcome.state?, Option.some.injEq] at h
            rw [← h]
            exact h1
          | some f =>
            rw [hf] at h
            simp only at h
            have ha1 : isOperator (st.heap.set op (.operator o.releaseValue.ZeroGrad)) a
                = false := by
              simp only [isOperator, h1]
              exact ha
            cases hl : forEachOperator (releaseOperators onRel fuel)
                ({ heap := st.heap.set op (.operator o.releaseValue.ZeroGrad)
                   visited := st.visited ++ [op]
                   log := st.log ++ [.releaseValue op, .zeroGrad op] } : ReleaseState α)
                f.operands with
            | outOfFuel => rw [hl] at h; simp [Outcome.state?] at h
            | panic s' m =>
              rw [hl] at h
              simp only [Outcome.state?, Option.some.injEq] at h
              subst h
              rw [forEachOperator_leaves (releaseOperators onRel fuel) ih f.operands _ s'
                (by rw [hl]; rfl) a ha1]
              exact h1
            | done st2 =>
              rw [hl] at h
              simp only [Outcome.state?, Option.some.injEq] at h
              rw [← h]
              simp only
              rw [getElem?_updateOperator, if_neg hne,
                forEachOperator_leaves (releaseOperators onRel fuel) ih f.operands _ st2
                  (by rw [hl]; rfl) a ha1]
              exact h1

/-- The loop over a node list does the same on the list and on the list
without the nodes that are not operators. -/
theorem forEachOperator_filter {α : Type}
    (visit : ReleaseState α → Addr → Outcome (ReleaseState α))
    (hv : ∀ st op st', visit st op = .done st' →
      ∃ n, Walk st n st' ∧ op ∈ st'.visited ∧
        ∀ a ∈ n, Relation.ReflTransGen (Edge st.heap) op a)
    (h0 : Heap α) :
    ∀ (l : List Addr) (st : ReleaseState α),
      (∀ a, isOperator st.heap a = isOperator h0 a) →
      forEachOperator visit st (l.filter (fun a => isOperator h0 a))
        = forEachOperator visit st l := by
  intro l
  induction l with
  | nil => intro st _; rfl
  | cons node rest ih =>
    intro st hst
    by_cases hop : isOperator h0 node = true
    · rw [List.filter_cons_of_pos (by simpa using hop), forEachOperator, forEachOperator,
        hst node, if_pos hop, if_pos hop]
      cases hvis : visit st node with
      | outOfFuel => rfl
      | panic s m => rfl
      | done st1 =>
        simp only
        obtain ⟨n1, w1, -, -⟩ := hv st node st1 hvis
        exact ih st1 (fun a => by rw [w1.isOperator_eq, hst])
    · rw [List.filter_cons_of_neg (by simpa using hop), forEachOperator, hst node, if_neg hop]
      exact ih st hst

/-- The loop over a node list gives the same outcome for two `visit`
functions when the second agrees with the first wherever the first does not
use up its recursion budget. -/
theorem forEachOperator_congr {α : Type}
    (v1 v2 : ReleaseState α → Addr → Outcome (ReleaseState α))
    (hv : ∀ st op, v1 st op ≠ .outOfFuel → v2 st op = v1 st op) :
    ∀ (l : List Addr) (st : ReleaseState α), forEachOperator v1 st l ≠ .outOfFuel →
      forEachOperator v2 st l = forEachOperator v1 st l := by
  intro l
  induction l with
  | nil => intro st _; rfl
  | cons node rest ih =>
    intro st h
    rw [forEachOperator] at h
    rw [forEachOperator, forEachOperator]
    by_cases hop : isOperator st.heap node = true
    · rw [if_pos hop] at h
      rw [if_pos hop, if_pos hop]
      cases hvis : v1 st node with
      | outOfFuel => rw [hvis] at h; exact absurd rfl h
      | panic s m => rw [hv st node (by rw [hvis]; simp), hvis]
      | done st1 =>
        rw [hvis] at h
        rw [hv st node (by rw [hvis]; simp), hvis]
        exact ih st1 h
    · rw [if_neg hop] at h
      rw [if_neg hop, if_neg hop]
      exact ih st h

/-- A larger recursion budget does not change the outcome of a call of
`releaseOperators` that did not use up its budget. -/
theorem releaseOperators_succ {α : Type} (onRel : OnReleased) (fuel : Nat) :
    ∀ (st : ReleaseState α) (op : Addr), releaseOperators onRel fuel st op ≠ .outOfFuel →
      releaseOperators onRel (fuel + 1) st op = releaseOperators onRel fuel st op := by
  induction fuel with
  | zero => intro st op h; exact absurd rfl h
  | succ fuel ih =>
    intro st op h
    rw [releaseOperators] at h
    rw [releaseOperators, releaseOperators.eq_def onRel (fuel + 1)]
    simp only
    by_cases hvis : op ∈ st.visited
    · rw [if_pos hvis, if_pos hvis]
    · rw [if_neg hvis] at h
      rw [if_neg hvis, if_neg hvis]
      cases hop : st.heap[op]? with
      | none => rfl
      | some node =>
        cases node with
        | leaf l => rfl
        | operator o =>
          rw [hop] at h
          simp only at h ⊢
          by_cases hrel : onRel = OnReleased.panics ∧ o.function = none
          · simp only [Operator.call_released onRel _ o hrel]
          simp only [Operator.call_live onRel _ o hrel,
            Operator.call_live onRel _ o.releaseValue hrel] at h ⊢
          cases hf : o.releaseValue.ZeroGrad.function with
          | none => rfl
          | some f =>
            rw [hf] at h
            simp only at h ⊢
            have hloop : forEachOperator (releaseOperators onRel fuel)
                ({ heap := st.heap.set op (.operator o.releaseValue.ZeroGrad)
                   visited := st.visited ++ [op]
                   log := st.log ++ [.releaseValue op, .zeroGrad op] } : ReleaseState α)
                f.operands ≠ .outOfFuel := by
              intro hc
              rw [hc] at h
              exact h rfl
            rw [forEachOperator_congr (releaseOperators onRel fuel) (releaseOperators onRel (fuel + 1)) ih
              f.operands _ hloop]

/-- Any recursion budget above one that was not used up gives the same
outcome. -/
theorem releaseOperators_add {α : Type} (onRel : OnReleased) (fuel k : Nat) (st : ReleaseState α) (op : Addr)
    (h : releaseOperators onRel fuel st op ≠ .outOfFuel) :
    releaseOperators onRel (fuel + k) st op = releaseOperators onRel fuel st op := by
  induction k with
  | zero => rfl
  | succ k ih =>
    rw [← Nat.add_assoc, releaseOperators_succ onRel (fuel + k) st op (by rw [ih]; exact h), ih]

/-- The record of releasing a list of operators holds one `releaseValue` and
one `ZeroGrad` entry for each occurrence of an operator in the list. -/
theorem count_releaseEvents (a : Addr) (l : List Addr) :
    (releaseEvents l).count (.releaseValue a) = l.count a ∧
    (releaseEvents l).count (.zeroGrad a) = l.count a := by
  induction l with
  | nil => simp [releaseEvents]
  | cons b rest ih =>
    by_cases hb : b = a
    · subst hb
      simp [releaseEvents, List.count_cons, ih.1, ih.2]
    · have hb' : ¬ a = b := fun h => hb h.symm
      simp [releaseEvents, List.count_cons, ih.1, ih.2, hb, hb']

/-- Writing back the element a list already holds at an index changes
nothing. -/
theorem set_eq_self_of_getElem? {β : Type} (l : List β) (i : Nat) (x : β)
    (h : l[i]? = some x) : l.set i x = l := by
  apply List.ext_getElem?
  intro j
  rw [List.getElem?_set]
  by_cases hij : i = j
  · subst hij
    simp [h, lt_length_of_getElem? h]
  · simp [hij]

/-- The heap that `ReleaseOperators` leaves of the heap holding one operator
without operands. -/
theorem ReleaseOperators_sample (onRel : OnReleased) :
    ReleaseOperators onRel [sampleOperator []] [0] =
      .done ⟨[.operator (Operator.freed
        { requiresGrad := true
          inBackward := false
          visited := false
          timeStep := 0
          graph := some 0
          function := some ⟨"Add", []⟩
          value := some ⟨1, 1, [3], rfl⟩
          valueMx := some ⟨false⟩
          valueCond := some ()
          grad := some ⟨1, 1, [1], rfl⟩
          gradMx := some ⟨true⟩
          gradAccMx := false
          pendingGrads := 0 })], [0], [.releaseValue 0, .zeroGrad 0]⟩ := by
  cases onRel <;> decide

/-- A second `ReleaseOperators` call on the released sample operator does not
return, whatever the absent methods do on a released operator. -/
theorem ReleaseOperators_sample_again (onRel : OnReleased) :
    (match ReleaseOperators onRel
      [NodeObj.operator (Operator.freed
        { requiresGrad := true
          inBackward := false
          visited := false
          timeStep := 0
          graph := some 0
          function := some ⟨"Add", []⟩
          value := some (⟨1, 1, [3], rfl⟩ : Matrix Int)
          valueMx := some ⟨false⟩
          valueCond := some ()
          grad := some ⟨1, 1, [1], rfl⟩
          gradMx := some ⟨true⟩
          gradAccMx := false
          pendingGrads := 0 })] [0] with
      | .done _ => true
      | _ => false) = false := by
  cases onRel <;> decide

/-- C7 (counterexample): on a heap holding one operator without operands, the
first `ReleaseOperators` call returns and the second call on the same
operator panics instead of returning with the state unchanged, whether the
absent methods return on a released operator or panic. -/
theorem ReleaseOperators_again_counterexample :
    (¬ (∀ (h : Heap Int) (R : Addr) (st1 : ReleaseState Int), isOperator h R = true →
        ReleaseOperators OnReleased.returns h [R] = .done st1 →
        ∃ st2, ReleaseOperators OnReleased.returns st1.heap [R] = .done st2 ∧
          st2.heap = st1.heap)) ∧
    (¬ (∀ (h : Heap Int) (R : Addr) (st1 : ReleaseState Int), isOperator h R = true →
        ReleaseOperators OnReleased.panics h [R] = .done st1 →
        ∃ st2, ReleaseOperators OnReleased.panics st1.heap [R] = .done st2 ∧
          st2.heap = st1.heap)) := by
  constructor
  · intro hc
    obtain ⟨st2, h2, -⟩ := hc [sampleOperator []] 0 _ (by decide)
      (ReleaseOperators_sample OnReleased.returns)
    have hnot := ReleaseOperators_sample_again OnReleased.returns
    simp only at h2
    rw [h2] at hnot
    cases hnot
  · intro hc
    obtain ⟨st2, h2, -⟩ := hc [sampleOperator []] 0 _ (by decide)
      (ReleaseOperators_sample OnReleased.panics)
    have hnot := ReleaseOperators_sample_again OnReleased.panics
    simp only at h2
    rw [h2] at hnot
    cases hnot

/-- C7 (amended): after `ReleaseOperators(R)` has returned for an operator
`R`, a second `ReleaseOperators(R)` does not return: it panics, whether the
absent methods `releaseValue` and `ZeroGrad` return on a released operator
(the panic is then the call through the nil `function` of `R`) or panic
themselves. A released operator must not be used again. -/
theorem ReleaseOperators_again_panics {α : Type} (onRel onRel2 : OnReleased) (h : Heap α)
    (R : Addr) (st1 : ReleaseState α) (hR : isOperator h R = true)
    (hdone : ReleaseOperators onRel h [R] = .done st1) :
    (∃ s msg, ReleaseOperators onRel2 st1.heap [R] = .panic s msg) ∧
    ∀ st2, ReleaseOperators onRel2 st1.heap [R] ≠ .done st2 := by
  obtain ⟨w, hreach⟩ := ReleaseOperators_walk onRel h [R] st1 hdone
  have hRv : R ∈ st1.visited :=
    (hreach R).mpr ⟨R, List.mem_singleton.mpr rfl, hR, Relation.ReflTransGen.refl⟩
  obtain ⟨o, f, -, -, hfreed, -⟩ := w.freed R hRv
  have hop1 : isOperator st1.heap R = true := by simp [isOperator, hfreed]
  have hpanic : ∃ s msg, ReleaseOperators onRel2 st1.heap [R] = .panic s msg := by
    cases onRel2 with
    | panics =>
      refine ⟨⟨st1.heap, [] ++ [R], [] ++ [.releaseValue R]⟩, releasedOperator, ?_⟩
      simp only [ReleaseOperators, forEachOperator, hop1, if_true, releaseOperators,
        List.not_mem_nil, if_false, hfreed]
      rw [Operator.call_released OnReleased.panics _ o.freed ⟨rfl, rfl⟩]
    | returns =>
      have hrel : ¬ (OnReleased.returns = OnReleased.panics ∧ o.freed.function = none) :=
        fun hc => by cases hc.1
      refine ⟨⟨st1.heap.set R (.operator o.freed.releaseValue.ZeroGrad), [] ++ [R],
        [] ++ [.releaseValue R, .zeroGrad R]⟩, nilDereference, ?_⟩
      simp only [ReleaseOperators, forEachOperator, hop1, if_true, releaseOperators,
        List.not_mem_nil, if_false, hfreed]
      rw [Operator.call_live OnReleased.returns _ o.freed hrel]
      simp only
      rw [Operator.call_live OnReleased.returns _ o.freed.releaseValue hrel]
      rfl
  refine ⟨hpanic, fun st2 hd => ?_⟩
  obtain ⟨s, msg, hp⟩ := hpanic
  rw [hp] at hd
  cases hd

/-- C7 (witness): the amended statement on the sample diamond released from
its top operator, for methods that panic on a released operator. -/
theorem ReleaseOperators_again_panics_witness :
    ∃ st1, ReleaseOperators OnReleased.returns sampleDiamond [4] = .done st1 ∧
      (∃ s msg, ReleaseOperators OnReleased.panics st1.heap [4] = .panic s msg) ∧
      ∀ st2, ReleaseOperators OnReleased.panics st1.heap [4] ≠ .done st2 :=
  have ⟨st1, h1⟩ := ReleaseOperators_returns OnReleased.returns sampleDiamond [4] (by
    intro r hr a _ o ho
    have ha : a < sampleDiamond.length := lt_length_of_getElem? ho
    have ha5 : a < 5 := ha
    interval_cases a <;> simp [sampleDiamond, sampleOperator, sampleVariable] at ho <;>
      (subst ho; simp))
  ⟨st1, h1, ReleaseOperators_again_panics OnReleased.returns OnReleased.panics sampleDiamond 4
    st1 (by decide) h1⟩

/-- C8: `ReleaseOperators(R)` returns when no operator reachable from `R` has
been released before, and when it has returned every operator reachable from
`R` through chains of operator operands has been freed: `releaseValue` and
`ZeroGrad` were applied to it and its `graph`, `function`, `valueMx`,
`valueCond` and `gradMx` are nil. -/
theorem ReleaseOperators_frees_reachable {α : Type} (onRel : OnReleased) (h : Heap α)
    (R : Addr) :
    ((∀ a, Reach h R a → ∀ o, h[a]? = some (.operator o) → o.function ≠ none) →
      ∃ st', ReleaseOperators onRel h [R] = .done st') ∧
    (∀ st', ReleaseOperators onRel h [R] = .done st' → ∀ a, Reach h R a →
      ReleaseEvent.releaseValue a ∈ st'.log ∧ ReleaseEvent.zeroGrad a ∈ st'.log ∧
      ∃ o o', h[a]? = some (.operator o) ∧ st'.heap[a]? = some (.operator o') ∧
        o' = o.releaseValue.ZeroGrad.clearRefs ∧
        o'.graph = none ∧ o'.function = none ∧
        o'.valueMx = none ∧ o'.valueCond = none ∧ o'.gradMx = none) := by
  constructor
  · intro hlive
    apply ReleaseOperators_returns onRel
    intro r hr a hreach
    rw [List.mem_singleton] at hr
    subst hr
    exact hlive a hreach
  · intro st' hdone a hreach
    obtain ⟨w, hiff⟩ := ReleaseOperators_walk onRel h [R] st' hdone
    have hav : a ∈ st'.visited := (hiff a).mpr ⟨R, List.mem_singleton.mpr rfl, hreach⟩
    obtain ⟨o, f, ho, -, hfreed, -⟩ := w.freed a hav
    have hcount := count_releaseEvents a st'.visited
    have hlog : st'.log = releaseEvents st'.visited := by rw [w.log_eq]; rfl
    have hpos : 0 < st'.visited.count a := List.count_pos_iff.mpr hav
    refine ⟨?_, ?_, o, o.freed, ho, hfreed, rfl, rfl, rfl, rfl, rfl, rfl⟩
    · rw [hlog, ← List.count_pos_iff, hcount.1]
      exact hpos
    · rw [hlog, ← List.count_pos_iff, hcount.2]
      exact hpos

/-- C9: `ReleaseOperators` changes no node that is not an operator, whether it
returns or panics; arguments that are not operators are skipped; and when it
returns, every node not reachable from an operator argument through chains of
operator operands is unchanged. -/
theorem ReleaseOperators_frame {α : Type} (onRel : OnReleased) (h : Heap α) (nodes : List Addr) :
    (∀ s, (ReleaseOperators onRel h nodes).state? = some s →
      ∀ a, isOperator h a = false → s.heap[a]? = h[a]?) ∧
    (ReleaseOperators onRel h (nodes.filter (fun a => isOperator h a)) = ReleaseOperators onRel h nodes) ∧
    ((∀ r ∈ nodes, isOperator h r = false) → ReleaseOperators onRel h nodes = .done ⟨h, [], []⟩) ∧
    (∀ st', ReleaseOperators onRel h nodes = .done st' →
      ∀ a, (¬ ∃ r ∈ nodes, Reach h r a) → st'.heap[a]? = h[a]?) := by
  refine ⟨fun s hs a ha => ?_, ?_, fun hno => ?_, fun st' hdone a hnr => ?_⟩
  · exact forEachOperator_leaves (releaseOperators onRel (h.length + 1))
      (releaseOperators_leaves onRel _) nodes ⟨h, [], []⟩ s hs a ha
  · exact forEachOperator_filter (releaseOperators onRel (h.length + 1))
      (releaseOperators_walk onRel _) h nodes ⟨h, [], []⟩ (fun _ => rfl)
  · unfold ReleaseOperators
    rw [← forEachOperator_filter (releaseOperators onRel (h.length + 1))
      (releaseOperators_walk onRel _) h nodes ⟨h, [], []⟩ (fun _ => rfl)]
    have hnil : nodes.filter (fun a => isOperator h a) = [] := by
      rw [List.filter_eq_nil_iff]
      intro a ha
      simp [hno a ha]
    rw [hnil]
    rfl
  · obtain ⟨w, hiff⟩ := ReleaseOperators_walk onRel h nodes st' hdone
    exact w.frame a (fun hav => hnr ((hiff a).mp hav))

/-- C10: the walk of `ReleaseOperators` always ends: the recursion never goes
deeper than the number of nodes of the heap, and a larger budget changes
nothing. When the call returns, `releaseValue` and `ZeroGrad` were called
exactly once on every operator reachable from an argument, however many
operand paths lead to it and however often it is listed, and never on any
other node. -/
theorem ReleaseOperators_releases_once {α : Type} (onRel : OnReleased) (h : Heap α) (nodes : List Addr) :
    ReleaseOperators onRel h nodes ≠ .outOfFuel ∧
    (∀ k, forEachOperator (releaseOperators onRel (h.length + 1 + k)) ⟨h, [], []⟩ nodes
      = ReleaseOperators onRel h nodes) ∧
    (∀ st', ReleaseOperators onRel h nodes = .done st' → ∀ a,
      ((∃ r ∈ nodes, Reach h r a) →
        st'.log.count (.releaseValue a) = 1 ∧ st'.log.count (.zeroGrad a) = 1) ∧
      ((¬ ∃ r ∈ nodes, Reach h r a) →
        st'.log.count (.releaseValue a) = 0 ∧ st'.log.count (.zeroGrad a) = 0)) := by
  refine ⟨ReleaseOperators_fuel onRel h nodes, fun k => ?_, fun st' hdone a => ?_⟩
  · exact forEachOperator_congr (releaseOperators onRel (h.length + 1))
      (releaseOperators onRel (h.length + 1 + k))
      (fun st op hne => releaseOperators_add onRel (h.length + 1) k st op hne) nodes ⟨h, [], []⟩
      (ReleaseOperators_fuel onRel h nodes)
  · obtain ⟨w, hiff⟩ := ReleaseOperators_walk onRel h nodes st' hdone
    have hcount := count_releaseEvents a st'.visited
    have hlog : st'.log = releaseEvents st'.visited := by rw [w.log_eq]; rfl
    rw [hlog, hcount.1, hcount.2]
    constructor
    · intro hr
      have hav : a ∈ st'.visited := (hiff a).mpr hr
      exact ⟨List.count_eq_one_of_mem w.nodup hav, List.count_eq_one_of_mem w.nodup hav⟩
    · intro hnr
      have hav : a ∉ st'.visited := fun hav => hnr ((hiff a).mp hav)
      exact ⟨List.count_eq_zero_of_not_mem hav, List.count_eq_zero_of_not_mem hav⟩

/-! ### The backward pass of an operator -/

/-- C11: an operator whose `requiresGrad` is false leaves `Operator.backward`
without a call of the function's `Backward` and without a panic; only its
`inBackward` flag is reset, so its `grad` and `gradMx` stay as they were and
every other node is untouched. The operator built by `NewOperator` has a nil
`grad`, and when it does not require grad also a nil `gradMx`, and `backward`
leaves both nil. -/
theorem Operator_backward_without_requiresGrad {α : Type} :
    (∀ (kernel : Function → Matrix α → Heap α → Heap α × Option String) (h : Heap α)
        (a : Addr) (o : Operator α),
      h[a]? = some (.operator o) → o.requiresGrad = false →
        (Operator.backward kernel h a).invoked = [] ∧
        (Operator.backward kernel h a).panicked = none ∧
        (Operator.backward kernel h a).heap[a]? = some (.operator o.leaveBackward) ∧
        o.leaveBackward.grad = o.grad ∧ o.leaveBackward.gradMx = o.gradMx ∧
        ∀ b, b ≠ a → (Operator.backward kernel h a).heap[b]? = h[b]?) ∧
    (∀ (w : World α) (g : Graph) (f : Function) (w' : World α) (n : Addr),
      NewOperator w g f = .ok (w', n) →
        ∃ o, w'.heap[n]? = some (.operator o) ∧ o.grad = none ∧
          (o.requiresGrad = false → o.gradMx = none ∧
            ∀ kernel : Function → Matrix α → Heap α → Heap α × Option String,
              (Operator.backward kernel w'.heap n).invoked = [] ∧
              ∃ o', (Operator.backward kernel w'.heap n).heap[n]? = some (.operator o') ∧
                o'.grad = none ∧ o'.gradMx = none)) := by
  have hback : ∀ (kernel : Function → Matrix α → Heap α → Heap α × Option String)
      (h : Heap α) (a : Addr) (o : Operator α),
      h[a]? = some (.operator o) → o.requiresGrad = false →
        (Operator.backward kernel h a).invoked = [] ∧
        (Operator.backward kernel h a).panicked = none ∧
        (Operator.backward kernel h a).heap[a]? = some (.operator o.leaveBackward) ∧
        o.leaveBackward.grad = o.grad ∧ o.leaveBackward.gradMx = o.gradMx ∧
        ∀ b, b ≠ a → (Operator.backward kernel h a).heap[b]? = h[b]? := by
    intro kernel h a o ho hrg
    have hrun : Operator.backward kernel h a
        = ⟨updateOperator h a Operator.leaveBackward, [], none⟩ := by
      simp [Operator.backward, ho, hrg]
    rw [hrun]
    refine ⟨rfl, rfl, ?_, rfl, rfl, fun b hb => ?_⟩
    · simp only
      rw [getElem?_updateOperator, if_pos rfl, ho]
    · simp only
      rw [getElem?_updateOperator, if_neg (fun he => hb he.symm)]
  refine ⟨hback, fun w g f w' n hn => ?_⟩
  simp only [NewOperator] at hn
  cases hb : anyNodeRequiresGrad w.heap f.operands with
  | error e => rw [hb] at hn; cases hn
  | ok rg =>
    rw [hb] at hn
    simp only [Except.ok.injEq, Prod.mk.injEq] at hn
    obtain ⟨hw, hn⟩ := hn
    subst hw hn
    refine ⟨_, List.getElem?_concat_length _ _, rfl, fun hrg => ?_⟩
    have hrg' : rg = false := hrg
    refine ⟨by simp [hrg'], fun kernel => ?_⟩
    obtain ⟨h1, -, h3, -, -, -⟩ :=
      hback kernel _ _ _ (List.getElem?_concat_length w.heap _) hrg
    exact ⟨h1, _, h3, rfl, by simp [Operator.leaveBackward, hrg']⟩

/-! ### The ReduceSum kernel -/

/-- The sum of a list is the sum of its entries over the index range. -/
theorem list_sum_eq_sum_range {α : Type} [AddCommMonoid α] (l : List α) :
    l.sum = ∑ i in Finset.range l.length, l.getD i 0 := by
  induction l with
  | nil => simp
  | cons a rest ih =>
    rw [List.sum_cons, List.length_cons, Finset.sum_range_succ', ih]
    simp [add_comm]

/-- C12: `ReduceSum.Forward` returns a 1 × 1 matrix, for an operand value of
any shape, and its entry is the sum of all elements of the operand value. -/
theorem ReduceSum_Forward_scalar {α : Type} [AddCommMonoid α] (r : ReduceSum α) :
    (ReduceSum.Forward r).rows = 1 ∧ (ReduceSum.Forward r).cols = 1 ∧
    IsScalar (ReduceSum.Forward r) = true ∧
    (ReduceSum.Forward r).data
      = [∑ i in Finset.range r.x.value.Size, r.x.value.data.getD i 0] := by
  refine ⟨rfl, rfl, rfl, ?_⟩
  simp only [ReduceSum.Forward, NewScalar, Matrix.Sum, Matrix.Size]
  rw [list_sum_eq_sum_range, r.x.value.size_eq]

/-- A matrix is a scalar exactly when it has one row and one column. -/
theorem IsScalar_iff {α : Type} (m : Matrix α) :
    IsScalar m = true ↔ m.rows = 1 ∧ m.cols = 1 := by
  simp [IsScalar, Matrix.Size]

/-- The single element of a scalar matrix is read without a panic. -/
theorem Scalar_of_IsScalar {α : Type} (m : Matrix α) (h : IsScalar m = true) :
    ∃ v, m.Scalar = .ok v ∧ m.data = [v] := by
  have hlen : m.data.length = 1 := by
    rw [m.size_eq]
    simpa [IsScalar, Matrix.Size] using h
  cases hd : m.data with
  | nil => rw [hd] at hlen; cases hlen
  | cons v rest =>
    rw [hd] at hlen
    simp only [List.length_cons, Nat.add_left_eq_self, List.length_eq_zero] at hlen
    subst hlen
    exact ⟨v, by simp [Matrix.Scalar, h, hd], rfl⟩

/-- C13: `ReduceSum.Backward` panics exactly when `gy` is not a scalar, that
is not a 1 × 1 matrix, and then nothing has been propagated, whether or not
the operand requires grad. -/
theorem ReduceSum_Backward_panics_iff {α : Type} (r : ReduceSum α) (gy : Matrix α) :
    ((ReduceSum.Backward r gy).panicked ≠ none ↔ IsScalar gy = false) ∧
    (IsScalar gy = false ↔ ¬ (gy.rows = 1 ∧ gy.cols = 1)) ∧
    (IsScalar gy = false →
      ReduceSum.Backward r gy = ⟨[], some "fn: the gradient had to be a scalar"⟩) := by
  refine ⟨?_, ?_, ?_⟩
  · cases hs : IsScalar gy with
    | false => simp [ReduceSum.Backward, hs]
    | true =>
      obtain ⟨v, hv, -⟩ := Scalar_of_IsScalar gy hs
      cases hrg : r.x.requiresGrad <;> simp [ReduceSum.Backward, hs, hrg, hv]
  · rw [← IsScalar_iff]
    cases IsScalar gy <;> simp
  · intro hs
    simp [ReduceSum.Backward, hs]

/-- C14 (counterexample): for a 2 × 2 operand value that requires grad and the
scalar `gy = [5]`, the gradient passed to `PropagateGrad` is the 4 × 1 vector
`[5, 5, 5, 5]`, which has not the shape of the operand value. -/
theorem ReduceSum_Backward_shape_counterexample :
    ¬ (∀ (r : ReduceSum Int) (gy gx : Matrix Int), r.x.requiresGrad = true →
        (ReduceSum.Backward r gy).propagated = [(Slot.x, gx)] →
        gx.rows = r.x.value.rows ∧ gx.cols = r.x.value.cols) := by
  intro h
  have hc := h ⟨⟨⟨2, 2, [1, 2, 3, 4], rfl⟩, true⟩⟩ ⟨1, 1, [5], rfl⟩
    ⟨4, 1, [5, 5, 5, 5], rfl⟩ rfl (by decide)
  exact absurd hc.1 (by decide)

/-- C14 (amended): for an operand value `x` of shape r × c that requires grad
and a scalar `gy`, `ReduceSum.Backward` passes to `PropagateGrad` a column
vector with r · c rows and one column: it has as many elements as `x`, and it
has the shape of `x` exactly when `x` is itself a column vector. -/
theorem ReduceSum_Backward_vector {α : Type} (r : ReduceSum α) (gy : Matrix α)
    (hrg : r.x.requiresGrad = true) (hs : IsScalar gy = true) :
    ∃ gx, ReduceSum.Backward r gy = ⟨[(Slot.x, gx)], none⟩ ∧
      gx.rows = r.x.value.rows * r.x.value.cols ∧ gx.cols = 1 ∧
      gx.Size = r.x.value.Size ∧
      (SameDims gx r.x.value = true ↔ r.x.value.cols = 1) := by
  obtain ⟨v, hv, -⟩ := Scalar_of_IsScalar gy hs
  refine ⟨NewInitVecDense r.x.value.Size v, by simp [ReduceSum.Backward, hs, hrg, hv],
    rfl, rfl, by simp [NewInitVecDense, Matrix.Size], ?_⟩
  simp only [SameDims, NewInitVecDense, Matrix.Size, Bool.and_eq_true, beq_iff_eq]
  constructor
  · exact fun h => h.2.symm
  · intro h
    rw [h]
    exact ⟨Nat.mul_one _, rfl⟩

/-- C14 (witness): the amended statement at a 2 × 3 operand value and
`gy = [5]`. -/
theorem ReduceSum_Backward_vector_witness :
    ∃ gx, ReduceSum.Backward (⟨⟨⟨2, 3, [1, 2, 3, 4, 5, 6], rfl⟩, true⟩⟩ : ReduceSum Int)
        ⟨1, 1, [5], rfl⟩ = ⟨[(Slot.x, gx)], none⟩ ∧
      gx.rows = 2 * 3 ∧ gx.cols = 1 ∧ gx.Size = 6 ∧
      (SameDims gx ⟨2, 3, [1, 2, 3, 4, 5, 6], rfl⟩ = true ↔ (3 : Nat) = 1) :=
  ReduceSum_Backward_vector (⟨⟨⟨2, 3, [1, 2, 3, 4, 5, 6], rfl⟩, true⟩⟩ : ReduceSum Int)
    ⟨1, 1, [5], rfl⟩ rfl (by decide)

/-! ### The guards of the Max kernel -/

/-- Two shape-compatible matrices have the same number of elements. -/
theorem Compatible_size {α : Type} (a b : Matrix α) (h : Compatible a b = true) :
    a.Size = b.Size := by
  simp only [Compatible, SameDims, VectorsOfSameSize, Matrix.Size, Bool.or_eq_true,
    Bool.and_eq_true, beq_iff_eq] at h
  rcases h with h | h
  · simp only [Matrix.Size, h.1, h.2]
  · exact h.1.1

/-- A matrix compatible with one of two compatible matrices is compatible
with the other. -/
theorem Compatible_of_Compatible {α : Type} (a b c : Matrix α)
    (hab : Compatible a b = true) (hac : Compatible a c = true) :
    Compatible b c = true := by
  simp only [Compatible, SameDims, VectorsOfSameSize, Matrix.Size, Matrix.IsVector,
    Bool.or_eq_true, Bool.and_eq_true, beq_iff_eq] at hab hac ⊢
  rcases hab with ⟨h1, h2⟩ | ⟨⟨h1, h2⟩, h3⟩
  · rcases hac with ⟨h4, h5⟩ | ⟨⟨h4, h5⟩, h6⟩
    · left
      exact ⟨h1 ▸ h4, h2 ▸ h5⟩
    · right
      rw [← h1, ← h2]
      exact ⟨⟨h4, h5⟩, h6⟩
  · rcases hac with ⟨h4, h5⟩ | ⟨⟨h4, h5⟩, h6⟩
    · right
      rw [← h4, ← h5]
      exact ⟨⟨h1.symm, h3⟩, h2⟩
    · right
      exact ⟨⟨h1.symm.trans h4, h3⟩, h6⟩

/-- Shape compatibility is symmetric. -/
theorem Compatible_comm {α : Type} (a b : Matrix α) : Compatible a b = Compatible b a := by
  have key : ∀ x y : Matrix α, Compatible x y = true → Compatible y x = true := by
    intro x y h
    simp only [Compatible, SameDims, VectorsOfSameSize, Matrix.Size, Matrix.IsVector,
      Bool.or_eq_true, Bool.and_eq_true, beq_iff_eq] at h ⊢
    rcases h with ⟨h1, h2⟩ | ⟨⟨h1, h2⟩, h3⟩
    · exact Or.inl ⟨h1.symm, h2.symm⟩
    · exact Or.inr ⟨⟨h1.symm, h3⟩, h2⟩
  cases hab : Compatible a b with
  | true => exact (key a b hab).symm
  | false =>
    cases hba : Compatible b a with
    | true => rw [key b a hba] at hab; cases hab
    | false => rfl

/-- The loop of `Max.Backward` panics only with an index out of range. -/
theorem maxGradLoop_error {α : Type} [LT α] [DecidableRel (fun (x y : α) => x < y)]
    (a b g : List α) (k : Nat) : ∀ (i : Nat) (gx : Matrix α) (e : String),
    maxGradLoop a b g k i gx = .error e → e = "index out of range" := by
  induction k with
  | zero => intro i gx e h; simp [maxGradLoop] at h
  | succ k ih =>
    intro i gx e h
    rw [maxGradLoop] at h
    cases ha : a[i]? with
    | none => rw [ha] at h; simp only [Except.error.injEq] at h; exact h.symm
    | some ai =>
      cases hb : b[i]? with
      | none => rw [ha, hb] at h; simp only [Except.error.injEq] at h; exact h.symm
      | some bi =>
        rw [ha, hb] at h
        simp only at h
        by_cases hlt : bi < ai
        · rw [if_pos hlt] at h
          cases hg : g[i]? with
          | none => rw [hg] at h; simp only [Except.error.injEq] at h; exact h.symm
          | some gi =>
            rw [hg] at h
            simp only at h
            by_cases hi : i < gx.data.length
            · rw [if_pos hi] at h
              exact ih _ _ e h
            · rw [if_neg hi] at h
              simp only [Except.error.injEq] at h
              exact h.symm
        · rw [if_neg hlt] at h
          exact ih _ _ e h

/-- When the guard of `Max.Backward` passes and both operand values have as
many elements as `gy`, the run does not panic. -/
theorem Max_Backward_sizes {α : Type} [LT α] [DecidableRel (fun (x y : α) => x < y)]
    [Zero α] (r : Max α) (gy : Matrix α)
    (hguard : Compatible r.x1.value gy = true ∨ Compatible r.x2.value gy = true)
    (e1 : r.x1.value.Size = gy.Size) (e2 : r.x2.value.Size = gy.Size) :
    (Max.Backward r gy).panicked = none := by
  have d1 : r.x1.value.data.length = gy.Size := by rw [r.x1.value.size_eq]; exact e1
  have d2 : r.x2.value.data.length = gy.Size := by rw [r.x2.value.size_eq]; exact e2
  have d3 : gy.data.length = gy.Size := gy.size_eq
  have z1 : r.x1.value.ZerosLike.data.length = gy.Size := by
    rw [r.x1.value.ZerosLike.size_eq]; exact e1
  have z2 : r.x2.value.ZerosLike.data.length = gy.Size := by
    rw [r.x2.value.ZerosLike.size_eq]; exact e2
  obtain ⟨gx1, hl1⟩ := maxGradLoop_total r.x1.value.data r.x2.value.data gy.data gy.Size 0
    r.x1.value.ZerosLike (by omega) (by omega) (by omega) (by omega)
  obtain ⟨gx2, hl2⟩ := maxGradLoop_total r.x2.value.data r.x1.value.data gy.data gy.Size 0
    r.x2.value.ZerosLike (by omega) (by omega) (by omega) (by omega)
  have hg : ((!(SameDims r.x1.value gy || VectorsOfSameSize r.x1.value gy)) &&
      (!(SameDims r.x2.value gy || VectorsOfSameSize r.x2.value gy))) = false := by
    simp only [Compatible] at hguard
    rcases hguard with h | h <;> simp [h]
  unfold Max.Backward
  simp only [hg, hl1, hl2, Bool.false_eq_true, if_false]
  cases r.x1.requiresGrad <;> cases r.x2.requiresGrad <;> simp

/-- C15 (counterexample): a row vector and a column vector of three elements
pass the guard of `Max.Forward`, being two vectors of equal size, and the call
of `Maximum` that follows fails on their different shapes: `Forward` does not
return. -/
theorem Max_Forward_orientation_counterexample :
    Compatible (⟨1, 3, [1, 2, 3], rfl⟩ : Matrix Int) ⟨3, 1, [3, 2, 1], rfl⟩ = true ∧
    Max.Forward Matrix.Maximum
      (⟨⟨⟨1, 3, [1, 2, 3], rfl⟩, true⟩, ⟨⟨3, 1, [3, 2, 1], rfl⟩, true⟩⟩ : Max Int) =
      .error notSameShape ∧
    ¬ ∃ y, Max.Forward Matrix.Maximum
      (⟨⟨⟨1, 3, [1, 2, 3], rfl⟩, true⟩, ⟨⟨3, 1, [3, 2, 1], rfl⟩, true⟩⟩ : Max Int) = .ok y :=
  ⟨by decide, rfl, fun ⟨y, hy⟩ => by
    have h : Max.Forward Matrix.Maximum
        (⟨⟨⟨1, 3, [1, 2, 3], rfl⟩, true⟩, ⟨⟨3, 1, [3, 2, 1], rfl⟩, true⟩⟩ : Max Int) =
        .error notSameShape := rfl
    rw [h] at hy
    cases hy⟩

/-- C15 (amended): whatever the library's `Maximum` does, `Max.Forward` raises
its own panic exactly when the two operand values are neither of the same
dimensions nor two vectors of equal size, and otherwise returns what
`x1.Maximum(x2)` returns, a failure included. With the shape-preserving
`Maximum`, `Forward` fails exactly when the operand values differ in their
dimensions: two vectors of equal size in different orientations pass the
guard and fail in `Maximum`; operand values of the same dimensions give a
matrix of that shape holding at each index the larger of the two elements. -/
theorem Max_Forward_panics_iff {α : Type} [LinearOrder α] (r : Max α) :
    (∀ maximum : Matrix α → Matrix α → Except String (Matrix α),
      (Compatible r.x1.value r.x2.value = false →
        Max.Forward maximum r = .error notCompatible) ∧
      (Compatible r.x1.value r.x2.value = true →
        Max.Forward maximum r = maximum r.x1.value r.x2.value)) ∧
    ((∃ e, Max.Forward Matrix.Maximum r = .error e) ↔
      SameDims r.x1.value r.x2.value = false) ∧
    (Compatible r.x1.value r.x2.value = true → SameDims r.x1.value r.x2.value = false →
      Max.Forward Matrix.Maximum r = .error notSameShape) ∧
    (SameDims r.x1.value r.x2.value = true →
      ∃ y, Max.Forward Matrix.Maximum r = .ok y ∧ r.x1.value.Maximum r.x2.value = .ok y ∧
        y.rows = r.x1.value.rows ∧ y.cols = r.x1.value.cols ∧
        ∀ i, i < y.Size → ∃ u v, r.x1.value.data[i]? = some u ∧
          r.x2.value.data[i]? = some v ∧ y.data[i]? = some (max u v)) := by
  have hgen : ∀ maximum : Matrix α → Matrix α → Except String (Matrix α),
      (Compatible r.x1.value r.x2.value = false →
        Max.Forward maximum r = .error notCompatible) ∧
      (Compatible r.x1.value r.x2.value = true →
        Max.Forward maximum r = maximum r.x1.value r.x2.value) := by
    intro maximum
    constructor
    · intro h
      simp only [Compatible] at h
      simp [Max.Forward, h]
    · intro h
      simp only [Compatible] at h
      simp [Max.Forward, h]
  have hmid : Compatible r.x1.value r.x2.value = true →
      SameDims r.x1.value r.x2.value = false →
      Max.Forward Matrix.Maximum r = .error notSameShape := by
    intro hc hs
    rw [(hgen Matrix.Maximum).2 hc]
    simp [Matrix.Maximum, hs]
  have hgood : SameDims r.x1.value r.x2.value = true →
      ∃ y, Max.Forward Matrix.Maximum r = .ok y ∧ r.x1.value.Maximum r.x2.value = .ok y ∧
        y.rows = r.x1.value.rows ∧ y.cols = r.x1.value.cols ∧
        ∀ i, i < y.Size → ∃ u v, r.x1.value.data[i]? = some u ∧
          r.x2.value.data[i]? = some v ∧ y.data[i]? = some (max u v) := by
    intro h
    have hc : Compatible r.x1.value r.x2.value = true := by simp [Compatible, h]
    have hsz := Compatible_size _ _ hc
    have hmax : r.x1.value.Maximum r.x2.value = .ok ⟨r.x1.value.rows, r.x1.value.cols,
        List.zipWith (fun x y => if x < y then y else x) r.x1.value.data r.x2.value.data,
        by
          rw [List.length_zipWith, r.x2.value.size_eq, r.x1.value.size_eq]
          simp only [Matrix.Size] at hsz
          rw [← hsz, Nat.min_self]⟩ := by
      simp [Matrix.Maximum, h]
    refine ⟨_, ?_, hmax, rfl, rfl, fun i hi => ?_⟩
    · rw [(hgen Matrix.Maximum).2 hc]
      exact hmax
    · have h1 : i < r.x1.value.data.length := by rw [r.x1.value.size_eq]; exact hi
      have h2 : i < r.x2.value.data.length := by
        rw [r.x2.value.size_eq]
        simp only [Matrix.Size] at hsz hi
        rw [← hsz]
        exact hi
      refine ⟨r.x1.value.data[i], r.x2.value.data[i], List.getElem?_eq_getElem h1,
        List.getElem?_eq_getElem h2, ?_⟩
      simp only
      rw [List.getElem?_eq_getElem (by rw [List.length_zipWith]; omega), List.getElem_zipWith]
      congr 1
      by_cases hlt : r.x1.value.data[i] < r.x2.value.data[i]
      · rw [if_pos hlt, max_eq_right_of_lt hlt]
      · rw [if_neg hlt, max_eq_left (not_lt.mp hlt)]
  refine ⟨hgen, ⟨fun ⟨e, he⟩ => ?_, fun h => ?_⟩, hmid, hgood⟩
  · cases hs : SameDims r.x1.value r.x2.value with
    | false => rfl
    | true =>
      obtain ⟨y, hy, -⟩ := hgood hs
      rw [hy] at he
      cases he
  · cases hc : Compatible r.x1.value r.x2.value with
    | false => exact ⟨_, (hgen Matrix.Maximum).1 hc⟩
    | true => exact ⟨_, hmid hc h⟩

/-- The run of `Max.Backward` when its guard fires. -/
theorem Max_Backward_guard_fires {α : Type} [LT α] [DecidableRel (fun (x y : α) => x < y)]
    [Zero α] (r : Max α) (gy : Matrix α)
    (h1 : Compatible r.x1.value gy = false) (h2 : Compatible r.x2.value gy = false) :
    Max.Backward r gy = ⟨[], some notCompatible⟩ := by
  simp only [Compatible] at h1 h2
  simp [Max.Backward, h1, h2, notCompatible]

/-- When the guard of `Max.Backward` passes, a panic of the run is an index
out of range. -/
theorem Max_Backward_guard_passes {α : Type} [LT α] [DecidableRel (fun (x y : α) => x < y)]
    [Zero α] (r : Max α) (gy : Matrix α)
    (hguard : Compatible r.x1.value gy = true ∨ Compatible r.x2.value gy = true) :
    (Max.Backward r gy).panicked = none ∨
      (Max.Backward r gy).panicked = some "index out of range" := by
  have hg : ((!(SameDims r.x1.value gy || VectorsOfSameSize r.x1.value gy)) &&
      (!(SameDims r.x2.value gy || VectorsOfSameSize r.x2.value gy))) = false := by
    simp only [Compatible] at hguard
    rcases hguard with h | h <;> simp [h]
  unfold Max.Backward
  simp only [hg, Bool.false_eq_true, if_false]
  cases hl1 : maxGradLoop r.x1.value.data r.x2.value.data gy.data gy.Size 0
      r.x1.value.ZerosLike with
  | error e1 =>
    have he1 := maxGradLoop_error _ _ _ _ _ _ _ hl1
    subst he1
    cases hl2 : maxGradLoop r.x2.value.data r.x1.value.data gy.data gy.Size 0
        r.x2.value.ZerosLike with
    | error e2 =>
      have he2 := maxGradLoop_error _ _ _ _ _ _ _ hl2
      subst he2
      cases r.x1.requiresGrad <;> cases r.x2.requiresGrad <;> simp
    | ok gx2 => cases r.x1.requiresGrad <;> cases r.x2.requiresGrad <;> simp
  | ok gx1 =>
    cases hl2 : maxGradLoop r.x2.value.data r.x1.value.data gy.data gy.Size 0
        r.x2.value.ZerosLike with
    | error e2 =>
      have he2 := maxGradLoop_error _ _ _ _ _ _ _ hl2
      subst he2
      cases r.x1.requiresGrad <;> cases r.x2.requiresGrad <;> simp
    | ok gx2 => cases r.x1.requiresGrad <;> cases r.x2.requiresGrad <;> simp

/-- C16 (counterexample): with `x1` of shape 2 × 3, `x2` and `gy` of shape
3 × 2, `gy` is shape-incompatible with `x1`, yet `Max.Backward` does not
panic. -/
theorem Max_Backward_guard_counterexample :
    ¬ (∀ (r : Max Int) (gy : Matrix Int),
        (Compatible r.x1.value gy = false ∨ Compatible r.x2.value gy = false) →
        (Max.Backward r gy).panicked ≠ none) := by
  intro h
  exact h ⟨⟨⟨2, 3, [1, 2, 3, 4, 5, 6], rfl⟩, true⟩, ⟨⟨3, 2, [6, 5, 4, 3, 2, 1], rfl⟩, true⟩⟩
    ⟨3, 2, [1, 1, 1, 1, 1, 1], rfl⟩ (Or.inl (by decide)) (by decide)

/-- C16 (amended): the guard of `Max.Backward` fires, before any element is
read and with nothing propagated, exactly when `gy` is shape-incompatible
with both operand values. For operand values that are shape-compatible with
each other, as `Max.Forward` requires, `gy` is compatible with one exactly
when it is compatible with the other, `Max.Backward` panics exactly when `gy`
is incompatible with them, and whenever it does not panic every index below
`gy.Size()` lies inside the data of `x1`, the data of `x2` and both gradient
buffers. -/
theorem Max_Backward_guard {α : Type} [LT α] [DecidableRel (fun (x y : α) => x < y)]
    [Zero α] (r : Max α) (gy : Matrix α) :
    (Max.Backward r gy = ⟨[], some notCompatible⟩ ↔
      Compatible r.x1.value gy = false ∧ Compatible r.x2.value gy = false) ∧
    (Compatible r.x1.value r.x2.value = true →
      Compatible r.x1.value gy = Compatible r.x2.value gy ∧
      ((Max.Backward r gy).panicked ≠ none ↔ Compatible r.x1.value gy = false) ∧
      ((Max.Backward r gy).panicked = none →
        gy.Size ≤ r.x1.value.data.length ∧ gy.Size ≤ r.x2.value.data.length ∧
        gy.Size ≤ r.x1.value.ZerosLike.data.length ∧
        gy.Size ≤ r.x2.value.ZerosLike.data.length)) := by
  constructor
  · constructor
    · intro hrun
      by_contra hcon
      have hguard : Compatible r.x1.value gy = true ∨ Compatible r.x2.value gy = true := by
        cases h1 : Compatible r.x1.value gy with
        | true => exact Or.inl rfl
        | false =>
          cases h2 : Compatible r.x2.value gy with
          | true => exact Or.inr rfl
          | false => exact absurd ⟨h1, h2⟩ hcon
      rcases Max_Backward_guard_passes r gy hguard with hp | hp
      · rw [hrun] at hp
        cases hp
      · rw [hrun] at hp
        simp [notCompatible] at hp
    · rintro ⟨h1, h2⟩
      exact Max_Backward_guard_fires r gy h1 h2
  · intro h12
    have h21 : Compatible r.x2.value r.x1.value = true := by rw [Compatible_comm]; exact h12
    have heq : Compatible r.x1.value gy = Compatible r.x2.value gy := by
      cases h1 : Compatible r.x1.value gy with
      | true => exact (Compatible_of_Compatible _ _ _ h12 h1).symm
      | false =>
        cases h2 : Compatible r.x2.value gy with
        | true => rw [Compatible_of_Compatible _ _ _ h21 h2] at h1; cases h1
        | false => rfl
    have hnone : Compatible r.x1.value gy = true → (Max.Backward r gy).panicked = none := by
      intro h1
      have h2 : Compatible r.x2.value gy = true := by rw [← heq]; exact h1
      exact Max_Backward_sizes r gy (Or.inl h1) (Compatible_size _ _ h1)
        (Compatible_size _ _ h2)
    have hsome : Compatible r.x1.value gy = false → (Max.Backward r gy).panicked ≠ none := by
      intro h1
      have h2 : Compatible r.x2.value gy = false := by rw [← heq]; exact h1
      rw [Max_Backward_guard_fires r gy h1 h2]
      simp
    refine ⟨heq, ⟨fun hp => ?_, hsome⟩, fun hp => ?_⟩
    · cases h1 : Compatible r.x1.value gy with
      | false => rfl
      | true => exact absurd (hnone h1) hp
    · have h1 : Compatible r.x1.value gy = true := by
        cases h1 : Compatible r.x1.value gy with
        | true => rfl
        | false => exact absurd hp (hsome h1)
      have h2 : Compatible r.x2.value gy = true := by rw [← heq]; exact h1
      have e1 := Compatible_size _ _ h1
      have e2 := Compatible_size _ _ h2
      refine ⟨?_, ?_, ?_, ?_⟩
      · rw [r.x1.value.size_eq]; exact Nat.le_of_eq e1.symm
      · rw [r.x2.value.size_eq]; exact Nat.le_of_eq e2.symm
      · rw [r.x1.value.ZerosLike.size_eq]; exact Nat.le_of_eq e1.symm
      · rw [r.x2.value.ZerosLike.size_eq]; exact Nat.le_of_eq e2.symm

/-- C17 (counterexample): with `x1 = [1, 2]` of shape 1 × 2 requiring grad and
`x2`, `gy` of shape 2 × 2, the guard of `Max.Backward` passes, since `gy` is
compatible with `x2`, but the loop for `x1` runs out of the data of `x1` and
panics, so `PropagateGrad` is never called on `x1`. -/
theorem Max_Backward_propagate_counterexample :
    ¬ (∀ (r : Max Int) (gy : Matrix Int),
        (Compatible r.x1.value gy = true ∨ Compatible r.x2.value gy = true) →
        ((Max.Backward r gy).propagated.map Prod.fst).count Slot.x1
          = (if r.x1.requiresGrad then 1 else 0)) := by
  intro h
  have hc := h ⟨⟨⟨1, 2, [1, 2], rfl⟩, true⟩, ⟨⟨2, 2, [4, 3, 2, 1], rfl⟩, false⟩⟩
    ⟨2, 2, [1, 1, 1, 1], rfl⟩ (Or.inr (by decide))
  revert hc
  decide

/-- C17 (amended): in every run of `Max.Backward`, also one that panics,
`PropagateGrad` is called at most once on an operand and never on an operand
whose `RequiresGrad()` is false; in a run that does not panic it is called
exactly once on each operand that requires grad, and a run whose guard passes
does not panic when the operand values are shape-compatible with each other.
`ReduceSum.Backward` with a scalar `gy` does not panic and calls
`PropagateGrad` exactly once on its operand if it requires grad and not at
all otherwise. -/
theorem Backward_propagates_to_requiring {α : Type} [LT α]
    [DecidableRel (fun (x y : α) => x < y)] [Zero α] :
    (∀ (r : Max α) (gy : Matrix α),
      ((Max.Backward r gy).propagated.map Prod.fst).count Slot.x1
        ≤ (if r.x1.requiresGrad then 1 else 0) ∧
      ((Max.Backward r gy).propagated.map Prod.fst).count Slot.x2
        ≤ (if r.x2.requiresGrad then 1 else 0) ∧
      ((Max.Backward r gy).panicked = none →
        ((Max.Backward r gy).propagated.map Prod.fst).count Slot.x1
          = (if r.x1.requiresGrad then 1 else 0) ∧
        ((Max.Backward r gy).propagated.map Prod.fst).count Slot.x2
          = (if r.x2.requiresGrad then 1 else 0) ∧
        (Max.Backward r gy).propagated.length
          = (if r.x1.requiresGrad then 1 else 0) + (if r.x2.requiresGrad then 1 else 0)) ∧
      (Compatible r.x1.value r.x2.value = true → Compatible r.x1.value gy = true →
        (Max.Backward r gy).panicked = none)) ∧
    (∀ (r : ReduceSum α) (gy : Matrix α), IsScalar gy = true →
      (ReduceSum.Backward r gy).panicked = none ∧
      ((ReduceSum.Backward r gy).propagated.map Prod.fst).count Slot.x
        = (if r.x.requiresGrad then 1 else 0) ∧
      (ReduceSum.Backward r gy).propagated.length = (if r.x.requiresGrad then 1 else 0)) := by
  constructor
  · intro r gy
    refine ⟨?_, ?_, ?_, fun h12 h1 => ?_⟩
    · cases hg : ((!(SameDims r.x1.value gy || VectorsOfSameSize r.x1.value gy)) &&
          (!(SameDims r.x2.value gy || VectorsOfSameSize r.x2.value gy))) with
      | true =>
        unfold Max.Backward
        simp only [hg, if_true]
        cases r.x1.requiresGrad <;> cases r.x2.requiresGrad <;> simp
      | false =>
        unfold Max.Backward
        simp only [hg, Bool.false_eq_true, if_false]
        cases r.x1.requiresGrad <;> cases r.x2.requiresGrad <;>
          cases maxGradLoop r.x1.value.data r.x2.value.data gy.data gy.Size 0
            r.x1.value.ZerosLike <;>
          cases maxGradLoop r.x2.value.data r.x1.value.data gy.data gy.Size 0
            r.x2.value.ZerosLike <;> simp
    · cases hg : ((!(SameDims r.x1.value gy || VectorsOfSameSize r.x1.value gy)) &&
          (!(SameDims r.x2.value gy || VectorsOfSameSize r.x2.value gy))) with
      | true =>
        unfold Max.Backward
        simp only [hg, if_true]
        cases r.x1.requiresGrad <;> cases r.x2.requiresGrad <;> simp
      | false =>
        unfold Max.Backward
        simp only [hg, Bool.false_eq_true, if_false]
        cases r.x1.requiresGrad <;> cases r.x2.requiresGrad <;>
          cases maxGradLoop r.x1.value.data r.x2.value.data gy.data gy.Size 0
            r.x1.value.ZerosLike <;>
          cases maxGradLoop r.x2.value.data r.x1.value.data gy.data gy.Size 0
            r.x2.value.ZerosLike <;> simp
    · cases hg : ((!(SameDims r.x1.value gy || VectorsOfSameSize r.x1.value gy)) &&
          (!(SameDims r.x2.value gy || VectorsOfSameSize r.x2.value gy))) with
      | true =>
        unfold Max.Backward
        simp only [hg, if_true]
        cases r.x1.requiresGrad <;> cases r.x2.requiresGrad <;> simp
      | false =>
        unfold Max.Backward
        simp only [hg, Bool.false_eq_true, if_false]
        cases r.x1.requiresGrad <;> cases r.x2.requiresGrad <;>
          cases maxGradLoop r.x1.value.data r.x2.value.data gy.data gy.Size 0
            r.x1.value.ZerosLike <;>
          cases maxGradLoop r.x2.value.data r.x1.value.data gy.data gy.Size 0
            r.x2.value.ZerosLike <;> simp
    · have h2 : Compatible r.x2.value gy = true := Compatible_of_Compatible _ _ _ h12 h1
      exact Max_Backward_sizes r gy (Or.inl h1) (Compatible_size _ _ h1)
        (Compatible_size _ _ h2)
  · intro r gy hs
    obtain ⟨v, hv, -⟩ := Scalar_of_IsScalar gy hs
    cases hrg : r.x.requiresGrad <;> simp [ReduceSum.Backward, hs, hrg, hv]

/-! ### Time-steps -/

/-- In every reachable graph state each operator carries a time-step no later
than the graph's counter, its operands lie before it in the heap, and no
operand that is an operator carries a later time-step than it. -/
theorem Reachable_timeSteps {α : Type} (s : GraphState α) (hs : Reachable s) :
    ∀ (a : Addr) (o : Operator α), s.world.heap[a]? = some (NodeObj.operator o) →
      o.timeStep ≤ s.graph.curTimeStep ∧
      ∀ f : Function, o.function = some f → ∀ b ∈ f.operands, b < a ∧
        ∀ ob : Operator α, s.world.heap[b]? = some (NodeObj.operator ob) →
          ob.timeStep ≤ o.timeStep := by
  induction hs with
  | fresh leaves id =>
    intro a o ho
    simp only [List.getElem?_map] at ho
    cases hl : leaves[a]? with
    | none => rw [hl] at ho; cases ho
    | some l => rw [hl] at ho; cases ho
  | @newOperator s f _ hv ih =>
    intro a o ho
    obtain ⟨rg, hrg⟩ := anyNodeRequiresGrad_total s.world.heap f.operands hv
    simp only [GraphState.newOperator, NewOperator, hrg] at ho ⊢
    by_cases ha : a < s.world.heap.length
    · rw [List.getElem?_append_left ha] at ho
      obtain ⟨h1, h2⟩ := ih a o ho
      refine ⟨h1, fun f' hf' b hb => ?_⟩
      obtain ⟨hba, hob⟩ := h2 f' hf' b hb
      refine ⟨hba, fun ob hb' => ?_⟩
      rw [List.getElem?_append_left (Nat.lt_trans hba ha)] at hb'
      exact hob ob hb'
    · have hlen : a < (s.world.heap ++ [NodeObj.operator
          ({ requiresGrad := rg, inBackward := false, visited := false,
             timeStep := s.graph.curTimeStep, graph := some s.graph.id, function := some f,
             value := none, valueMx := some ⟨false⟩, valueCond := some (), grad := none,
             gradMx := if rg = true then some ⟨true⟩ else none, gradAccMx := false,
             pendingGrads := 0 } : Operator α)]).length := lt_length_of_getElem? ho
      rw [List.length_append, List.length_singleton] at hlen
      have hae : a = s.world.heap.length := Nat.le_antisymm (Nat.le_of_lt_succ hlen)
        (Nat.le_of_not_lt ha)
      subst hae
      rw [List.getElem?_concat_length] at ho
      simp only [Option.some.injEq, NodeObj.operator.injEq] at ho
      subst ho
      refine ⟨Int.le_refl _, fun f' hf' b hb => ?_⟩
      simp only [Option.some.injEq] at hf'
      subst hf'
      have hbl := hv b hb
      refine ⟨hbl, fun ob hb' => ?_⟩
      rw [List.getElem?_append_left hbl] at hb'
      exact (ih b ob hb').1
  | @incrementTimeStep s _ ih =>
    intro a o ho
    obtain ⟨h1, h2⟩ := ih a o ho
    refine ⟨?_, h2⟩
    simp only [IncrementTimeStep]
    exact Int.le_trans h1 (Int.le_add_of_nonneg_right (by decide))

/-- The sample graph with two time-steps is reachable. -/
theorem sampleTwoSteps_reachable : Reachable sampleTwoSteps :=
  Reachable.newOperator ⟨"Neg", [0]⟩
    (Reachable.incrementTimeStep
      (Reachable.newOperator ⟨"Identity", []⟩ (Reachable.fresh [] 0)
        (fun b hb => by cases hb)))
    (fun b hb => by
      rw [List.mem_singleton] at hb
      subst hb
      decide)

/-- C18 (counterexample): in the reachable sample graph the operator built at
time-step 1 has as operand the operator built at time-step 0; its time-step
is greater than, not at most, the time-step of its operand. -/
theorem timeStep_le_operand_counterexample :
    ¬ (∀ (s : GraphState Int), Reachable s →
        ∀ (a : Addr) (o : Operator Int) (f : Function) (b : Addr) (ob : Operator Int),
          s.world.heap[a]? = some (NodeObj.operator o) → o.function = some f →
          b ∈ f.operands → s.world.heap[b]? = some (NodeObj.operator ob) →
          o.timeStep ≤ ob.timeStep) := by
  intro h
  have hc := h sampleTwoSteps sampleTwoSteps_reachable 1
    { requiresGrad := false, inBackward := false, visited := false, timeStep := 1,
      graph := some 0, function := some ⟨"Neg", [0]⟩, value := none,
      valueMx := some ⟨false⟩, valueCond := some (), grad := none, gradMx := none,
      gradAccMx := false, pendingGrads := 0 }
    ⟨"Neg", [0]⟩ 0
    { requiresGrad := false, inBackward := false, visited := false, timeStep := 0,
      graph := some 0, function := some ⟨"Identity", []⟩, value := none,
      valueMx := some ⟨false⟩, valueCond := some (), grad := none, gradMx := none,
      gradAccMx := false, pendingGrads := 0 }
    (by decide) rfl (by decide) (by decide)
  revert hc
  decide

/-- C18 (amended): in every graph state reached from a fresh graph by
`NewOperator` and `increment_time_step` calls, each operator's time-step is
greater than or equal to the time-step of every operand of it that is an
operator: an operator is stamped with the counter at its construction, which
is no earlier than the construction of its operands. -/
theorem timeStep_ge_operand {α : Type} (s : GraphState α) (hs : Reachable s)
    (a : Addr) (o : Operator α) (f : Function) (b : Addr) (ob : Operator α)
    (ho : s.world.heap[a]? = some (NodeObj.operator o)) (hf : o.function = some f)
    (hb : b ∈ f.operands) (hob : s.world.heap[b]? = some (NodeObj.operator ob)) :
    ob.timeStep ≤ o.timeStep ∧ o.timeStep ≤ s.graph.curTimeStep :=
  ⟨((Reachable_timeSteps s hs a o ho).2 f hf b hb).2 ob hob, (Reachable_timeSteps s hs a o ho).1⟩

/-- C18 (witness): the amended statement in the sample graph, for the operator
at address 1 and its operand at address 0. -/
theorem timeStep_ge_operand_witness : (0 : Int) ≤ 1 ∧ (1 : Int) ≤ 1 :=
  timeStep_ge_operand sampleTwoSteps sampleTwoSteps_reachable 1
    { requiresGrad := false, inBackward := false, visited := false, timeStep := 1,
      graph := some 0, function := some ⟨"Neg", [0]⟩, value := none,
      valueMx := some ⟨false⟩, valueCond := some (), grad := none, gradMx := none,
      gradAccMx := false, pendingGrads := 0 }
    ⟨"Neg", [0]⟩ 0
    { requiresGrad := false, inBackward := false, visited := false, timeStep := 0,
      graph := some 0, function := some ⟨"Identity", []⟩, value := none,
      valueMx := some ⟨false⟩, valueCond := some (), grad := none, gradMx := none,
      gradAccMx := false, pendingGrads := 0 }
    (by decide) rfl (by decide) (by decide)

/-- C19 (counterexample): in the sample graph at time-step 0, `NewOperator` on
a function whose operand is the operator built at the same time-step 0
returns a node; it does not panic although the operand's time-step equals the
one given to the new operator. -/
theorem NewOperator_cyclic_counterexample :
    ¬ (∀ (w : World Int) (g : Graph) (f : Function),
        (∃ b ∈ f.operands, ∃ ob : Operator Int, w.heap[b]? = some (NodeObj.operator ob) ∧
          g.curTimeStep ≤ ob.timeStep) →
        ∃ e, NewOperator w g f = .error e) := by
  intro h
  obtain ⟨e, he⟩ := h sampleOneStep.world sampleOneStep.graph ⟨"Neg", [0]⟩
    ⟨0, by simp,
      { requiresGrad := false, inBackward := false, visited := false, timeStep := 0,
        graph := some 0, function := some ⟨"Identity", []⟩, value := none,
        valueMx := some ⟨false⟩, valueCond := some (), grad := none, gradMx := none,
        gradAccMx := false, pendingGrads := 0 }, by decide, by decide⟩
  have hok : (match NewOperator sampleOneStep.world sampleOneStep.graph ⟨"Neg", [0]⟩ with
      | .ok _ => true
      | .error _ => false) = true := by decide
  rw [he] at hok
  cases hok

/-- C19 (amended): `NewOperator` makes no time-step check. For every function
whose operands are all nodes of the heap it returns a new operator stamped
with the graph's current time-step, whatever the time-steps of the operands;
when it panics, the panic is the nil dereference raised by `RequiresGrad()` on
an operand that is nil. -/
theorem NewOperator_no_timeStep_check {α : Type} (w : World α) (g : Graph) (f : Function) :
    ((∀ b ∈ f.operands, b < w.heap.length) →
      ∃ w' n o, NewOperator w g f = .ok (w', n) ∧
        w'.heap[n]? = some (NodeObj.operator o) ∧ o.timeStep = g.curTimeStep ∧
        o.function = some f) ∧
    (∀ e, NewOperator w g f = .error e →
      e = nilDereference ∧ ∃ b ∈ f.operands, w.heap.length ≤ b) := by
  constructor
  · intro hv
    obtain ⟨rg, hrg⟩ := anyNodeRequiresGrad_total w.heap f.operands hv
    simp only [NewOperator, hrg]
    exact ⟨_, _, _, rfl, List.getElem?_concat_length _ _, rfl, rfl⟩
  · intro e he
    have hloop : ∀ nodes : List Addr, anyNodeRequiresGrad w.heap nodes = .error e →
        e = nilDereference ∧ ∃ b ∈ nodes, w.heap.length ≤ b := by
      intro nodes
      induction nodes with
      | nil => intro h; simp [anyNodeRequiresGrad] at h
      | cons node rest ih =>
        intro h
        simp only [anyNodeRequiresGrad] at h
        cases hr : RequiresGrad w.heap node with
        | error e' =>
          rw [hr] at h
          simp only [Except.error.injEq] at h
          subst h
          simp only [RequiresGrad] at hr
          cases hn : w.heap[node]? with
          | none =>
            rw [hn] at hr
            simp only [Except.error.injEq] at hr
            refine ⟨hr.symm, node, List.mem_cons_self _ _, ?_⟩
            by_contra hcon
            rw [List.getElem?_eq_getElem (Nat.lt_of_not_le hcon)] at hn
            cases hn
          | some nd =>
            rw [hn] at hr
            cases nd <;> cases hr
        | ok v =>
          rw [hr] at h
          cases v with
          | true => cases h
          | false =>
            obtain ⟨h1, b, hb, hbl⟩ := ih h
            exact ⟨h1, b, List.mem_cons_of_mem _ hb, hbl⟩
    simp only [NewOperator] at he
    cases hb : anyNodeRequiresGrad w.heap f.operands with
    | error e' =>
      rw [hb] at he
      simp only [Except.error.injEq] at he
      subst he
      exact hloop f.operands hb
    | ok rg => rw [hb] at he; cases he

/-! ### Dispatch by name -/

/-- C20 (counterexample): `Invoke` called with -1, the value `GetOpName` yields
for an unknown name, panics; no result is returned. -/
theorem Invoke_unknown_counterexample :
    ¬ (∀ (methods : List String) (op : OpName) (xs : List Addr),
        GoMap.get opNameToMethodName op = none → ∃ res, Invoke methods op xs = .ok res) := by
  intro h
  obtain ⟨res, hres⟩ := h graphMethods (-1) [] (by decide)
  revert hres
  simp only [Invoke]
  have hm : MethodByName graphMethods
      ((GoMap.get opNameToMethodName (-1)).getD "") = none := by decide
  rw [hm]
  intro hres
  cases hres

/-- C20 (amended): `Invoke` called with an `OpName` that has no entry in
`opNameToMethodName` looks up the method named by the empty string, finds
none, and panics in `reflect.Value.Call` on the zero `Value`; its signature
has no error result through which the unknown operator could be returned. -/
theorem Invoke_unknown_panics (methods : List String) (op : OpName) (xs : List Addr)
    (hm : "" ∉ methods) (hop : GoMap.get opNameToMethodName op = none) :
    Invoke methods op xs = .error callOnZeroValue := by
  simp [Invoke, MethodByName, hop, hm]

/-- C20 (witness): the amended statement for the methods of `operators.go` and
the operator name -1. -/
theorem Invoke_unknown_panics_witness :
    Invoke graphMethods (-1) [3, 4] = .error callOnZeroValue :=
  Invoke_unknown_panics graphMethods (-1) [3, 4] (by decide) (by decide)

/-! ### The gradient of ReduceSum -/

/-- C28: for an operand value that requires grad and a scalar `gy` holding
`v`, the gradient that `ReduceSum.Backward` propagates has exactly `x.Size()`
entries and every entry is `v`. -/
theorem ReduceSum_Backward_broadcast {α : Type} (r : ReduceSum α) (gy : Matrix α)
    (hrg : r.x.requiresGrad = true) (hs : IsScalar gy = true) :
    ∃ v gx, gy.data = [v] ∧ ReduceSum.Backward r gy = ⟨[(Slot.x, gx)], none⟩ ∧
      gx.data.length = r.x.value.Size ∧ gx.Size = r.x.value.Size ∧
      (∀ i, i < r.x.value.Size → gx.data[i]? = some v) ∧ ∀ e ∈ gx.data, e = v := by
  obtain ⟨v, hv, hd⟩ := Scalar_of_IsScalar gy hs
  refine ⟨v, NewInitVecDense r.x.value.Size v, hd,
    by simp [ReduceSum.Backward, hs, hrg, hv], ?_, ?_, fun i hi => ?_, fun e he => ?_⟩
  · simp [NewInitVecDense]
  · simp [NewInitVecDense, Matrix.Size]
  · simp [NewInitVecDense, List.getElem?_replicate, hi]
  · simp only [NewInitVecDense] at he
    exact List.eq_of_mem_replicate he

/-- C28 (witness): the statement at a 2 × 2 operand value and `gy = [5]`. -/
theorem ReduceSum_Backward_broadcast_witness :
    ∃ v gx, (⟨1, 1, [5], rfl⟩ : Matrix Int).data = [v] ∧
      ReduceSum.Backward (⟨⟨⟨2, 2, [1, 2, 3, 4], rfl⟩, true⟩⟩ : ReduceSum Int)
        ⟨1, 1, [5], rfl⟩ = ⟨[(Slot.x, gx)], none⟩ ∧
      gx.data.length = 4 ∧ gx.Size = 4 ∧
      (∀ i, i < 4 → gx.data[i]? = some v) ∧ ∀ e ∈ gx.data, e = v :=
  ReduceSum_Backward_broadcast (⟨⟨⟨2, 2, [1, 2, 3, 4], rfl⟩, true⟩⟩ : ReduceSum Int)
    ⟨1, 1, [5], rfl⟩ rfl (by decide)

/-! ### Client flags -/

/-- C27: the flag value "JSON" is accepted by `VerifyFlags`, it equals "json"
when case is ignored, and `Println` renders it as YAML; the exact spellings
"json" and "yaml" are rendered as JSON and as YAML. -/
theorem Println_upper_case_json :
    VerifyFlags "JSON" = .ok () ∧ strings_EqualFold "JSON" "json" = true ∧
    Println "JSON" = Rendering.yaml ∧
    Println "json" = Rendering.json ∧ Println "yaml" = Rendering.yaml := by
  refine ⟨?_, by decide, by decide, by decide, by decide⟩
  rw [VerifyFlags, if_neg (by decide)]

/-! ### The forward barrier -/

/-- Counting the entries with a property after one entry is replaced. -/
theorem countP_set {β : Type} (p : β → Bool) (l : List β) :
    ∀ (k : Nat) (x y : β), l[k]? = some x →
      (l.set k y).countP p + (if p x then 1 else 0) = l.countP p + (if p y then 1 else 0) := by
  induction l with
  | nil => intro k x y h; simp at h
  | cons z rest ih =>
    intro k x y h
    cases k with
    | zero =>
      simp only [List.getElem?_cons_zero, Option.some.injEq] at h
      subst h
      simp only [List.set_cons_zero, List.countP_cons]
      omega
    | succ k =>
      simp only [List.getElem?_cons_succ] at h
      simp only [List.set_cons_succ, List.countP_cons]
      have := ih k x y h
      omega

/-- Two positions of a list without duplicates that hold the same entry are
the same position. -/
theorem nodup_getElem?_inj {β : Type} (l : List β) (hn : l.Nodup) :
    ∀ (i j : Nat) (x : β), l[i]? = some x → l[j]? = some x → i = j := by
  induction l with
  | nil => intro i j x hi; simp at hi
  | cons z rest ih =>
    intro i j x hi hj
    rw [List.nodup_cons] at hn
    cases i with
    | zero =>
      cases j with
      | zero => rfl
      | succ j =>
        simp only [List.getElem?_cons_zero, Option.some.injEq] at hi
        simp only [List.getElem?_cons_succ] at hj
        subst hi
        exact absurd (List.mem_iff_getElem?.mpr ⟨j, hj⟩) hn.1
    | succ i =>
      cases j with
      | zero =>
        simp only [List.getElem?_cons_zero, Option.some.injEq] at hj
        simp only [List.getElem?_cons_succ] at hi
        subst hj
        exact absurd (List.mem_iff_getElem?.mpr ⟨i, hi⟩) hn.1
      | succ j =>
        simp only [List.getElem?_cons_succ] at hi hj
        rw [ih hn.2 i j x hi hj]

/-- A write through an operator pointer that keeps published values
published keeps `Published`. -/
theorem Published_updateOperator {α : Type} (h : Heap α) (a b : Addr)
    (g : Operator α → Operator α)
    (hg : ∀ o v, o.value = some v → ∃ v', (g o).value = some v')
    (hp : Published h b) : Published (updateOperator h a g) b := by
  obtain ⟨o, v, ho, hv⟩ := hp
  by_cases hab : a = b
  · subst hab
    obtain ⟨v', hv'⟩ := hg o v hv
    exact ⟨g o, v', by rw [getElem?_updateOperator, if_pos rfl, ho], hv'⟩
  · exact ⟨o, v, by rw [getElem?_updateOperator, if_neg hab]; exact ho, hv⟩

/-- The invariant after the task at position `k` moves from phase `old` to
phase `new`. -/
theorem Scheduler.Invariant.move {α : Type} (s : Scheduler α) (inv : s.Invariant)
    (k : Nat) (a : Addr) (old new : ForwardPhase)
    (hk : s.world.forwardTasks[k]? = some a) (hph : s.phases[k]? = some old)
    (heap' : Heap α) (counter' : Int) (bc' : List Addr)
    (hcount : counter' + (if old.finished then 0 else 1)
      = s.world.ongoingComputations + (if new.finished then 0 else 1))
    (hlen : heap'.length = s.world.heap.length)
    (hframe : ∀ b, b ≠ a → heap'[b]? = s.world.heap[b]?)
    (hpub : ∀ b, Published s.world.heap b → Published heap' b)
    (hnewpub : new ≠ ForwardPhase.spawned → new ≠ ForwardPhase.panicked → Published heap' a)
    (hbc : ∀ b ∈ s.broadcasts, b ∈ bc')
    (hnewbc : (new = ForwardPhase.broadcast ∨ new = ForwardPhase.unlocked ∨
      new = ForwardPhase.done) → a ∈ bc')
    (hnewlive : (new = ForwardPhase.spawned ∨ new = ForwardPhase.stored) →
      ∃ o, heap'[a]? = some (NodeObj.operator o) ∧ o.function ≠ none ∧
        o.valueMx = some ⟨false⟩) :
    Scheduler.Invariant
      (⟨⟨heap', counter', s.world.forwardTasks⟩, s.phases.set k new, bc'⟩ : Scheduler α) := by
  have hklt : k < s.phases.length := lt_length_of_getElem? hph
  have hset : ∀ (j : Nat) (ph : ForwardPhase), (s.phases.set k new)[j]? = some ph →
      (j = k ∧ ph = new) ∨ (j ≠ k ∧ s.phases[j]? = some ph) := by
    intro j ph hj
    rw [List.getElem?_set] at hj
    by_cases hkj : k = j
    · subst hkj
      rw [if_pos rfl] at hj
      simp only [hklt, if_true, Option.some.injEq] at hj
      exact Or.inl ⟨rfl, hj.symm⟩
    · rw [if_neg hkj] at hj
      exact Or.inr ⟨fun h => hkj h.symm, hj⟩
  refine ⟨?_, ?_, ?_, ?_, ?_, inv.nodup, ?_⟩
  · simp only [List.length_set]
    exact inv.len
  · have hc := countP_set (fun ph => !ph.finished) s.phases k old new hph
    have hi := inv.counter
    simp only
    cases hof : old.finished <;> cases hnf : new.finished <;>
      simp only [hof, hnf, Bool.not_true, Bool.not_false, Bool.false_eq_true, if_true,
        if_false] at hc hcount <;> omega
  · intro j b ph hj hphj hne hnp
    simp only at hj hphj ⊢
    rcases hset j ph hphj with ⟨hjk, hnew⟩ | ⟨hjk, hold⟩
    · subst hjk hnew
      rw [hk] at hj
      simp only [Option.some.injEq] at hj
      subst hj
      exact hnewpub hne hnp
    · exact hpub b (inv.published j b ph hj hold hne hnp)
  · intro j b ph hj hphj hcase
    simp only at hj hphj ⊢
    rcases hset j ph hphj with ⟨hjk, hnew⟩ | ⟨hjk, hold⟩
    · subst hjk hnew
      rw [hk] at hj
      simp only [Option.some.injEq] at hj
      subst hj
      exact hnewbc hcase
    · exact hbc b (inv.broadcast j b ph hj hold hcase)
  · intro b hb
    simp only at hb ⊢
    rw [hlen]
    exact inv.bound b hb
  · intro j b ph hj hphj hcase
    simp only at hj hphj ⊢
    rcases hset j ph hphj with ⟨hjk, hnew⟩ | ⟨hjk, hold⟩
    · subst hjk hnew
      rw [hk] at hj
      simp only [Option.some.injEq] at hj
      subst hj
      exact hnewlive hcase
    · have hba : b ≠ a := by
        intro hba
        subst hba
        exact hjk (nodup_getElem?_inj _ inv.nodup j k b hj hk)
      rw [hframe b hba]
      exact inv.live j b ph hj hold hcase

/-- A panic of the task at position `k` keeps the invariant. -/
theorem Scheduler.Invariant.panicAt {α : Type} (s : Scheduler α) (inv : s.Invariant)
    (k : Nat) (a : Addr) (old : ForwardPhase)
    (hk : s.world.forwardTasks[k]? = some a) (hph : s.phases[k]? = some old)
    (hold : old.finished = false) : (s.panicAt k).Invariant :=
  Scheduler.Invariant.move s inv k a old ForwardPhase.panicked hk hph s.world.heap
    (s.world.ongoingComputations - 1) s.broadcasts
    (by rw [hold]; simp only [ForwardPhase.finished, Bool.false_eq_true, if_false, if_true]; omega)
    rfl (fun _ _ => rfl) (fun _ hb => hb) (fun _ h => absurd rfl h) (fun _ hb => hb)
    (fun h => by rcases h with h | h | h <;> cases h)
    (fun h => by rcases h with h | h <;> cases h)

/-- A step of a forward task keeps the invariant. -/
theorem Scheduler.Invariant.forwardStep {α : Type}
    (kernel : Function → Heap α → ForwardResult α) (s s' : Scheduler α) (k : Nat)
    (inv : s.Invariant) (hstep : s.forwardStep kernel k = some s') : s'.Invariant := by
  unfold Scheduler.forwardStep at hstep
  split at hstep
  · rename_i a hk hph
    cases hop : s.world.heap[a]? with
    | none => rw [hop] at hstep; cases hstep
    | some node =>
      cases node with
      | leaf l => rw [hop] at hstep; cases hstep
      | operator o =>
        rw [hop] at hstep
        simp only at hstep
        cases hf : o.function with
        | none =>
          rw [hf] at hstep
          simp only [Option.some.injEq] at hstep
          rw [← hstep]
          exact Scheduler.Invariant.panicAt s inv k a _ hk hph rfl
        | some f =>
          rw [hf] at hstep
          simp only at hstep
          cases hker : kernel f s.world.heap with
          | blocked => rw [hker] at hstep; cases hstep
          | panicked msg =>
            rw [hker] at hstep
            simp only [Option.some.injEq] at hstep
            rw [← hstep]
            exact Scheduler.Invariant.panicAt s inv k a _ hk hph rfl
          | value v =>
            rw [hker] at hstep
            simp only [Option.some.injEq] at hstep
            rw [← hstep]
            obtain ⟨o', ho', hfn, hmx⟩ := inv.live k a _ hk hph (Or.inl rfl)
            rw [hop] at ho'
            simp only [Option.some.injEq, NodeObj.operator.injEq] at ho'
            subst ho'
            refine Scheduler.Invariant.move s inv k a ForwardPhase.spawned
              ForwardPhase.stored hk hph _ _ _ (by simp [ForwardPhase.finished])
              (length_updateOperator _ _ _)
              (fun b hb => by rw [getElem?_updateOperator, if_neg (fun h => hb h.symm)])
              (fun b hb => ?_) (fun _ _ => ?_)
              (fun b hb => hb) (fun h => ?_) (fun _ => ?_)
            · exact Published_updateOperator _ _ _ _ (fun _ _ _ => ⟨v, rfl⟩) hb
            · exact ⟨_, v, by rw [getElem?_updateOperator, if_pos rfl, hop], rfl⟩
            · rcases h with h | h | h <;> cases h
            · exact ⟨{ o with value := some v },
                by rw [getElem?_updateOperator, if_pos rfl, hop], hfn, hmx⟩
  · rename_i a hk hph
    cases hop : s.world.heap[a]? with
    | none => rw [hop] at hstep; cases hstep
    | some node =>
      cases node with
      | leaf l => rw [hop] at hstep; cases hstep
      | operator o =>
        rw [hop] at hstep
        simp only at hstep
        cases hmx : o.valueMx with
        | none =>
          rw [hmx] at hstep
          simp only [Option.some.injEq] at hstep
          rw [← hstep]
          exact Scheduler.Invariant.panicAt s inv k a _ hk hph rfl
        | some mx =>
          rw [hmx] at hstep
          simp only at hstep
          by_cases hl : mx.locked = true
          · rw [if_pos hl] at hstep; cases hstep
          · rw [if_neg hl] at hstep
            simp only [Option.some.injEq] at hstep
            rw [← hstep]
            have hpub : ∀ b, Published s.world.heap b → Published
                (updateOperator s.world.heap a (fun o => { o with valueMx := some ⟨true⟩ })) b :=
              fun b hb => Published_updateOperator _ _ _ _ (fun _ v hv => ⟨v, hv⟩) hb
            refine Scheduler.Invariant.move s inv k a ForwardPhase.stored
              ForwardPhase.locked hk hph _ _ _ (by simp [ForwardPhase.finished])
              (length_updateOperator _ _ _)
              (fun b hb => by rw [getElem?_updateOperator, if_neg (fun h => hb h.symm)])
              hpub (fun _ _ => ?_)
              (fun b hb => hb) (fun h => ?_) (fun h => ?_)
            · exact hpub a (inv.published k a _ hk hph (by simp) (by simp))
            · rcases h with h | h | h <;> cases h
            · rcases h with h | h <;> cases h
  · rename_i a hk hph
    simp only [Option.some.injEq] at hstep
    rw [← hstep]
    refine Scheduler.Invariant.move s inv k a ForwardPhase.locked
      ForwardPhase.broadcast hk hph _ _ _ (by simp [ForwardPhase.finished]) rfl
      (fun _ _ => rfl) (fun b hb => hb) (fun _ _ => ?_)
      (fun b hb => List.mem_append_left _ hb) (fun _ => by simp) (fun h => ?_)
    · exact inv.published k a _ hk hph (by simp) (by simp)
    · rcases h with h | h <;> cases h
  · rename_i a hk hph
    simp only [Option.some.injEq] at hstep
    rw [← hstep]
    have hpub : ∀ b, Published s.world.heap b → Published
        (updateOperator s.world.heap a (fun o => { o with valueMx := some ⟨false⟩ })) b :=
      fun b hb => Published_updateOperator _ _ _ _ (fun _ v hv => ⟨v, hv⟩) hb
    refine Scheduler.Invariant.move s inv k a ForwardPhase.broadcast
      ForwardPhase.unlocked hk hph _ _ _ (by simp [ForwardPhase.finished])
      (length_updateOperator _ _ _)
      (fun b hb => by rw [getElem?_updateOperator, if_neg (fun h => hb h.symm)])
      hpub (fun _ _ => ?_)
      (fun b hb => hb) (fun _ => ?_) (fun h => ?_)
    · exact hpub a (inv.published k a _ hk hph (by simp) (by simp))
    · exact inv.broadcast k a _ hk hph (Or.inl rfl)
    · rcases h with h | h <;> cases h
  · rename_i a hk hph
    simp only [Option.some.injEq] at hstep
    rw [← hstep]
    refine Scheduler.Invariant.move s inv k a ForwardPhase.unlocked
      ForwardPhase.done hk hph _ _ _ (by simp [ForwardPhase.finished]) rfl
      (fun _ _ => rfl) (fun b hb => hb) (fun _ _ => ?_)
      (fun b hb => hb) (fun _ => ?_) (fun h => ?_)
    · exact inv.published k a _ hk hph (by simp) (by simp)
    · exact inv.broadcast k a _ hk hph (Or.inr (Or.inl rfl))
    · rcases h with h | h <;> cases h
  · cases hstep

/-- A `NewOperator` call keeps the invariant. -/
theorem Scheduler.Invariant.newOperator {α : Type} (s : Scheduler α) (g : Graph)
    (f : Function) (inv : s.Invariant) : (s.newOperator g f).Invariant := by
  unfold Scheduler.newOperator
  cases hnew : NewOperator s.world g f with
  | error e => exact inv
  | ok r =>
    obtain ⟨w, n⟩ := r
    simp only
    simp only [NewOperator] at hnew
    cases hb : anyNodeRequiresGrad s.world.heap f.operands with
    | error e => rw [hb] at hnew; cases hnew
    | ok rg =>
      rw [hb] at hnew
      simp only [Except.ok.injEq, Prod.mk.injEq] at hnew
      obtain ⟨hw, -⟩ := hnew
      subst hw
      have hsplit : ∀ (j : Nat) (a : Addr) (ph : ForwardPhase),
          (s.world.forwardTasks ++ [s.world.heap.length])[j]? = some a →
          (s.phases ++ [ForwardPhase.spawned])[j]? = some ph →
          (s.world.forwardTasks[j]? = some a ∧ s.phases[j]? = some ph) ∨
          (a = s.world.heap.length ∧ ph = ForwardPhase.spawned) := by
        intro j a ph hj hph
        by_cases hlt : j < s.phases.length
        · left
          rw [List.getElem?_append_left hlt] at hph
          rw [List.getElem?_append_left (inv.len ▸ hlt)] at hj
          exact ⟨hj, hph⟩
        · right
          have hl := lt_length_of_getElem? hph
          rw [List.length_append, List.length_singleton] at hl
          have hje : j = s.phases.length := Nat.le_antisymm (Nat.le_of_lt_succ hl)
            (Nat.le_of_not_lt hlt)
          subst hje
          rw [List.getElem?_concat_length] at hph
          rw [inv.len, List.getElem?_concat_length] at hj
          exact ⟨(Option.some.inj hj).symm, (Option.some.inj hph).symm⟩
      have happ : ∀ (b : Addr) (x : NodeObj α) (node : NodeObj α),
          s.world.heap[b]? = some node → (s.world.heap ++ [x])[b]? = some node := by
        intro b x node hb
        rw [List.getElem?_append_left (lt_length_of_getElem? hb)]
        exact hb
      refine ⟨?_, ?_, ?_, ?_, ?_, ?_, ?_⟩
      · simp only [List.length_append, List.length_singleton]
        rw [inv.len]
      · simp only [List.countP_append, List.countP_cons, List.countP_nil]
        rw [inv.counter]
        simp [ForwardPhase.finished]
      · intro j a ph hj hph hne hnp
        simp only at hj hph ⊢
        rcases hsplit j a ph hj hph with ⟨hj', hph'⟩ | ⟨-, hsp⟩
        · obtain ⟨o, v, ho, hv⟩ := inv.published j a ph hj' hph' hne hnp
          exact ⟨o, v, happ _ _ _ ho, hv⟩
        · exact absurd hsp hne
      · intro j a ph hj hph hcase
        simp only at hj hph ⊢
        rcases hsplit j a ph hj hph with ⟨hj', hph'⟩ | ⟨-, hsp⟩
        · exact inv.broadcast j a ph hj' hph' hcase
        · subst hsp
          rcases hcase with h | h | h <;> cases h
      · intro a ha
        simp only [List.mem_append, List.mem_singleton, List.length_append,
          List.length_singleton] at ha ⊢
        rcases ha with ha | ha
        · exact Nat.lt_succ_of_lt (inv.bound a ha)
        · subst ha
          exact Nat.lt_succ_self _
      · simp only
        rw [List.nodup_append]
        refine ⟨inv.nodup, List.nodup_singleton _, ?_⟩
        intro a ha hb
        rw [List.mem_singleton] at hb
        subst hb
        exact Nat.lt_irrefl _ (inv.bound _ ha)
      · intro j a ph hj hph hcase
        simp only at hj hph ⊢
        rcases hsplit j a ph hj hph with ⟨hj', hph'⟩ | ⟨ha, -⟩
        · obtain ⟨o, ho, hfn, hmx⟩ := inv.live j a ph hj' hph' hcase
          exact ⟨o, happ _ _ _ ho, hfn, hmx⟩
        · subst ha
          exact ⟨_, List.getElem?_concat_length _ _, by simp, rfl⟩

/-- Every reachable state of the forward tasks satisfies the invariant. -/
theorem Scheduler.Reachable.invariant {α : Type}
    (kernel : Function → Heap α → ForwardResult α) (s : Scheduler α)
    (hs : Scheduler.Reachable kernel s) : s.Invariant := by
  induction hs with
  | fresh leaves =>
    exact ⟨rfl, rfl, fun k a ph hk => by simp at hk, fun k a ph hk => by simp at hk,
      fun a ha => by simp at ha, List.nodup_nil, fun k a ph hk => by simp at hk⟩
  | newOperator g f _ ih => exact Scheduler.Invariant.newOperator _ g f ih
  | forwardStep k _ hstep ih => exact Scheduler.Invariant.forwardStep kernel _ _ k ih hstep

/-- What a step of the forward task at position `k` does: the phases of the
other tasks stay; and either the counter of ongoing computations stays and
the task has not run its `Done`, or the task goes from `unlocked` to `done`
and takes one off the counter, or the task panics before it locks, because
its function is nil, its `Forward` panics or its mutex is nil, and the
deferred `Done` takes one off the counter. -/
theorem Scheduler.forwardStep_counter {α : Type}
    (kernel : Function → Heap α → ForwardResult α) (s s' : Scheduler α) (k : Nat)
    (hstep : s.forwardStep kernel k = some s') :
    (∀ j, j ≠ k → s'.phases[j]? = s.phases[j]?) ∧
    ((s'.world.ongoingComputations = s.world.ongoingComputations ∧
        ∃ ph, s'.phases[k]? = some ph ∧ ph.finished = false) ∨
      (s'.world.ongoingComputations = s.world.ongoingComputations - 1 ∧
        s.phases[k]? = some ForwardPhase.unlocked ∧
        s'.phases[k]? = some ForwardPhase.done) ∨
      (s'.world.ongoingComputations = s.world.ongoingComputations - 1 ∧
        s'.world.heap = s.world.heap ∧
        s'.phases[k]? = some ForwardPhase.panicked ∧
        ∃ a o, s.world.forwardTasks[k]? = some a ∧
          s.world.heap[a]? = some (NodeObj.operator o) ∧
          ((s.phases[k]? = some ForwardPhase.spawned ∧
              (o.function = none ∨
                ∃ f msg, o.function = some f ∧
                  kernel f s.world.heap = ForwardResult.panicked msg)) ∨
            (s.phases[k]? = some ForwardPhase.stored ∧ o.valueMx = none)))) := by
  have hframe : ∀ (new : ForwardPhase) (j : Nat), j ≠ k →
      (s.phases.set k new)[j]? = s.phases[j]? := by
    intro new j hj
    rw [List.getElem?_set, if_neg (fun h => hj h.symm)]
  have hat : ∀ (old new : ForwardPhase), s.phases[k]? = some old →
      (s.phases.set k new)[k]? = some new := by
    intro old new hph
    rw [List.getElem?_set, if_pos rfl]
    simp [lt_length_of_getElem? hph]
  unfold Scheduler.forwardStep at hstep
  split at hstep
  · rename_i a hk hph
    cases hop : s.world.heap[a]? with
    | none => rw [hop] at hstep; cases hstep
    | some node =>
      cases node with
      | leaf l => rw [hop] at hstep; cases hstep
      | operator o =>
        rw [hop] at hstep
        simp only at hstep
        cases hf : o.function with
        | none =>
          rw [hf] at hstep
          simp only [Option.some.injEq] at hstep
          rw [← hstep]
          exact ⟨hframe _, Or.inr (Or.inr ⟨rfl, rfl, hat _ _ hph, a, o, hk, hop,
            Or.inl ⟨hph, Or.inl hf⟩⟩)⟩
        | some f =>
          rw [hf] at hstep
          simp only at hstep
          cases hker : kernel f s.world.heap with
          | blocked => rw [hker] at hstep; cases hstep
          | panicked msg =>
            rw [hker] at hstep
            simp only [Option.some.injEq] at hstep
            rw [← hstep]
            exact ⟨hframe _, Or.inr (Or.inr ⟨rfl, rfl, hat _ _ hph, a, o, hk, hop,
              Or.inl ⟨hph, Or.inr ⟨f, msg, hf, hker⟩⟩⟩)⟩
          | value v =>
            rw [hker] at hstep
            simp only [Option.some.injEq] at hstep
            rw [← hstep]
            exact ⟨hframe _, Or.inl ⟨rfl, _, hat _ _ hph, rfl⟩⟩
  · rename_i a hk hph
    cases hop : s.world.heap[a]? with
    | none => rw [hop] at hstep; cases hstep
    | some node =>
      cases node with
      | leaf l => rw [hop] at hstep; cases hstep
      | operator o =>
        rw [hop] at hstep
        simp only at hstep
        cases hmx : o.valueMx with
        | none =>
          rw [hmx] at hstep
          simp only [Option.some.injEq] at hstep
          rw [← hstep]
          exact ⟨hframe _, Or.inr (Or.inr ⟨rfl, rfl, hat _ _ hph, a, o, hk, hop,
            Or.inr ⟨hph, hmx⟩⟩)⟩
        | some mx =>
          rw [hmx] at hstep
          simp only at hstep
          by_cases hl : mx.locked = true
          · rw [if_pos hl] at hstep; cases hstep
          · rw [if_neg hl] at hstep
            simp only [Option.some.injEq] at hstep
            rw [← hstep]
            exact ⟨hframe _, Or.inl ⟨rfl, _, hat _ _ hph, rfl⟩⟩
  · rename_i a hk hph
    simp only [Option.some.injEq] at hstep
    rw [← hstep]
    exact ⟨hframe _, Or.inl ⟨rfl, _, hat _ _ hph, rfl⟩⟩
  · rename_i a hk hph
    simp only [Option.some.injEq] at hstep
    rw [← hstep]
    exact ⟨hframe _, Or.inl ⟨rfl, _, hat _ _ hph, rfl⟩⟩
  · rename_i a hk hph
    simp only [Option.some.injEq] at hstep
    rw [← hstep]
    exact ⟨hframe _, Or.inr (Or.inl ⟨rfl, hph, hat _ _ hph⟩)⟩
  · cases hstep

/-- A forward task that has run its `Done` makes no further step. -/
theorem Scheduler.forwardStep_finished {α : Type}
    (kernel : Function → Heap α → ForwardResult α) (s : Scheduler α) (k : Nat)
    (ph : ForwardPhase) (hph : s.phases[k]? = some ph) (hfin : ph.finished = true) :
    s.forwardStep kernel k = none := by
  unfold Scheduler.forwardStep
  rw [hph]
  cases ph <;> simp [ForwardPhase.finished] at hfin <;>
    cases s.world.forwardTasks[k]? <;> rfl

/-- A forward task that has not run its `Done` can make a step, unless it is
at its `Forward` call and that call is blocked on an operand. -/
theorem Scheduler.forwardStep_progress {α : Type}
    (kernel : Function → Heap α → ForwardResult α) (s : Scheduler α)
    (inv : s.Invariant) (k : Nat) (a : Addr) (ph : ForwardPhase)
    (hk : s.world.forwardTasks[k]? = some a) (hph : s.phases[k]? = some ph)
    (hnf : ph.finished = false) :
    (∃ s', s.forwardStep kernel k = some s') ∨
    (ph = ForwardPhase.spawned ∧ ∃ o f, s.world.heap[a]? = some (NodeObj.operator o) ∧
      o.function = some f ∧ kernel f s.world.heap = ForwardResult.blocked) := by
  cases ph with
  | spawned =>
    obtain ⟨o, ho, hfn, hmx⟩ := inv.live k a _ hk hph (Or.inl rfl)
    cases hf : o.function with
    | none => exact absurd hf hfn
    | some f =>
      cases hker : kernel f s.world.heap with
      | blocked => exact Or.inr ⟨rfl, o, f, ho, hf, hker⟩
      | value v =>
        left
        simp only [Scheduler.forwardStep, hk, hph, ho, hf, hker]
        exact ⟨_, rfl⟩
      | panicked msg =>
        left
        simp only [Scheduler.forwardStep, hk, hph, ho, hf, hker]
        exact ⟨_, rfl⟩
  | stored =>
    obtain ⟨o, ho, hfn, hmx⟩ := inv.live k a _ hk hph (Or.inr rfl)
    left
    simp only [Scheduler.forwardStep, hk, hph, ho, hmx]
    exact ⟨_, rfl⟩
  | locked =>
    left
    simp only [Scheduler.forwardStep, hk, hph]
    exact ⟨_, rfl⟩
  | broadcast =>
    left
    simp only [Scheduler.forwardStep, hk, hph]
    exact ⟨_, rfl⟩
  | unlocked =>
    left
    simp only [Scheduler.forwardStep, hk, hph]
    exact ⟨_, rfl⟩
  | done => cases hnf
  | panicked => cases hnf

/-- When no `Forward` panics, no forward task of a reachable state has
panicked. -/
theorem Scheduler.Reachable.noPanic {α : Type}
    (kernel : Function → Heap α → ForwardResult α)
    (hker : ∀ f h msg, kernel f h ≠ ForwardResult.panicked msg) (s : Scheduler α)
    (hs : Scheduler.Reachable kernel s) : ForwardPhase.panicked ∉ s.phases := by
  induction hs with
  | fresh leaves => simp
  | @newOperator s0 g f _ ih =>
    unfold Scheduler.newOperator
    cases NewOperator s0.world g f with
    | error e => exact ih
    | ok r =>
      simp only [List.mem_append, List.mem_singleton, not_or]
      exact ⟨ih, by simp⟩
  | @forwardStep s0 s1 k hprev hstep ih =>
    have inv := Scheduler.Reachable.invariant kernel s0 hprev
    obtain ⟨hframe, hcase⟩ := Scheduler.forwardStep_counter kernel s0 s1 k hstep
    intro hmem
    obtain ⟨j, hj⟩ := List.mem_iff_getElem?.mp hmem
    by_cases hjk : j = k
    · subst hjk
      rcases hcase with ⟨-, ph, hph, hfin⟩ | ⟨-, -, hd⟩ | ⟨-, -, -, a, o, hk, ho, hwhy⟩
      · rw [hj] at hph
        simp only [Option.some.injEq] at hph
        subst hph
        cases hfin
      · rw [hj] at hd
        cases hd
      · rcases hwhy with ⟨hph, hfn⟩ | ⟨hph, hmx⟩
        · obtain ⟨o', ho', hfn', -⟩ := inv.live j a _ hk hph (Or.inl rfl)
          rw [ho] at ho'
          simp only [Option.some.injEq, NodeObj.operator.injEq] at ho'
          subst ho'
          rcases hfn with hfn | ⟨f, msg, -, hpan⟩
          · exact hfn' hfn
          · exact hker _ _ _ hpan
        · obtain ⟨o', ho', -, hmx'⟩ := inv.live j a _ hk hph (Or.inr rfl)
          rw [ho] at ho'
          simp only [Option.some.injEq, NodeObj.operator.injEq] at ho'
          subst ho'
          rw [hmx] at hmx'
          cases hmx'
    · rw [hframe j hjk] at hj
      exact ih (List.mem_iff_getElem?.mpr ⟨j, hj⟩)

/-- A run of one forward task whose `Forward` returns: after the `NewOperator`
call and the five steps of the task the counter is back at zero and the
value is stored. -/
theorem Scheduler.sampleRun :
    ∃ s : Scheduler Int,
      Scheduler.Reachable (fun _ _ => ForwardResult.value (NewVecDense [1])) s ∧
      s.world.ongoingComputations = 0 ∧ s.phases = [ForwardPhase.done] ∧
      s.world.forwardTasks = [0] ∧ s.broadcasts = [0] ∧
      ∃ o, s.world.heap[0]? = some (NodeObj.operator o) ∧
        o.value = some (NewVecDense [1]) := by
  have h0 : Scheduler.Reachable (fun _ _ => ForwardResult.value (NewVecDense ([1] : List Int)))
      (Scheduler.newOperator ⟨⟨([] : List (Leaf Int)).map NodeObj.leaf, 0, []⟩, [], []⟩
        ⟨0, 0⟩ ⟨"Add", []⟩) :=
    Scheduler.Reachable.newOperator _ _ (Scheduler.Reachable.fresh [])
  have h1 := Scheduler.Reachable.forwardStep 0 h0 rfl
  have h2 := Scheduler.Reachable.forwardStep 0 h1 rfl
  have h3 := Scheduler.Reachable.forwardStep 0 h2 rfl
  have h4 := Scheduler.Reachable.forwardStep 0 h3 rfl
  have h5 := Scheduler.Reachable.forwardStep 0 h4 rfl
  exact ⟨_, h5, rfl, rfl, rfl, rfl, _, rfl, rfl⟩

/-- C21: a forward task whose `Forward` panics runs its deferred `Done`
without having stored a value. One `NewOperator` call on an empty process
followed by one step of the spawned task, whose `Forward` panics, reaches a
state whose counter of ongoing computations is zero while the one operator
of the one forward task has no value: the counter at zero does not say that
every spawned forward task has published its value. -/
theorem forward_barrier_counterexample :
    Scheduler.forwardStep (fun _ _ => ForwardResult.panicked "mat: incompatible sizes")
        (Scheduler.newOperator (⟨⟨[], 0, []⟩, [], []⟩ : Scheduler Int) ⟨0, 0⟩ ⟨"Add", []⟩) 0
      = some samplePanicked ∧
    Scheduler.Reachable (fun _ _ => ForwardResult.panicked "mat: incompatible sizes")
      samplePanicked ∧
    samplePanicked.world.ongoingComputations = 0 ∧
    samplePanicked.world.forwardTasks = [0] ∧
    samplePanicked.phases = [ForwardPhase.panicked] ∧
    ¬ Published samplePanicked.world.heap 0 := by
  refine ⟨rfl, ?_, rfl, rfl, rfl, ?_⟩
  · exact Scheduler.Reachable.forwardStep 0
      (Scheduler.Reachable.newOperator ⟨0, 0⟩ ⟨"Add", []⟩ (Scheduler.Reachable.fresh [])) rfl
  · rintro ⟨o, v, ho, hv⟩
    have ho' : samplePanicked.world.heap[0]? = some (NodeObj.operator
        ({ requiresGrad := false, inBackward := false, visited := false, timeStep := 0,
           graph := some 0, function := some ⟨"Add", []⟩, value := none,
           valueMx := some ⟨false⟩, valueCond := some (), grad := none, gradMx := none,
           gradAccMx := false, pendingGrads := 0 } : Operator Int)) := rfl
    rw [ho'] at ho
    simp only [Option.some.injEq, NodeObj.operator.injEq] at ho
    subst ho
    cases hv

/-- C21: a `NewOperator` call that returns adds one to the counter of ongoing
computations and spawns one forward task. A step of a forward task changes
the phase of that task only; it takes one off the counter exactly when it is
the last step of the task, which is either the step after the unlock, of a
task that has stored its value and broadcast, or the deferred `Done` of a
task that panics before it locks (nil function, panicking `Forward`, nil
mutex), which has stored nothing in that step. A task that has run its `Done`
makes no further step. In every reachable state, whatever the interleaving:
there is one phase per task and the counter is the number of tasks that have
not run their `Done`; a task that has not run its `Done` can make a step
unless its `Forward` is blocked on an operand; a task that is done has
published its value and broadcast; when the counter is zero every forward
task spawned so far either is done, with its value published and broadcast,
or has panicked; and when no `Forward` panics no task has panicked, so that
the counter at zero means every spawned task has published its value. -/
theorem forward_barrier {α : Type} (kernel : Function → Heap α → ForwardResult α) :
    (∀ (w : World α) (g : Graph) (f : Function) (w' : World α) (n : Addr),
      NewOperator w g f = .ok (w', n) →
        w'.ongoingComputations = w.ongoingComputations + 1 ∧
        w'.forwardTasks = w.forwardTasks ++ [n]) ∧
    (∀ (s s' : Scheduler α) (k : Nat), s.forwardStep kernel k = some s' →
      (∀ j, j ≠ k → s'.phases[j]? = s.phases[j]?) ∧
      ((s'.world.ongoingComputations = s.world.ongoingComputations ∧
          ∃ ph, s'.phases[k]? = some ph ∧ ph.finished = false) ∨
        (s'.world.ongoingComputations = s.world.ongoingComputations - 1 ∧
          s.phases[k]? = some ForwardPhase.unlocked ∧
          s'.phases[k]? = some ForwardPhase.done) ∨
        (s'.world.ongoingComputations = s.world.ongoingComputations - 1 ∧
          s'.world.heap = s.world.heap ∧
          s'.phases[k]? = some ForwardPhase.panicked ∧
          ∃ a o, s.world.forwardTasks[k]? = some a ∧
            s.world.heap[a]? = some (NodeObj.operator o) ∧
            ((s.phases[k]? = some ForwardPhase.spawned ∧
                (o.function = none ∨
                  ∃ f msg, o.function = some f ∧
                    kernel f s.world.heap = ForwardResult.panicked msg)) ∨
              (s.phases[k]? = some ForwardPhase.stored ∧ o.valueMx = none))))) ∧
    (∀ (s : Scheduler α) (k : Nat) (ph : ForwardPhase), s.phases[k]? = some ph →
      ph.finished = true → s.forwardStep kernel k = none) ∧
    (∀ s : Scheduler α, Scheduler.Reachable kernel s →
      (s.phases.length = s.world.forwardTasks.length ∧
        s.world.ongoingComputations
          = ((s.phases.countP (fun ph => !ph.finished) : Nat) : Int)) ∧
      (∀ (k : Nat) (a : Addr) (ph : ForwardPhase), s.world.forwardTasks[k]? = some a →
        s.phases[k]? = some ph → ph.finished = false →
        (∃ s', s.forwardStep kernel k = some s') ∨
        (ph = ForwardPhase.spawned ∧
          ∃ o f, s.world.heap[a]? = some (NodeObj.operator o) ∧
            o.function = some f ∧ kernel f s.world.heap = ForwardResult.blocked)) ∧
      (∀ (k : Nat) (a : Addr), s.world.forwardTasks[k]? = some a →
        s.phases[k]? = some ForwardPhase.done →
        Published s.world.heap a ∧ a ∈ s.broadcasts) ∧
      (s.world.ongoingComputations = 0 →
        ∀ (k : Nat) (a : Addr), s.world.forwardTasks[k]? = some a →
          (s.phases[k]? = some ForwardPhase.done ∧ Published s.world.heap a ∧
            a ∈ s.broadcasts) ∨
          s.phases[k]? = some ForwardPhase.panicked) ∧
      ((∀ f h msg, kernel f h ≠ ForwardResult.panicked msg) →
        ForwardPhase.panicked ∉ s.phases ∧
        (s.world.ongoingComputations = 0 →
          ∀ a ∈ s.world.forwardTasks, Published s.world.heap a ∧ a ∈ s.broadcasts))) := by
  refine ⟨fun w g f w' n hn => ?_, fun s s' k h => Scheduler.forwardStep_counter kernel s s' k h,
    fun s k ph hph hfin => Scheduler.forwardStep_finished kernel s k ph hph hfin,
    fun s hs => ?_⟩
  · simp only [NewOperator] at hn
    cases hb : anyNodeRequiresGrad w.heap f.operands with
    | error e => rw [hb] at hn; cases hn
    | ok rg =>
      rw [hb] at hn
      simp only [Except.ok.injEq, Prod.mk.injEq] at hn
      obtain ⟨hw, hn⟩ := hn
      subst hw hn
      exact ⟨rfl, rfl⟩
  · have inv := Scheduler.Reachable.invariant kernel s hs
    have hdone : ∀ (k : Nat) (a : Addr), s.world.forwardTasks[k]? = some a →
        s.phases[k]? = some ForwardPhase.done →
        Published s.world.heap a ∧ a ∈ s.broadcasts :=
      fun k a hk hph => ⟨inv.published k a _ hk hph (by simp) (by simp),
        inv.broadcast k a _ hk hph (Or.inr (Or.inr rfl))⟩
    have hzero : s.world.ongoingComputations = 0 →
        ∀ (k : Nat) (a : Addr), s.world.forwardTasks[k]? = some a →
          (s.phases[k]? = some ForwardPhase.done ∧ Published s.world.heap a ∧
            a ∈ s.broadcasts) ∨
          s.phases[k]? = some ForwardPhase.panicked := by
      intro hz k a hk
      have hc := inv.counter
      rw [hz] at hc
      have hc0 : s.phases.countP (fun ph => !ph.finished) = 0 := by
        exact_mod_cast hc.symm
      rw [List.countP_eq_zero] at hc0
      have hklt : k < s.phases.length := by
        rw [inv.len]
        exact lt_length_of_getElem? hk
      have hph : s.phases[k]? = some s.phases[k] := List.getElem?_eq_getElem hklt
      have hd := hc0 s.phases[k] (List.getElem_mem hklt)
      cases hcase : s.phases[k] with
      | done =>
        rw [hcase] at hph
        exact Or.inl ⟨hph, hdone k a hk hph⟩
      | panicked =>
        rw [hcase] at hph
        exact Or.inr hph
      | spawned => rw [hcase] at hd; simp [ForwardPhase.finished] at hd
      | stored => rw [hcase] at hd; simp [ForwardPhase.finished] at hd
      | locked => rw [hcase] at hd; simp [ForwardPhase.finished] at hd
      | broadcast => rw [hcase] at hd; simp [ForwardPhase.finished] at hd
      | unlocked => rw [hcase] at hd; simp [ForwardPhase.finished] at hd
    refine ⟨⟨inv.len, inv.counter⟩,
      fun k a ph hk hph hnf => Scheduler.forwardStep_progress kernel s inv k a ph hk hph hnf,
      hdone, hzero, fun hker => ?_⟩
    have hnp := Scheduler.Reachable.noPanic kernel hker s hs
    refine ⟨hnp, fun hz a ha => ?_⟩
    obtain ⟨k, hk⟩ := List.mem_iff_getElem?.mp ha
    rcases hzero hz k a hk with ⟨-, hp⟩ | hpan
    · exact hp
    · exact absurd (List.mem_iff_getElem?.mpr ⟨k, hpan⟩) hnp

/-! ### The RotateR kernel -/

/-- The right shift puts element `k` at position `(k + i) mod n`. -/
theorem getElem?_rotateR {α : Type} (a : List α) (i k : Nat) (hi : i ≤ a.length)
    (hk : k < a.length) : (rotateR a i)[(k + i) % a.length]? = a[k]? := by
  unfold rotateR
  have hdl : (a.drop (a.length - i)).length = i := by
    rw [List.length_drop]; omega
  by_cases hlt : k + i < a.length
  · rw [Nat.mod_eq_of_lt hlt, List.getElem?_append_right (by omega), hdl,
      List.getElem?_take_of_lt (by omega)]
    congr 1
    omega
  · have hge : a.length ≤ k + i := Nat.le_of_not_lt hlt
    rw [Nat.mod_eq_sub_mod hge, Nat.mod_eq_of_lt (by omega),
      List.getElem?_append_left (by omega), List.getElem?_drop]
    congr 1
    omega

/-- The left shift reads position `(k + i) mod n` into position `k`. -/
theorem getElem?_rotateL {α : Type} (g : List α) (i k : Nat) (hi : i ≤ g.length)
    (hk : k < g.length) : (rotateL g i)[k]? = g[(k + i) % g.length]? := by
  unfold rotateL
  have hdl : (g.drop i).length = g.length - i := List.length_drop _ _
  by_cases hlt : k + i < g.length
  · rw [Nat.mod_eq_of_lt hlt, List.getElem?_append_left (by omega), List.getElem?_drop]
    congr 1
    omega
  · have hge : g.length ≤ k + i := Nat.le_of_not_lt hlt
    rw [Nat.mod_eq_sub_mod hge, Nat.mod_eq_of_lt (by omega),
      List.getElem?_append_right (by omega), hdl, List.getElem?_take_of_lt (by omega)]
    congr 1
    omega

/-- The left shift undoes the right shift. -/
theorem rotateL_rotateR {α : Type} (a : List α) (i : Nat) (hi : i ≤ a.length) :
    rotateL (rotateR a i) i = a := by
  unfold rotateL rotateR
  have hdl : (a.drop (a.length - i)).length = i := by
    rw [List.length_drop]; omega
  rw [List.drop_left' hdl, List.take_left' hdl, List.take_append_drop]

/-- C22: for an operand value `x` of `n` elements and a shift `i ≤ n`,
`RotateR.Forward` is a vector of `n` elements that holds `x[k]` at position
`(k + i) mod n`; `RotateR.Backward(gy)`, for `gy` of `n` elements and an
operand that requires grad, propagates the vector `gx` with
`gx[k] = gy[(k + i) mod n]`; and propagating `gy = Forward(x)` gives back the
elements of `x`. -/
theorem RotateR_shift_and_inverse {α : Type} (r : RotateR α)
    (hi : r.i ≤ r.x.value.Size) (hrg : r.x.requiresGrad = true) :
    ((RotateR.Forward r).Size = r.x.value.Size ∧
      ∀ k, k < r.x.value.Size →
        (RotateR.Forward r).data[(k + r.i) % r.x.value.Size]? = r.x.value.data[k]?) ∧
    (∀ gy : Matrix α, gy.Size = r.x.value.Size →
      ∃ gx, RotateR.Backward r gy = ⟨[(Slot.x, gx)], none⟩ ∧ gx.Size = r.x.value.Size ∧
        ∀ k, k < r.x.value.Size → gx.data[k]? = gy.data[(k + r.i) % r.x.value.Size]?) ∧
    (∃ gx, RotateR.Backward r (RotateR.Forward r) = ⟨[(Slot.x, gx)], none⟩ ∧
      gx.data = r.x.value.data) := by
  have hn : r.x.value.data.length = r.x.value.Size := r.x.value.size_eq
  refine ⟨⟨?_, fun k hk => ?_⟩, fun gy hgy => ?_, ?_⟩
  · simp only [RotateR.Forward, NewVecDense, Matrix.Size, rotateR, List.length_append,
      List.length_drop, List.length_take, Nat.mul_one]
    rw [hn]
    simp only [Matrix.Size]
    omega
  · simp only [RotateR.Forward, NewVecDense]
    rw [← hn]
    exact getElem?_rotateR _ _ _ (hn ▸ hi) (hn ▸ hk)
  · have hg : gy.data.length = r.x.value.Size := by rw [gy.size_eq]; exact hgy
    refine ⟨NewVecDense (rotateL gy.data r.i), by simp [RotateR.Backward, hrg], ?_,
      fun k hk => ?_⟩
    · simp only [NewVecDense, Matrix.Size, rotateL, List.length_append, List.length_drop,
        List.length_take, Nat.mul_one]
      simp only [Matrix.Size] at hg hi
      omega
    · simp only [NewVecDense]
      rw [← hg]
      exact getElem?_rotateL _ _ _ (hg ▸ hi) (hg ▸ hk)
  · refine ⟨NewVecDense (rotateL (RotateR.Forward r).data r.i),
      by simp [RotateR.Backward, hrg], ?_⟩
    simp only [NewVecDense, RotateR.Forward]
    exact rotateL_rotateR _ _ (hn ▸ hi)

/-- C22 (witness): the vector of the test of `RotateR`, in tenths: the shift
by one place puts `8` first, and the gradient `[1, …, 8]` comes back as
`[2, …, 8, 1]`. -/
theorem RotateR_shift_and_inverse_witness :
    RotateR.Forward (⟨⟨NewVecDense [1, 2, 3, 4, 5, 6, 7, 8], true⟩, 1⟩ : RotateR Int) =
      NewVecDense [8, 1, 2, 3, 4, 5, 6, 7] ∧
    RotateR.Backward (⟨⟨NewVecDense [1, 2, 3, 4, 5, 6, 7, 8], true⟩, 1⟩ : RotateR Int)
      (NewVecDense [1, 2, 3, 4, 5, 6, 7, 8]) =
      ⟨[(Slot.x, NewVecDense [2, 3, 4, 5, 6, 7, 8, 1])], none⟩ ∧
    ∃ gx, RotateR.Backward (⟨⟨NewVecDense [1, 2, 3, 4, 5, 6, 7, 8], true⟩, 1⟩ : RotateR Int)
        (RotateR.Forward ⟨⟨NewVecDense [1, 2, 3, 4, 5, 6, 7, 8], true⟩, 1⟩) =
        ⟨[(Slot.x, gx)], none⟩ ∧
      gx.data = [1, 2, 3, 4, 5, 6, 7, 8] :=
  ⟨by decide, by decide,
    (RotateR_shift_and_inverse
      (⟨⟨NewVecDense [1, 2, 3, 4, 5, 6, 7, 8], true⟩, 1⟩ : RotateR Int)
      (by decide) rfl).2.2⟩

/-! ### The View kernel -/

/-- An element inside the matrix is read from the row-major buffer. -/
theorem Matrix.At_of_lt {α : Type} [Zero α] (m : Matrix α) (i j : Nat) (hi : i < m.rows)
    (hj : j < m.cols) :
    m.At i j = .ok (m.data.getD (i * m.cols + j) 0) ∧ i * m.cols + j < m.data.length := by
  have hlt : i * m.cols + j < m.data.length := by
    rw [m.size_eq]
    calc i * m.cols + j < i * m.cols + m.cols := by omega
      _ = (i + 1) * m.cols := by ring
      _ ≤ m.rows * m.cols := Nat.mul_le_mul_right _ hi
  refine ⟨?_, hlt⟩
  simp only [Matrix.At, hi, hj, and_self, if_true]
  rw [List.getElem?_eq_getElem hlt, List.getD_eq_getElem _ _ hlt]

/-- A row-major index inside an `h` by `w` block. -/
theorem rowMajor_lt (h w a b : Nat) (ha : a < h) (hb : b < w) : a * w + b < h * w :=
  calc a * w + b < a * w + w := by omega
    _ = (a + 1) * w := by ring
    _ ≤ h * w := Nat.mul_le_mul_right _ ha

/-- A row-major index determines its row and its column. -/
theorem rowMajor_div_mod (w a b : Nat) (hb : b < w) :
    (a * w + b) / w = a ∧ (a * w + b) % w = b := by
  have hw : 0 < w := by omega
  constructor
  · rw [Nat.add_comm, Nat.add_mul_div_right _ _ hw, Nat.div_eq_of_lt hb, Nat.zero_add]
  · rw [Nat.add_comm, Nat.add_mul_mod_self_right, Nat.mod_eq_of_lt hb]

/-- Two positions with the same row-major index are equal. -/
theorem rowMajor_inj (w a b c d : Nat) (hb : b < w) (hd : d < w)
    (h : a * w + b = c * w + d) : a = c ∧ b = d := by
  have h1 := rowMajor_div_mod w a b hb
  have h2 := rowMajor_div_mod w c d hd
  rw [h] at h1
  exact ⟨h1.1.symm.trans h2.1, h1.2.symm.trans h2.2⟩

/-- Element `a * w + b` of the list of block positions is `(a, b)`. -/
theorem getElem?_blockPositions (h w a b : Nat) (ha : a < h) (hb : b < w) :
    (blockPositions h w)[a * w + b]? = some (a, b) := by
  have hlt := rowMajor_lt h w a b ha hb
  have hdm := rowMajor_div_mod w a b hb
  simp [blockPositions, List.getElem?_map, List.getElem?_range hlt, hdm.1, hdm.2]

/-- The positions of a block are the pairs inside it. -/
theorem mem_blockPositions (h w : Nat) (p : Nat × Nat) :
    p ∈ blockPositions h w ↔ p.1 < h ∧ p.2 < w := by
  obtain ⟨a, b⟩ := p
  constructor
  · intro hp
    simp only [blockPositions, List.mem_map, List.mem_range, Prod.mk.injEq] at hp
    obtain ⟨q, hq, hqa, hqb⟩ := hp
    have hw : 0 < w := by
      rcases Nat.eq_zero_or_pos w with h0 | h0
      · subst h0; simp at hq
      · exact h0
    subst hqa hqb
    exact ⟨by rw [Nat.div_lt_iff_lt_mul hw]; exact hq, Nat.mod_lt _ hw⟩
  · rintro ⟨ha, hb⟩
    exact List.mem_iff_getElem?.2 ⟨_, getElem?_blockPositions h w a b ha hb⟩

/-- A sequence of stores leaves the shape of the matrix alone. -/
theorem foldl_store_shape {α β : Type} (idx : β → Nat) (val : β → α) (ps : List β) :
    ∀ m : Matrix α,
      (ps.foldl (fun gx p => gx.store (idx p) (val p)) m).rows = m.rows ∧
      (ps.foldl (fun gx p => gx.store (idx p) (val p)) m).cols = m.cols := by
  induction ps with
  | nil => intro m; exact ⟨rfl, rfl⟩
  | cons p rest ih => intro m; exact ih (m.store (idx p) (val p))

/-- A sequence of stores leaves alone every position it does not write. -/
theorem foldl_store_untouched {α β : Type} (idx : β → Nat) (val : β → α) (q : Nat)
    (ps : List β) :
    ∀ m : Matrix α, (∀ p ∈ ps, idx p ≠ q) →
      (ps.foldl (fun gx p => gx.store (idx p) (val p)) m).data[q]? = m.data[q]? := by
  induction ps with
  | nil => intro m _; rfl
  | cons p rest ih =>
    intro m h
    rw [List.foldl_cons, ih _ (fun p' hp' => h p' (List.mem_cons_of_mem _ hp'))]
    simp [Matrix.store, List.getElem?_set, h p (List.mem_cons_self _ _)]

/-- A position written by a sequence of stores that agree on it holds the
stored value. -/
theorem foldl_store_written {α β : Type} (idx : β → Nat) (val : β → α) (q : Nat) (v : α)
    (ps : List β) :
    ∀ m : Matrix α, q < m.data.length → (∃ p ∈ ps, idx p = q) →
      (∀ p ∈ ps, idx p = q → val p = v) →
      (ps.foldl (fun gx p => gx.store (idx p) (val p)) m).data[q]? = some v := by
  induction ps with
  | nil => intro m _ h _; obtain ⟨p, hp, _⟩ := h; cases hp
  | cons p rest ih =>
    intro m hq hex hval
    rw [List.foldl_cons]
    by_cases hr : ∃ p' ∈ rest, idx p' = q
    · exact ih _ (by simpa [Matrix.store] using hq) hr
        (fun p' hp' => hval p' (List.mem_cons_of_mem _ hp'))
    · have hno : ∀ p' ∈ rest, idx p' ≠ q := fun p' hp' e => hr ⟨p', hp', e⟩
      rw [foldl_store_untouched idx val q rest _ hno]
      obtain ⟨p0, hp0, e0⟩ := hex
      have hp : idx p = q := by
        rcases List.mem_cons.mp hp0 with e | hin
        · rw [← e]; exact e0
        · exact absurd e0 (hno p0 hin)
      have hv := hval p (List.mem_cons_self _ _) hp
      simp [Matrix.store, List.getElem?_set, hp, hq, hv]

/-- C23: for an operand value `x` and a block of `xStride` rows and `yStride`
columns that starts at `(row, column)` and lies inside `x`, `View.Forward`
returns the matrix `y` of the shape of the block with
`y[a][b] = x[row + a][column + b]`; and for an operand that requires grad and
a `gy` of the shape of the block, `View.Backward(gy)` propagates one gradient
of the shape of `x` that holds `gy[a][b]` at `(row + a, column + b)` and 0 at
every position outside the block. -/
theorem View_slice_and_scatter {α : Type} [Zero α] (r : View α)
    (hrow : r.row + r.xStride ≤ r.x.value.rows)
    (hcol : r.column + r.yStride ≤ r.x.value.cols) :
    (∃ y, View.Forward r = .ok y ∧ y.rows = r.xStride ∧ y.cols = r.yStride ∧
      ∀ a b, a < r.xStride → b < r.yStride →
        ∃ v, y.At a b = .ok v ∧ r.x.value.At (r.row + a) (r.column + b) = .ok v) ∧
    (∀ gy : Matrix α, gy.rows = r.xStride → gy.cols = r.yStride →
      r.x.requiresGrad = true →
      ∃ gx, View.Backward r gy = ⟨[(Slot.x, gx)], none⟩ ∧
        gx.rows = r.x.value.rows ∧ gx.cols = r.x.value.cols ∧
        (∀ a b, a < r.xStride → b < r.yStride →
          ∃ v, gx.At (r.row + a) (r.column + b) = .ok v ∧ gy.At a b = .ok v) ∧
        ∀ i j, i < r.x.value.rows → j < r.x.value.cols →
          ¬ (r.row ≤ i ∧ i < r.row + r.xStride ∧ r.column ≤ j ∧ j < r.column + r.yStride) →
          gx.At i j = .ok 0) := by
  constructor
  · refine ⟨_, by simp only [View.Forward, hrow, hcol, and_self, if_true]; rfl, rfl, rfl,
      fun a b ha hb => ?_⟩
    have hx := Matrix.At_of_lt r.x.value (r.row + a) (r.column + b) (by omega) (by omega)
    refine ⟨_, ?_, hx.1⟩
    have hlt := rowMajor_lt _ _ a b ha hb
    simp only [Matrix.At, ha, hb, and_self, if_true, List.getElem?_map,
      getElem?_blockPositions _ _ a b ha hb, Option.map_some']
    rw [Nat.add_comm a r.row, Nat.add_comm b r.column]
  · intro gy hgr hgc hrg
    have hshape := foldl_store_shape
      (fun p : Nat × Nat => (p.1 + r.row) * r.x.value.cols + (p.2 + r.column))
      (fun p : Nat × Nat => gy.data.getD (p.1 * r.yStride + p.2) 0)
      (blockPositions r.xStride r.yStride) r.x.value.ZerosLike
    have hZ : r.x.value.ZerosLike.rows = r.x.value.rows ∧
        r.x.value.ZerosLike.cols = r.x.value.cols := ⟨rfl, rfl⟩
    rw [hZ.1, hZ.2] at hshape
    refine ⟨_, by simp [View.Backward, hgr, hgc, hrg], hshape.1, hshape.2,
      fun a b ha hb => ?_, fun i j hi hj hout => ?_⟩
    · have hg := Matrix.At_of_lt gy a b (by omega) (by omega)
      refine ⟨_, ?_, hg.1⟩
      have hq := rowMajor_lt r.x.value.rows r.x.value.cols (r.row + a) (r.column + b)
        (by omega) (by omega)
      have hw := foldl_store_written
        (fun p : Nat × Nat => (p.1 + r.row) * r.x.value.cols + (p.2 + r.column))
        (fun p : Nat × Nat => gy.data.getD (p.1 * r.yStride + p.2) 0)
        ((r.row + a) * r.x.value.cols + (r.column + b))
        (gy.data.getD (a * gy.cols + b) 0)
        (blockPositions r.xStride r.yStride) r.x.value.ZerosLike
        (by simpa [Matrix.ZerosLike] using hq)
        ⟨(a, b), (mem_blockPositions _ _ _).2 ⟨ha, hb⟩, by
          simp only [Nat.add_comm a r.row, Nat.add_comm b r.column]⟩
        (fun p hp e => by
          have hp2 := (mem_blockPositions _ _ _).1 hp
          have := rowMajor_inj r.x.value.cols _ _ _ _ (by omega) (by omega) e
          have e1 : p.1 = a := by omega
          have e2 : p.2 = b := by omega
          simp only [e1, e2, hgc])
      beta_reduce at hw
      simp only [Matrix.At, hshape.1, hshape.2, if_true, hw, and_self,
        show r.row + a < r.x.value.rows ∧ r.column + b < r.x.value.cols
          from ⟨by omega, by omega⟩]
    · have hq := rowMajor_lt r.x.value.rows r.x.value.cols i j hi hj
      have hu := foldl_store_untouched
        (fun p : Nat × Nat => (p.1 + r.row) * r.x.value.cols + (p.2 + r.column))
        (fun p : Nat × Nat => gy.data.getD (p.1 * r.yStride + p.2) 0)
        (i * r.x.value.cols + j)
        (blockPositions r.xStride r.yStride) r.x.value.ZerosLike
        (fun p hp e => by
          have hp2 := (mem_blockPositions _ _ _).1 hp
          have := rowMajor_inj r.x.value.cols _ _ _ _ (by omega) hj e
          exact hout ⟨by omega, by omega, by omega, by omega⟩)
      beta_reduce at hu
      simp only [Matrix.At, hshape.1, hshape.2, if_true, hu, and_self,
        show i < r.x.value.rows ∧ j < r.x.value.cols from ⟨hi, hj⟩]
      simp [Matrix.ZerosLike, List.getElem?_replicate, hq]

/-- C23 (witness): the test of `View`, in tenths: the block at `(1, 1)` of the
3 × 4 operand value is read, the gradient is written back into that block of
a zero buffer, and the block lies inside the operand value. -/
theorem View_slice_and_scatter_witness :
    View.Forward sampleView = .ok ⟨2, 2, [5, -6, 8, -8], rfl⟩ ∧
    View.Backward sampleView sampleViewGrad =
      ⟨[(Slot.x, ⟨3, 4, [0, 0, 0, 0, 0, 1, 2, 0, 0, -8, -1, 0], rfl⟩)], none⟩ ∧
    ∃ y, View.Forward sampleView = .ok y ∧ y.rows = 2 ∧ y.cols = 2 ∧
      ∀ a b, a < 2 → b < 2 →
        ∃ v, y.At a b = .ok v ∧ sampleView.x.value.At (1 + a) (1 + b) = .ok v :=
  ⟨rfl, by decide, (View_slice_and_scatter sampleView (by decide) (by decide)).1⟩

/-! ### The ReLU kernel -/

/-- C24 (counterexample): for a kernel that tests `x ≥ 0` in its backward, the
variable holding `x = [0]` has, after the backward pass with the seed `[7]`,
the gradient `[7]` and not `[0]`, although `x[0] > 0` does not hold. -/
theorem ReLU_backward_at_zero_counterexample :
    backwardReLU true (⟨LeafKind.variable, true, some (NewVecDense [0]), none⟩ : Leaf Int)
        (NewVecDense [7]) =
      .ok ⟨LeafKind.variable, true, some (NewVecDense [0]), some (NewVecDense [7])⟩ ∧
    ¬ (0 : Int) < 0 ∧ (NewVecDense [7] : Matrix Int) ≠ NewVecDense [0] :=
  ⟨rfl, by decide, by decide⟩

/-- C24 (amended): for a variable `x` that requires grad, holds the value `xv`
and has no gradient yet, `y = ReLU(x)` has the shape of `xv` with
`y[i] = xv[i]` where `xv[i] > 0` and 0 elsewhere; and, whichever derivative the
kernel takes at 0, the backward pass from `y` with a seed `gy` of a compatible
shape returns, leaving the value of the variable alone and its gradient `g` of
the shape of `xv` with `g[i] = gy[i]` where `xv[i] > 0`, `g[i] = 0` where
`xv[i] < 0`, and where `xv[i] = 0` with `g[i] = gy[i]` for the test `x ≥ 0`
and `g[i] = 0` for the test `x > 0`, hence `g[i] = 0` there when
`gy[i] = 0`. -/
theorem ReLU_forward_backward {α : Type} [LinearOrder α] [Add α] [Zero α] (atZero : Bool)
    (x : Leaf α) (xv gy : Matrix α) (hv : x.value = some xv)
    (hrg : x.requiresGrad = true) (hg : x.grad = none) (hc : Compatible xv gy = true) :
    ((ReLU.Forward ⟨⟨xv, x.requiresGrad⟩⟩).rows = xv.rows ∧
      (ReLU.Forward ⟨⟨xv, x.requiresGrad⟩⟩).cols = xv.cols ∧
      ∀ i, i < xv.Size → ∃ v, xv.data[i]? = some v ∧
        (ReLU.Forward ⟨⟨xv, x.requiresGrad⟩⟩).data[i]? = some (if 0 < v then v else 0)) ∧
    ∃ x1 g, backwardReLU atZero x gy = .ok x1 ∧ x1.value = some xv ∧ x1.grad = some g ∧
      g.rows = xv.rows ∧ g.cols = xv.cols ∧
      ∀ i, i < xv.Size → ∃ v w u, xv.data[i]? = some v ∧ gy.data[i]? = some w ∧
        g.data[i]? = some u ∧ (0 < v → u = w) ∧ (v < 0 → u = 0) ∧
        (v = 0 → u = if atZero then w else 0) ∧ (v = 0 → w = 0 → u = 0) := by
  have hx : xv.data.length = xv.Size := xv.size_eq
  have hy : gy.data.length = xv.Size := by rw [gy.size_eq]; exact (Compatible_size _ _ hc).symm
  obtain ⟨k, rg, v, gr⟩ := x
  simp only at hv hrg hg
  subst hv hrg hg
  refine ⟨⟨rfl, rfl, fun i hi => ?_⟩, ?_⟩
  · have hi1 : i < xv.data.length := by omega
    exact ⟨xv.data[i], List.getElem?_eq_getElem hi1, by
      simp [ReLU.Forward, List.getElem?_map, List.getElem?_eq_getElem hi1]⟩
  · refine ⟨⟨k, true, some xv, some ⟨xv.rows, xv.cols,
        (List.range (xv.rows * xv.cols)).map (fun p =>
          if (if atZero then decide (0 ≤ xv.data.getD p 0)
              else decide (0 < xv.data.getD p 0)) then gy.data.getD p 0
          else 0), by simp⟩⟩, _, ?_,
      rfl, rfl, rfl, rfl, fun i hi => ?_⟩
    · simp only [backwardReLU, ReLU.Backward, hc, Bool.not_true, Bool.false_eq_true,
        if_false, if_true, List.foldl_cons, List.foldl_nil, Leaf.PropagateGrad]
    · have hi1 : i < xv.data.length := by omega
      have hi2 : i < gy.data.length := by omega
      have hi3 : i < xv.rows * xv.cols := hi
      refine ⟨xv.data[i], gy.data[i],
        (if (if atZero then decide (0 ≤ xv.data[i]) else decide (0 < xv.data[i]))
          then gy.data[i] else 0),
        List.getElem?_eq_getElem hi1, List.getElem?_eq_getElem hi2, by
          simp only [List.getElem?_map, List.getElem?_range hi3, Option.map_some',
            List.getD_eq_getElem _ _ hi1, List.getD_eq_getElem _ _ hi2], ?_, ?_, ?_, ?_⟩
      · intro hpos
        cases atZero <;> simp [hpos, le_of_lt hpos]
      · intro hneg
        cases atZero <;> simp [not_lt_of_lt hneg, not_le_of_lt hneg]
      · intro hz
        cases atZero <;> simp [hz]
      · intro hz hw
        cases atZero <;> simp [hz, hw]

/-- C24 (amended, witness): the test of the ReLU activation, in tenths, for a
kernel that tests `x ≥ 0`: `x = [1, -2, 3, 0]` gives `y = [1, 0, 3, 0]`, and
the seed `[-10, 5, 8, 0]`, which is 0 where `x` is 0, leaves the gradient
`[-10, 0, 8, 0]` on `x`. -/
theorem ReLU_forward_backward_witness :
    ReLU.Forward (⟨⟨NewVecDense [1, -2, 3, 0], true⟩⟩ : ReLU Int) =
      NewVecDense [1, 0, 3, 0] ∧
    backwardReLU true sampleReLUInput sampleReLUSeed =
      .ok { sampleReLUInput with grad := some (NewVecDense [-10, 0, 8, 0]) } ∧
    backwardReLU false sampleReLUInput sampleReLUSeed =
      .ok { sampleReLUInput with grad := some (NewVecDense [-10, 0, 8, 0]) } ∧
    ∃ x1 g, backwardReLU true sampleReLUInput sampleReLUSeed = .ok x1 ∧
      x1.value = some (NewVecDense [1, -2, 3, 0]) ∧ x1.grad = some g ∧
      g.rows = 4 ∧ g.cols = 1 ∧
      ∀ i, i < 4 → ∃ v w u, (NewVecDense [1, -2, 3, 0] : Matrix Int).data[i]? = some v ∧
        sampleReLUSeed.data[i]? = some w ∧ g.data[i]? = some u ∧
        (0 < v → u = w) ∧ (v < 0 → u = 0) ∧
        (v = 0 → u = if true then w else 0) ∧ (v = 0 → w = 0 → u = 0) :=
  ⟨by decide, rfl, rfl,
    (ReLU_forward_backward true sampleReLUInput (NewVecDense [1, -2, 3, 0]) sampleReLUSeed
      rfl rfl rfl (by decide)).2⟩

/-! ### Losses -/

/-- A matrix is compatible with itself and with every matrix of its shape. -/
theorem Compatible_of_shape {α : Type} (a b : Matrix α) (hr : a.rows = b.rows)
    (hc : a.cols = b.cols) : Compatible a b = true := by
  simp [Compatible, SameDims, hr, hc]

/-- The element-wise operation on compatible matrices returns the zip of the
buffers in the shape of the receiver. -/
theorem elementWise_ok {α : Type} (f : α → α → α) (a b : Matrix α)
    (h : Compatible a b = true) :
    ∃ m, a.elementWise f b = .ok m ∧ m.rows = a.rows ∧ m.cols = a.cols ∧
      m.data = List.zipWith f a.data b.data := by
  unfold Matrix.elementWise
  rw [dif_pos h]
  exact ⟨_, rfl, rfl, rfl, rfl⟩

/-- The value of `MSE` on compatible operands, as a function of the buffers. -/
theorem MSE_value {α : Type} [Field α] (x y : Matrix α) (hc : Compatible x y = true) :
    MSE x y true = .ok (NewScalar (squaredL2 x.data y.data / 2 / (x.Size : α))) ∧
    MSE x y false = .ok (NewScalar (squaredL2 x.data y.data / 2)) := by
  obtain ⟨d, hd, hdr, hdc, hdd⟩ := elementWise_ok (fun a b => a - b) x y hc
  have hsum : ((List.zipWith (fun a b => a - b) x.data y.data).map
      (fun v => v * v)).map (fun v => v * (1 / 2 : α)) =
      (List.zipWith (fun a b => (a - b) * (a - b)) x.data y.data).map
        (fun v => v * (1 / 2 : α)) := by
    rw [List.map_zipWith]
  have hs2 : ∀ l : List α, (l.map (fun v => v * (1 / 2 : α))).sum = l.sum / 2 := by
    intro l
    induction l with
    | nil => simp
    | cons a rest ih => simp only [List.map_cons, List.sum_cons, ih]; ring
  have hsize : (d.rows * d.cols : α) = (x.Size : α) := by
    simp [Matrix.Size, hdr, hdc]
  constructor
  · simp only [MSE, Value.Sub, hc, Bool.not_true, Bool.false_eq_true, if_false, hd, bind,
      Except.bind, Value.ProdScalar, Matrix.Scalar, IsScalar, NewScalar, Matrix.Size,
      Nat.mul_one, beq_self_eq_true, if_true, pure, Except.pure, Value.Square, Matrix.apply,
      Value.ReduceMean, Matrix.Sum, hdd, hsum, hs2, squaredL2, hdr, hdc]
  · simp only [MSE, Value.Sub, hc, Bool.not_true, Bool.false_eq_true, if_false, hd, bind,
      Except.bind, Value.ProdScalar, Matrix.Scalar, IsScalar, NewScalar, Matrix.Size,
      Nat.mul_one, beq_self_eq_true, if_true, pure, Except.pure, Value.Square, Matrix.apply,
      Value.ReduceSum, ReduceSum.Forward, Matrix.Sum, hdd, hsum, hs2, squaredL2]

/-- C25: for `x = [3, 1]` and `y = [1, 1]` the mean of the squared differences,
which the comment of `MSE` names (the mean squared error), is 2 and their sum
(the squared L2 norm) is 4, but `MSE` returns 1 with `reduceMean` and 2
without it: the code halves both. -/
theorem MSE_counterexample :
    MSE (NewVecDense [3, 1] : Matrix ℚ) (NewVecDense [1, 1]) true = .ok (NewScalar 1) ∧
    meanSquaredError ([3, 1] : List ℚ) [1, 1] = 2 ∧
    MSE (NewVecDense [3, 1] : Matrix ℚ) (NewVecDense [1, 1]) false = .ok (NewScalar 2) ∧
    squaredL2 ([3, 1] : List ℚ) [1, 1] = 4 ∧
    MSE (NewVecDense [3, 1] : Matrix ℚ) (NewVecDense [1, 1]) true ≠
      .ok (NewScalar (meanSquaredError ([3, 1] : List ℚ) [1, 1])) ∧
    MSE (NewVecDense [3, 1] : Matrix ℚ) (NewVecDense [1, 1]) false ≠
      .ok (NewScalar (squaredL2 ([3, 1] : List ℚ) [1, 1])) := by
  have h := MSE_value (NewVecDense [3, 1] : Matrix ℚ) (NewVecDense [1, 1]) (by decide)
  have e1 : squaredL2 ([3, 1] : List ℚ) [1, 1] = 4 := by
    norm_num [squaredL2]
  have e2 : meanSquaredError ([3, 1] : List ℚ) [1, 1] = 2 := by
    norm_num [meanSquaredError]
  have h1 : MSE (NewVecDense [3, 1] : Matrix ℚ) (NewVecDense [1, 1]) true =
      .ok (NewScalar 1) := by
    rw [h.1]
    simp only [NewVecDense, e1, Matrix.Size]
    norm_num
  have h2 : MSE (NewVecDense [3, 1] : Matrix ℚ) (NewVecDense [1, 1]) false =
      .ok (NewScalar 2) := by
    rw [h.2]
    simp only [NewVecDense, e1]
    norm_num
  refine ⟨h1, e2, h2, e1, ?_, ?_⟩
  · rw [h1, e2]
    simp [NewScalar]
  · rw [h2, e1]
    simp [NewScalar]

/-- What `MSE` computes: for compatible `x` and `y` with `n ≥ 1` elements, `MSE`
with `reduceMean` returns the scalar holding half the mean of the squared
differences, `(1/(2n))·Σ (x_i − y_i)²`, and without it the scalar holding half
their sum, `(1/2)·Σ (x_i − y_i)²`. -/
theorem MSE_half_squared_error {α : Type} [Field α] (x y : Matrix α)
    (hc : Compatible x y = true) (_hn : 0 < x.Size) :
    MSE x y true = .ok (NewScalar (meanSquaredError x.data y.data / 2)) ∧
    MSE x y false = .ok (NewScalar (squaredL2 x.data y.data / 2)) ∧
    meanSquaredError x.data y.data = squaredL2 x.data y.data / (x.Size : α) := by
  have h := MSE_value x y hc
  have hm : meanSquaredError x.data y.data = squaredL2 x.data y.data / (x.Size : α) := by
    simp only [meanSquaredError, squaredL2, x.size_eq, Matrix.Size]
    ring
  refine ⟨?_, h.2, hm⟩
  rw [h.1, hm]
  congr 2
  ring

/-- The value of `MSE` at `x = [3, 1]`, `y = [1, 1]` over the rationals. -/
theorem MSE_half_squared_error_witness :
    MSE (NewVecDense [3, 1] : Matrix ℚ) (NewVecDense [1, 1]) true =
      .ok (NewScalar (meanSquaredError ([3, 1] : List ℚ) [1, 1] / 2)) ∧
    MSE (NewVecDense [3, 1] : Matrix ℚ) (NewVecDense [1, 1]) false =
      .ok (NewScalar (squaredL2 ([3, 1] : List ℚ) [1, 1] / 2)) ∧
    meanSquaredError ([3, 1] : List ℚ) [1, 1] =
      squaredL2 ([3, 1] : List ℚ) [1, 1] / ((NewVecDense [3, 1] : Matrix ℚ).Size : ℚ) :=
  MSE_half_squared_error (NewVecDense [3, 1] : Matrix ℚ) (NewVecDense [1, 1]) (by decide)
    (by decide)

/-- The sum of a list of non-negative numbers is zero exactly when every
number is zero. -/
theorem list_sum_eq_zero_iff {α : Type} [LinearOrderedField α] (l : List α)
    (h : ∀ v ∈ l, 0 ≤ v) : l.sum = 0 ↔ ∀ v ∈ l, v = 0 := by
  induction l with
  | nil => simp
  | cons a rest ih =>
    have ha : 0 ≤ a := h a (List.mem_cons_self _ _)
    have hr : ∀ v ∈ rest, 0 ≤ v := fun v hv => h v (List.mem_cons_of_mem _ hv)
    have hs : 0 ≤ rest.sum := List.sum_nonneg hr
    rw [List.sum_cons]
    constructor
    · intro e v hv
      have ea : a = 0 := by linarith
      have er : rest.sum = 0 := by linarith
      rcases List.mem_cons.mp hv with e1 | e1
      · rw [e1, ea]
      · exact (ih hr).1 er v e1
    · intro e
      have ea : a = 0 := e a (List.mem_cons_self _ _)
      have er : rest.sum = 0 := (ih hr).2 (fun v hv => e v (List.mem_cons_of_mem _ hv))
      rw [ea, er, add_zero]

/-- Zipping a list with itself is a map. -/
theorem zipWith_same {α β : Type} (f : α → α → β) (l : List α) :
    List.zipWith f l l = l.map (fun a => f a a) := by
  induction l with
  | nil => rfl
  | cons a rest ih => rw [List.zipWith_cons_cons, ih, List.map_cons]

/-! ### The arithmetic of `float64` -/

set_option exponentiation.threshold 5000 in
set_option maxRecDepth 10000 in
/-- The arithmetic of `float64` on known values: `1 + 1 = 2`;
`0.1 + 0.2 = 0.30000000000000004`, `0.1 * 0.2 = 0.020000000000000004` and
`1 - 0.1 = 0.9` (by their mantissas and exponents); `2^53 + 1` rounds to
`2^53` and `2^53 + 3` to `2^53 + 4` (ties to even); `1 + 2^-53 = 1` and
`1 + 2^-52` is the next value after 1; `2^-1074` is the least positive value
and `2^-1075` rounds to 0; `2^1023 + 2^1023` overflows to the infinity; the
sum of the two infinities is not a number. -/
theorem F64.arithmetic_samples :
    (1 : F64) + 1 = F64.pow2 1 ∧
    F64.fin false 7205759403792794 (-56) + F64.fin false 7205759403792794 (-55)
      = F64.fin false 5404319552844596 (-54) ∧
    F64.fin false 7205759403792794 (-56) * F64.fin false 7205759403792794 (-55)
      = F64.fin false 5764607523034236 (-58) ∧
    (1 : F64) - F64.fin false 7205759403792794 (-56)
      = F64.fin false 8106479329266893 (-53) ∧
    F64.round false (2 ^ 53 + 1) 0 = F64.fin false (2 ^ 52) 1 ∧
    F64.round false (2 ^ 53 + 3) 0 = F64.fin false (2 ^ 52 + 2) 1 ∧
    (1 : F64) + F64.pow2 (-53) = 1 ∧
    (1 : F64) + F64.pow2 (-52) = F64.fin false (2 ^ 52 + 1) (-52) ∧
    F64.pow2 (-1074) = F64.fin false 1 (-1074) ∧
    F64.pow2 (-1075) = 0 ∧
    F64.pow2 1023 + F64.pow2 1023 = F64.inf false ∧
    F64.inf false + F64.inf true = F64.nan := by
  decide

/-- The sum of a list of zeros is zero, when `0 + 0 = 0`. -/
theorem sum_zeros {α : Type} [Add α] [Zero α] (h00 : (0 : α) + 0 = 0) (l : List α)
    (hl : ∀ v ∈ l, v = 0) : l.sum = 0 := by
  induction l with
  | nil => rfl
  | cons a rest ih =>
    rw [List.sum_cons, hl a (List.mem_cons_self _ _),
      ih (fun v hv => hl v (List.mem_cons_of_mem _ hv)), h00]

/-- For every element type, `ZeroOneQuantization` returns the scalar holding
the sum of `x_i · x_i · ((1 − x_i) · (1 − x_i))`. -/
theorem ZeroOneQuantization_value {α : Type} [Add α] [Sub α] [Mul α] [Zero α] [One α]
    (x : Matrix α) :
    ZeroOneQuantization x =
      .ok (NewScalar (x.data.map (fun v => v * v * ((1 - v) * (1 - v)))).sum) := by
  have hc : Compatible (Value.Square x)
      (Value.Square (x.apply (fun v => (1 : α) - v))) = true :=
    Compatible_of_shape _ _ rfl rfl
  obtain ⟨m, hm, _, _, hmd⟩ := elementWise_ok (fun a b => a * b) _ _ hc
  have hz : List.zipWith (fun a b => a * b) (x.data.map (fun v => v * v))
      ((x.data.map (fun v => (1 : α) - v)).map (fun v => v * v)) =
      x.data.map (fun v => v * v * ((1 - v) * (1 - v))) := by
    rw [List.map_map, List.zipWith_map, zipWith_same]
    rfl
  simp only [ZeroOneQuantization, Value.ReverseSub, Matrix.Scalar, IsScalar, NewScalar,
    Matrix.Size, Nat.mul_one, beq_self_eq_true, if_true, bind, Except.bind, pure,
    Except.pure, Value.Prod, hc, Bool.not_true, Bool.false_eq_true, if_false, hm,
    Value.ReduceSum, ReduceSum.Forward, Matrix.Sum, hmd]
  simp only [Value.Square, Matrix.apply, hz]

/-- In exact arithmetic (a linear ordered field) the value of
`ZeroOneQuantization`, the sum of `x_i²·(1 − x_i)²`, is non-negative, and it
is 0 exactly when every element of `x` is 0 or 1. -/
theorem ZeroOneQuantization_exact {α : Type} [LinearOrderedField α] (x : Matrix α) :
    ZeroOneQuantization x =
      .ok (NewScalar (x.data.map (fun v => v * v * ((1 - v) * (1 - v)))).sum) ∧
    0 ≤ (x.data.map (fun v => v * v * ((1 - v) * (1 - v)))).sum ∧
    ((x.data.map (fun v => v * v * ((1 - v) * (1 - v)))).sum = 0 ↔
      ∀ v ∈ x.data, v = 0 ∨ v = 1) := by
  have hnn : ∀ w ∈ x.data.map (fun v => v * v * ((1 - v) * (1 - v))), 0 ≤ w := by
    intro w hw
    obtain ⟨v, _, rfl⟩ := List.mem_map.mp hw
    exact mul_nonneg (mul_self_nonneg v) (mul_self_nonneg (1 - v))
  refine ⟨ZeroOneQuantization_value x, List.sum_nonneg hnn, ?_⟩
  rw [list_sum_eq_zero_iff _ hnn]
  constructor
  · intro h v hv
    have h0 := h _ (List.mem_map.mpr ⟨v, hv, rfl⟩)
    rcases mul_eq_zero.mp h0 with h1 | h1
    · exact Or.inl (mul_self_eq_zero.mp h1)
    · exact Or.inr (by have := mul_self_eq_zero.mp h1; linarith)
  · intro h w hw
    obtain ⟨v, hv, rfl⟩ := List.mem_map.mp hw
    rcases h v hv with e | e
    · rw [e]; ring
    · rw [e]; ring

set_option exponentiation.threshold 5000 in
set_option maxRecDepth 100000 in
/-- The terms of `ZeroOneQuantization` at the `float64` values 0 and 1, and
the sum of two zeros. -/
theorem F64.zeroOne_terms :
    (0 : F64) * 0 * ((1 - 0) * (1 - 0)) = 0 ∧ (1 : F64) * 1 * ((1 - 1) * (1 - 1)) = 0 ∧
    (0 : F64) + 0 = 0 := by
  decide

set_option exponentiation.threshold 5000 in
set_option maxRecDepth 100000 in
/-- C26: in `float64` the value of `ZeroOneQuantization` is 0 on the vector
with the one element `2^-600`, which is neither 0 nor 1: its square
underflows to 0 and `1 − 2^-600` rounds to 1. On the vector with the one
element not-a-number the value is not a number, which is not `>= 0`. -/
theorem ZeroOneQuantization_float_counterexample :
    ZeroOneQuantization (NewVecDense [F64.pow2 (-600)]) = .ok (NewScalar 0) ∧
    F64.pow2 (-600) ≠ 0 ∧ F64.pow2 (-600) ≠ 1 ∧
    F64.pow2 (-600) * F64.pow2 (-600) = 0 ∧ 1 - F64.pow2 (-600) = 1 ∧
    ZeroOneQuantization (NewVecDense [F64.nan]) = .ok (NewScalar F64.nan) ∧
    F64.le 0 F64.nan = false := by
  refine ⟨?_, by decide, by decide, by decide, by decide, ?_, rfl⟩
  · rw [ZeroOneQuantization_value]
    have h : (NewVecDense [F64.pow2 (-600)]).data.map
        (fun v => v * v * ((1 - v) * (1 - v))) = [0] := by
      decide
    rw [h]
    rfl
  · rw [ZeroOneQuantization_value]
    rfl

/-- C26: in exact arithmetic (a linear ordered field) `ZeroOneQuantization`
returns the scalar holding `Σ x_i²·(1 − x_i)²`, which is non-negative and is
0 exactly when every element of `x` is 0 or 1; in `float64` it returns the
scalar 0 when every element of `x` is 0 or 1. -/
theorem ZeroOneQuantization_minimised :
    (∀ (α : Type) [LinearOrderedField α] (x : Matrix α),
      ZeroOneQuantization x =
        .ok (NewScalar (x.data.map (fun v => v * v * ((1 - v) * (1 - v)))).sum) ∧
      0 ≤ (x.data.map (fun v => v * v * ((1 - v) * (1 - v)))).sum ∧
      ((x.data.map (fun v => v * v * ((1 - v) * (1 - v)))).sum = 0 ↔
        ∀ v ∈ x.data, v = 0 ∨ v = 1)) ∧
    (∀ x : Matrix F64, (∀ v ∈ x.data, v = 0 ∨ v = 1) →
      ZeroOneQuantization x = .ok (NewScalar 0)) := by
  refine ⟨fun α _ x => ZeroOneQuantization_exact x, fun x hx => ?_⟩
  rw [ZeroOneQuantization_value]
  have hs : (x.data.map (fun v => v * v * ((1 - v) * (1 - v)))).sum = 0 := by
    apply sum_zeros F64.zeroOne_terms.2.2
    intro w hw
    obtain ⟨v, hv, rfl⟩ := List.mem_map.mp hw
    rcases hx v hv with e | e
    · rw [e]; exact F64.zeroOne_terms.1
    · rw [e]; exact F64.zeroOne_terms.2.1
  rw [hs]

/-! ### The LSTM -/

/-- The element-wise operation on two constant vectors of one size is the
constant vector of the results. -/
theorem elementWise_const {α : Type} (f : α → α → α) (n : Nat) (a b : α) :
    (NewInitVecDense n a).elementWise f (NewInitVecDense n b) =
      .ok (NewInitVecDense n (f a b)) := by
  obtain ⟨m, hm, hr, hc, hd⟩ := elementWise_ok f (NewInitVecDense n a) (NewInitVecDense n b)
    (Compatible_of_shape _ _ rfl rfl)
  rw [hm]
  obtain ⟨r, c, d, hsz⟩ := m
  simp only [NewInitVecDense] at hr hc hd ⊢
  subst hr hc
  simp [hd, List.zipWith_replicate]

/-- An element-wise function maps a constant vector to a constant vector. -/
theorem apply_const {α : Type} (g : α → α) (n : Nat) (a : α) :
    (NewInitVecDense n a).apply g = NewInitVecDense n (g a) := by
  simp [Matrix.apply, NewInitVecDense]

/-- The product of a zero matrix and a column vector whose elements `v`
satisfy `0 * v = 0` is the zero vector. -/
theorem Mul_zero_left {α : Type} [Add α] [Mul α] [Zero α] (h00 : (0 : α) + 0 = 0)
    (h0 : (0 : α) * 0 = 0) (r c : Nat) (x : Matrix α) (hx : x.rows = c) (hc : x.cols = 1)
    (hmul : ∀ v ∈ x.data, (0 : α) * v = 0) :
    Value.Mul (NewEmptyDense r c) x = .ok (NewEmptyVecDense r) := by
  have hz : ∀ i, (List.replicate (r * c) (0 : α)).getD i 0 = 0 := by
    intro i
    rw [List.getD_eq_getElem?_getD, List.getElem?_replicate]
    split <;> rfl
  have hx0 : ∀ i, (0 : α) * x.data.getD i 0 = 0 := by
    intro i
    rw [List.getD_eq_getElem?_getD]
    cases hi : x.data[i]? with
    | none => exact h0
    | some v => exact hmul v (List.mem_iff_getElem?.mpr ⟨i, hi⟩)
  have hsum : ∀ g : Nat → Nat,
      ((List.range c).map (fun k => (0 : α) * x.data.getD (g k) 0)).sum = 0 := by
    intro g
    apply sum_zeros h00
    intro v hv
    obtain ⟨k, _, rfl⟩ := List.mem_map.mp hv
    exact hx0 _
  simp only [Value.Mul, NewEmptyDense, hx, ne_eq, not_true_eq_false, if_false, hz, hsum,
    NewEmptyVecDense, NewInitVecDense, hc, Nat.mul_one]
  simp

/-- The affine transformation with zero parameters is the zero vector, with
and without a previous output, for an input whose elements `v` satisfy
`0 * v = 0`. -/
theorem Affine_zero {α : Type} [Add α] [Mul α] [Zero α] (h00 : (0 : α) + 0 = 0)
    (h0 : (0 : α) * 0 = 0) (inp out : Nat) (x : Matrix α)
    (hx : x.rows = inp) (hc : x.cols = 1) (hmul : ∀ v ∈ x.data, (0 : α) * v = 0)
    (yPrev : Option (Matrix α))
    (hy : ∀ y, yPrev = some y → y = NewEmptyVecDense out) :
    Value.Affine (NewEmptyVecDense out) (NewEmptyDense out inp) x (NewEmptyDense out out)
      yPrev = .ok (NewEmptyVecDense out) := by
  have hadd : Value.Add (some (NewEmptyVecDense out : Matrix α)) (NewEmptyVecDense out) =
      .ok (NewEmptyVecDense out) := by
    have hcomp : Compatible (NewEmptyVecDense out : Matrix α) (NewEmptyVecDense out) = true :=
      Compatible_of_shape _ _ rfl rfl
    simp only [Value.Add, hcomp, Bool.not_true, Bool.false_eq_true, if_false]
    simp only [NewEmptyVecDense, elementWise_const, h00]
  have hzero : ∀ v ∈ (NewEmptyVecDense out : Matrix α).data, (0 : α) * v = 0 := by
    intro v hv
    simp only [NewEmptyVecDense, NewInitVecDense] at hv
    rw [List.eq_of_mem_replicate hv]
    exact h0
  cases yPrev with
  | none =>
    simp only [Value.Affine, Mul_zero_left h00 h0 out inp x hx hc hmul, bind, Except.bind,
      hadd, pure, Except.pure]
  | some y =>
    have e := hy y rfl
    subst e
    simp only [Value.Affine, Mul_zero_left h00 h0 out inp x hx hc hmul, bind, Except.bind,
      hadd, Mul_zero_left h00 h0 out out (NewEmptyVecDense out) rfl rfl hzero]

/-- One step of the LSTM with zero parameters, from no state or from the zero
state, gives the zero state, for an input whose elements `v` satisfy
`0 * v = 0`. -/
theorem Next_zero {α : Type} [Add α] [Mul α] [Zero α] (act : Activations α)
    (htanh : act.tanh 0 = 0) (hsig : act.sigmoid 0 * 0 = 0) (h00 : (0 : α) + 0 = 0)
    (h0 : (0 : α) * 0 = 0)
    (inp out : Nat) (x : Matrix α) (hx : x.rows = inp) (hc : x.cols = 1)
    (hmul : ∀ v ∈ x.data, (0 : α) * v = 0)
    (state : Option (LSTM.State α))
    (hs : ∀ s, state = some s → s = LSTM.zeroState act out) :
    (LSTM.New inp out).Next act state x = .ok (LSTM.zeroState act out) := by
  have hprod : ∀ a b : α, Value.Prod (NewInitVecDense out a) (NewInitVecDense out b) =
      .ok (NewInitVecDense out (a * b)) := by
    intro a b
    have hcomp : Compatible (NewInitVecDense out a) (NewInitVecDense out b) = true :=
      Compatible_of_shape _ _ rfl rfl
    simp only [Value.Prod, hcomp, Bool.not_true, Bool.false_eq_true, if_false,
      elementWise_const]
  have hadd : Value.Add (some (NewInitVecDense out (0 : α))) (NewInitVecDense out 0) =
      .ok (NewInitVecDense out 0) := by
    have hcomp : Compatible (NewInitVecDense out (0 : α)) (NewInitVecDense out 0) = true :=
      Compatible_of_shape _ _ rfl rfl
    simp only [Value.Add, hcomp, Bool.not_true, Bool.false_eq_true, if_false,
      elementWise_const, h00]
  cases state with
  | none =>
    have ha := Affine_zero h00 h0 inp out x hx hc hmul (none : Option (Matrix α))
      (fun y hy => by cases hy)
    simp only [NewEmptyVecDense] at ha
    simp only [LSTM.Model.Next, LSTM.New, LSTM.newGateParams, Option.map_none', ha, bind,
      Except.bind, pure, Except.pure, Bool.false_eq_true, if_false, Value.Sigmoid,
      Value.Tanh, NewEmptyVecDense, apply_const, hprod, htanh, hsig, LSTM.zeroState]
  | some s =>
    have e := hs s rfl
    subst e
    have ha := Affine_zero h00 h0 inp out x hx hc hmul
      (some (NewEmptyVecDense out : Matrix α)) (fun y hy => by cases hy; rfl)
    simp only [NewEmptyVecDense] at ha
    simp only [LSTM.Model.Next, LSTM.New, LSTM.newGateParams, Option.map_some',
      LSTM.zeroState, ha, bind, Except.bind, pure, Except.pure, Bool.false_eq_true, if_false,
      Value.Sigmoid, Value.Tanh, NewEmptyVecDense, apply_const, hprod, hadd, htanh,
      hsig]

/-- The states of the LSTM with zero parameters are zero states, one per
input, for inputs whose elements `v` satisfy `0 * v = 0`. -/
theorem unroll_zero {α : Type} [Add α] [Mul α] [Zero α] (act : Activations α)
    (htanh : act.tanh 0 = 0) (hsig : act.sigmoid 0 * 0 = 0) (h00 : (0 : α) + 0 = 0)
    (h0 : (0 : α) * 0 = 0) (inp out : Nat) (xs : List (Matrix α)) :
    ∀ state : Option (LSTM.State α),
      (∀ s, state = some s → s = LSTM.zeroState act out) →
      (∀ x ∈ xs, x.rows = inp ∧ x.cols = 1) →
      (∀ x ∈ xs, ∀ v ∈ x.data, (0 : α) * v = 0) →
      (LSTM.New inp out).unroll act state xs =
        .ok (List.replicate xs.length (LSTM.zeroState act out)) := by
  induction xs with
  | nil => intro _ _ _ _; rfl
  | cons x rest ih =>
    intro state hs hxs hmul
    have hx := hxs x (List.mem_cons_self _ _)
    have hn := Next_zero act htanh hsig h00 h0 inp out x hx.1 hx.2
      (hmul x (List.mem_cons_self _ _)) state hs
    have hr := ih (some (LSTM.zeroState act out)) (fun s e => by cases e; rfl)
      (fun y hy => hxs y (List.mem_cons_of_mem _ hy))
      (fun y hy => hmul y (List.mem_cons_of_mem _ hy))
    simp only [LSTM.Model.unroll, hn, hr, bind, Except.bind, pure, Except.pure,
      List.length_cons, List.replicate_succ]

/-- C30: in `float64` the output of the LSTM with zero parameters depends on
the input values. For an input holding not a number, and for an input holding
an infinity, the products `0 * x` of the affine transformations are not a
number, and `Forward` returns an output that holds not a number, not the zero
vector; so does the cell state. -/
theorem LSTM_float_counterexample :
    (∀ core : Activations F64,
      (LSTM.New 1 1).Forward (F64.activations core) [NewVecDense [F64.nan]] =
        .ok [NewVecDense [F64.nan]] ∧
      (LSTM.New 1 1).Forward (F64.activations core) [NewVecDense [F64.inf false]] =
        .ok [NewVecDense [F64.nan]] ∧
      ∃ s, (LSTM.New 1 1).unroll (F64.activations core) none [NewVecDense [F64.nan]] =
        .ok [s] ∧ s.Cell = NewVecDense [F64.nan]) ∧
    (0 : F64) * F64.nan = F64.nan ∧ (0 : F64) * F64.inf false = F64.nan ∧
    (NewVecDense [F64.nan] : Matrix F64) ≠ NewEmptyVecDense 1 := by
  refine ⟨fun core => ⟨rfl, rfl, _, rfl, rfl⟩, rfl, rfl, by decide⟩

/-- C30: for an element type and activations with `tanh 0 = 0`,
`sigmoid 0 * 0 = 0`, `0 + 0 = 0` and `0 * 0 = 0` (exact arithmetic and
`float64` alike), the LSTM that `New(inp, out)` returns and every sequence
`xs` of column vectors of `inp` elements, each element `v` with `0 * v = 0`
(in `float64`: every finite value), the forward pass returns, its states are
`len(xs)` states whose cell is the zero vector of `out` elements, and
`Forward` returns `len(xs)` outputs, each the zero vector of `out`
elements. -/
theorem LSTM_zero_parameters_zero_output {α : Type} [Add α] [Mul α] [Zero α]
    (act : Activations α) (htanh : act.tanh 0 = 0) (hsig : act.sigmoid 0 * 0 = 0)
    (h00 : (0 : α) + 0 = 0) (h0 : (0 : α) * 0 = 0) (inp out : Nat) (xs : List (Matrix α))
    (hxs : ∀ x ∈ xs, x.rows = inp ∧ x.cols = 1)
    (hmul : ∀ x ∈ xs, ∀ v ∈ x.data, (0 : α) * v = 0) :
    (∃ states, (LSTM.New inp out).unroll act none xs = .ok states ∧
      states.length = xs.length ∧
      ∀ s ∈ states, s.Cell = NewEmptyVecDense out ∧ s.Y = NewEmptyVecDense out) ∧
    (∃ ys, (LSTM.New inp out).Forward act xs = .ok ys ∧ ys.length = xs.length ∧
      ∀ y ∈ ys, y = NewEmptyVecDense out ∧ y.rows = out ∧ y.cols = 1 ∧
        ∀ v ∈ y.data, v = 0) := by
  have hu := unroll_zero act htanh hsig h00 h0 inp out xs none (fun s e => by cases e) hxs hmul
  constructor
  · refine ⟨_, hu, List.length_replicate _ _, fun s hs => ?_⟩
    rw [List.eq_of_mem_replicate hs]
    exact ⟨rfl, rfl⟩
  · refine ⟨List.replicate xs.length (NewEmptyVecDense out), ?_, List.length_replicate _ _,
      fun y hy => ?_⟩
    · simp only [LSTM.Model.Forward, hu, bind, Except.bind, pure, Except.pure,
        List.map_replicate, LSTM.zeroState]
    · rw [List.eq_of_mem_replicate hy]
      refine ⟨rfl, rfl, rfl, fun v hv => ?_⟩
      simp only [NewEmptyVecDense, NewInitVecDense] at hv
      exact List.eq_of_mem_replicate hv

set_option exponentiation.threshold 5000 in
set_option maxRecDepth 100000 in
/-- C30 (witness): the statement in `float64`, for 2 inputs of 2 finite
elements and 3 outputs, whatever the activations are away from 0. -/
theorem LSTM_zero_parameters_zero_output_witness :
    ((0 : F64) + 0 = 0 ∧ (0 : F64) * 0 = 0 ∧
      ∀ x ∈ [NewVecDense [1, F64.pow2 (-600)], NewVecDense [0 - F64.pow2 1000, 0]],
        ∀ v ∈ x.data, (0 : F64) * v = 0) ∧
    ∀ core : Activations F64,
      (F64.activations core).tanh 0 = 0 ∧ (F64.activations core).sigmoid 0 * 0 = 0 ∧
      ∃ ys, (LSTM.New 2 3).Forward (F64.activations core)
          [NewVecDense [1, F64.pow2 (-600)], NewVecDense [0 - F64.pow2 1000, 0]] = .ok ys ∧
        ys.length = 2 ∧
        ∀ y ∈ ys, y = NewEmptyVecDense 3 ∧ y.rows = 3 ∧ y.cols = 1 ∧ ∀ v ∈ y.data, v = 0 :=
  ⟨⟨by decide, by decide, by decide⟩, fun core => ⟨rfl, rfl,
    (LSTM_zero_parameters_zero_output (F64.activations core) rfl rfl (by decide)
      (by decide) 2 3 [NewVecDense [1, F64.pow2 (-600)], NewVecDense [0 - F64.pow2 1000, 0]]
      (by simp [NewVecDense]) (by decide)).2⟩⟩

/-! ### The CRF -/

/-- The sum of two scalars. -/
theorem Value_Add_scalar {α : Type} [Field α] (u v : α) :
    Value.Add (some (NewScalar u)) (NewScalar v) = .ok (NewScalar (u + v)) := by
  have hc : Compatible (NewScalar u) (NewScalar v) = true := Compatible_of_shape _ _ rfl rfl
  obtain ⟨m, hm, hr, hcl, hd⟩ := elementWise_ok (fun a b => a + b) (NewScalar u) (NewScalar v) hc
  simp only [Value.Add, hc, Bool.not_true, Bool.false_eq_true, if_false, hm]
  obtain ⟨r, c, d, hsz⟩ := m
  simp only [NewScalar] at hr hcl hd ⊢
  subst hr hcl
  simp [hd]

/-- A nil first operand of `Add` leaves a scalar alone. -/
theorem Value_Add_nil_scalar {α : Type} [Field α] (v : α) :
    Value.Add none (NewScalar v) = .ok (NewScalar v) := by
  have hc : Compatible (NewScalar v).ZerosLike (NewScalar v) = true :=
    Compatible_of_shape _ _ rfl rfl
  obtain ⟨m, hm, hr, hcl, hd⟩ :=
    elementWise_ok (fun a b => a + b) (NewScalar v).ZerosLike (NewScalar v) hc
  simp only [Value.Add, hc, Bool.not_true, Bool.false_eq_true, if_false, hm]
  obtain ⟨r, c, d, hsz⟩ := m
  simp only [NewScalar, Matrix.ZerosLike] at hr hcl hd ⊢
  subst hr hcl
  simp [hd]

/-- The difference of two scalars. -/
theorem Value_Sub_scalar {α : Type} [Field α] (u v : α) :
    Value.Sub (NewScalar u) (NewScalar v) = .ok (NewScalar (u - v)) := by
  have hc : Compatible (NewScalar u) (NewScalar v) = true := Compatible_of_shape _ _ rfl rfl
  obtain ⟨m, hm, hr, hcl, hd⟩ := elementWise_ok (fun a b => a - b) (NewScalar u) (NewScalar v) hc
  simp only [Value.Sub, hc, Bool.not_true, Bool.false_eq_true, if_false, hm]
  obtain ⟨r, c, d, hsz⟩ := m
  simp only [NewScalar] at hr hcl hd ⊢
  subst hr hcl
  simp [hd]

/-- An element inside a matrix, as a scalar. -/
theorem Value_At_entry {α : Type} [Field α] (x : Matrix α) (i j : Nat) (hi : i < x.rows)
    (hj : j < x.cols) : Value.At x i j = .ok (NewScalar (x.entry i j)) := by
  simp only [Value.At, (Matrix.At_of_lt x i j hi hj).1, bind, Except.bind, pure, Except.pure,
    Matrix.entry]

/-- An element of a column vector, as a scalar. -/
theorem Value_AtVec_column {α : Type} [Field α] (x : Matrix α) (i : Nat) (hc : x.cols = 1)
    (hi : i < x.rows) : Value.AtVec x i = .ok (NewScalar (x.data.getD i 0)) := by
  have hlt : i < x.data.length := by rw [x.size_eq, hc, Nat.mul_one]; exact hi
  simp only [Value.AtVec, Matrix.AtVec, Matrix.IsVector, hc, beq_self_eq_true, Bool.or_true,
    Bool.not_true, Bool.false_eq_true, if_false, List.getElem?_eq_getElem hlt, bind,
    Except.bind, pure, Except.pure, List.getD_eq_getElem _ _ hlt]

/-- An element of the column vector built from a buffer, as a scalar. -/
theorem Value_AtVec_NewVecDense {α : Type} [Field α] (a : List α) (i : Nat)
    (hi : i < a.length) : Value.AtVec (NewVecDense a) i = .ok (NewScalar (a.getD i 0)) :=
  Value_AtVec_column (NewVecDense a) i rfl hi

/-- The concatenation of scalars is the column vector of their elements. -/
theorem Value_Concat_scalars {α : Type} (l : List α) :
    Value.Concat (l.map NewScalar) = .ok (NewVecDense l) := by
  have h1 : (l.map NewScalar).all (fun x => x.IsVector) = true := by
    simp [List.all_eq_true, NewScalar, Matrix.IsVector]
  have h2 : ∀ k : List α, (k.map NewScalar).flatMap (fun x => x.data) = k := by
    intro k
    induction k with
    | nil => rfl
    | cons a rest ih => simp only [List.map_cons, List.flatMap_cons, ih]; rfl
  simp only [Value.Concat, h1, if_true, h2]

/-- A monadic map whose steps all return is the map of the results. -/
theorem mapM_ok {β γ : Type} (f : β → Except String γ) (g : β → γ) (l : List β)
    (h : ∀ x ∈ l, f x = .ok (g x)) : l.mapM f = .ok (l.map g) := by
  induction l with
  | nil => rfl
  | cons a rest ih =>
    rw [List.mapM_cons, h a (List.mem_cons_self _ _),
      ih (fun x hx => h x (List.mem_cons_of_mem _ hx))]
    rfl

/-- The number of labels of a processor whose transition scores have `L + 1`
rows. -/
theorem CRF_size {α : Type} (p : CRF.Processor α) (L : Nat)
    (hr : p.transitionScores.rows = L + 1) : p.size = .ok L := by
  simp [CRF.Processor.size, hr]

/-- The value of `totalScoreStart`. -/
theorem totalScoreStart_eq {α : Type} [Field α] (p : CRF.Processor α) (L : Nat)
    (hr : p.transitionScores.rows = L + 1) (hc : p.transitionScores.cols = L + 1)
    (e : Matrix α) (her : e.rows = L) (hec : e.cols = 1) :
    p.totalScoreStart e = .ok (NewVecDense (CRF.alphaStart p.transitionScores L e)) := by
  have hm := mapM_ok
    (fun i => do
      Value.Add (some (← Value.AtVec e i)) (← Value.At p.transitionScores 0 (i + 1)))
    (fun i => NewScalar (e.data.getD i 0 + p.transitionScores.entry 0 (i + 1)))
    (List.range L) (fun i hi => by
      have hi1 : i < L := List.mem_range.mp hi
      simp only [Value_AtVec_column e i hec (by omega),
        Value_At_entry p.transitionScores 0 (i + 1) (by omega) (by omega), bind, Except.bind,
        Value_Add_scalar])
  simp only [CRF.Processor.totalScoreStart, CRF_size p L hr, bind, Except.bind] at hm ⊢
  rw [hm]
  have e1 : List.map (fun i => NewScalar (e.data.getD i 0 + p.transitionScores.entry 0 (i + 1)))
      (List.range L) = List.map NewScalar (CRF.alphaStart p.transitionScores L e) := by
    unfold CRF.alphaStart
    rw [List.map_map]
    rfl
  rw [e1]
  exact Value_Concat_scalars _

/-- The value of `totalScoreEnd`. -/
theorem totalScoreEnd_eq {α : Type} [Field α] (f : ExpLog α) (p : CRF.Processor α) (L : Nat)
    (hr : p.transitionScores.rows = L + 1) (hc : p.transitionScores.cols = L + 1)
    (a : List α) (ha : a.length = L) :
    p.totalScoreEnd f (NewVecDense a) =
      .ok (NewVecDense (CRF.alphaEnd f p.transitionScores L a)) := by
  have hm := mapM_ok
    (fun i => do
      let vecTrans ← Value.Add (some (← Value.AtVec (NewVecDense a) i))
        (← Value.At p.transitionScores (i + 1) 0)
      Value.Add none (Value.Exp f vecTrans))
    (fun i => NewScalar (f.exp (a.getD i 0 + p.transitionScores.entry (i + 1) 0)))
    (List.range L) (fun i hi => by
      have hi1 : i < L := List.mem_range.mp hi
      simp only [Value_AtVec_NewVecDense a i (by omega),
        Value_At_entry p.transitionScores (i + 1) 0 (by omega) (by omega), bind, Except.bind,
        Value_Add_scalar]
      exact Value_Add_nil_scalar _)
  simp only [CRF.Processor.totalScoreEnd, CRF_size p L hr, bind, Except.bind] at hm ⊢
  rw [hm]
  have e1 : List.map
      (fun i => NewScalar (f.exp (a.getD i 0 + p.transitionScores.entry (i + 1) 0)))
      (List.range L) = List.map NewScalar (CRF.alphaEnd f p.transitionScores L a) := by
    unfold CRF.alphaEnd
    rw [List.map_map]
    rfl
  rw [e1]
  exact Value_Concat_scalars _

/-- Storing into a list that is given entry by entry. -/
theorem map_range_set {β : Type} (n b : Nat) (g : Nat → β) (v : β) :
    ((List.range n).map g).set b v = (List.range n).map (fun j => if j = b then v else g j) := by
  apply List.ext_getElem?
  intro k
  rw [List.getElem?_set]
  by_cases hk : k < n
  · by_cases hb : b = k
    · subst hb
      simp [List.getElem?_map, List.getElem?_range hk, hk]
    · have hb2 : ¬ k = b := fun h => hb h.symm
      simp [List.getElem?_map, List.getElem?_range hk, hb, hb2]
  · have h1 : ∀ g2 : Nat → β, ((List.range n).map g2)[k]? = none := by
      intro g2
      rw [List.getElem?_eq_none_iff]
      simp only [List.length_map, List.length_range]
      omega
    rw [h1, h1]
    by_cases hb : b = k
    · subst hb
      simp [hk]
    · simp [hb]

/-- One round of the inner loop of `totalScoreStep` adds one term to
`scores[j]`. -/
theorem accumulate_eq {α : Type} [Field α] (f : ExpLog α) (p : CRF.Processor α) (L : Nat)
    (hr : p.transitionScores.rows = L + 1) (hc : p.transitionScores.cols = L + 1)
    (a : List α) (ha : a.length = L) (e : Matrix α) (her : e.rows = L) (hec : e.cols = 1)
    (i j : Nat) (hi : i < L) (hj : j < L) (scores : List (Option (Matrix α)))
    (hs : scores.getD j none = CRF.runningScore f p.transitionScores a e i j) :
    p.accumulate f (NewVecDense a) e i scores j =
      .ok (scores.set j (CRF.runningScore f p.transitionScores a e (i + 1) j)) := by
  have hexp : ∀ v : α, Value.Exp f (NewScalar v) = NewScalar (f.exp v) := fun v => rfl
  simp only [CRF.Processor.accumulate, Value_AtVec_NewVecDense a i (by omega),
    Value_AtVec_column e j hec (by omega),
    Value_At_entry p.transitionScores (i + 1) (j + 1) (by omega) (by omega), bind,
    Except.bind, Value_Add_scalar, hexp, hs, pure, Except.pure]
  cases i with
  | zero =>
    simp only [CRF.runningScore, if_true, Value_Add_nil_scalar]
    simp [List.range_succ]
  | succ k =>
    simp only [CRF.runningScore, Nat.succ_ne_zero, if_false, Value_Add_scalar]
    rw [List.range_succ (k + 1), List.map_append, List.sum_append]
    simp

/-- The inner loop of `totalScoreStep`, up to the index `b`. -/
theorem inner_loop {α : Type} [Field α] (f : ExpLog α) (p : CRF.Processor α) (L : Nat)
    (hr : p.transitionScores.rows = L + 1) (hc : p.transitionScores.cols = L + 1)
    (a : List α) (ha : a.length = L) (e : Matrix α) (her : e.rows = L) (hec : e.cols = 1)
    (i : Nat) (hi : i < L) :
    ∀ b, b ≤ L →
      (List.range b).foldlM (p.accumulate f (NewVecDense a) e i)
        ((List.range L).map (CRF.runningScore f p.transitionScores a e i)) =
      .ok ((List.range L).map (fun j =>
        if j < b then CRF.runningScore f p.transitionScores a e (i + 1) j
        else CRF.runningScore f p.transitionScores a e i j)) := by
  intro b
  induction b with
  | zero =>
    intro _
    simp only [List.range_zero, List.foldlM_nil, Nat.not_lt_zero, if_false]
    rfl
  | succ b ih =>
    intro hb
    have hbL : b < L := by omega
    rw [List.range_succ, List.foldlM_append, ih (by omega)]
    simp only [bind, Except.bind, List.foldlM_cons, List.foldlM_nil]
    rw [accumulate_eq f p L hr hc a ha e her hec i b hi hbL _ (by
      rw [List.getD_eq_getElem?_getD, List.getElem?_map, List.getElem?_range hbL]
      simp)]
    simp only [pure, Except.pure, map_range_set]
    congr 1
    apply List.map_congr_left
    intro j _
    by_cases h1 : j = b
    · subst h1
      simp
    · by_cases h2 : j < b
      · have h3 : j < b + 1 := by omega
        simp [h1, h2, h3]
      · have h3 : ¬ j < b + 1 := by omega
        simp [h1, h2, h3]

/-- The outer loop of `totalScoreStep`, up to the index `k`. -/
theorem outer_loop {α : Type} [Field α] (f : ExpLog α) (p : CRF.Processor α) (L : Nat)
    (hr : p.transitionScores.rows = L + 1) (hc : p.transitionScores.cols = L + 1)
    (a : List α) (ha : a.length = L) (e : Matrix α) (her : e.rows = L) (hec : e.cols = 1) :
    ∀ k, k ≤ L →
      (List.range k).foldlM
        (fun scores i => (List.range L).foldlM (p.accumulate f (NewVecDense a) e i) scores)
        (List.replicate L none) =
      .ok ((List.range L).map (CRF.runningScore f p.transitionScores a e k)) := by
  intro k
  induction k with
  | zero =>
    intro _
    simp only [List.range_zero, List.foldlM_nil, pure, Except.pure]
    congr 1
    apply List.ext_getElem?
    intro n
    by_cases hn : n < L
    · simp [List.getElem?_replicate, List.getElem?_map, List.getElem?_range hn, hn,
        CRF.runningScore]
    · rw [List.getElem?_eq_none_iff.2 (by simp; omega),
        List.getElem?_eq_none_iff.2 (by simp; omega)]
  | succ k ih =>
    intro hk
    rw [List.range_succ, List.foldlM_append, ih (by omega)]
    simp only [bind, Except.bind, List.foldlM_cons, List.foldlM_nil]
    rw [inner_loop f p L hr hc a ha e her hec k (by omega) L (le_refl L)]
    simp only [pure, Except.pure]
    congr 1
    apply List.map_congr_left
    intro j hj
    simp [List.mem_range.mp hj]

/-- The value of `totalScoreStep`. -/
theorem totalScoreStep_eq {α : Type} [Field α] (f : ExpLog α) (p : CRF.Processor α) (L : Nat)
    (hr : p.transitionScores.rows = L + 1) (hc : p.transitionScores.cols = L + 1)
    (a : List α) (ha : a.length = L) (e : Matrix α) (her : e.rows = L) (hec : e.cols = 1) :
    p.totalScoreStep f (NewVecDense a) e =
      .ok (NewVecDense (CRF.alphaStep f p.transitionScores L a e)) := by
  have hm := mapM_ok
    (fun (s : Option (Matrix α)) =>
      match s with
      | some v => (.ok (Value.Log f v) : Except String (Matrix α))
      | none => .error nilDereference)
    (fun s =>
      match s with
      | some v => Value.Log f v
      | none => NewScalar 0)
    ((List.range L).map (CRF.runningScore f p.transitionScores a e L))
    (fun s hs => by
      obtain ⟨j, hj, rfl⟩ := List.mem_map.mp hs
      have hL : L ≠ 0 := by have := List.mem_range.mp hj; omega
      simp only [CRF.runningScore, hL, if_false])
  simp only [CRF.Processor.totalScoreStep, CRF_size p L hr, bind, Except.bind,
    outer_loop f p L hr hc a ha e her hec L (le_refl L)] at hm ⊢
  rw [hm]
  have e1 : List.map
      (fun s =>
        match s with
        | some v => Value.Log f v
        | none => NewScalar 0)
      ((List.range L).map (CRF.runningScore f p.transitionScores a e L)) =
      List.map NewScalar (CRF.alphaStep f p.transitionScores L a e) := by
    unfold CRF.alphaStep
    rw [List.map_map, List.map_map]
    apply List.map_congr_left
    intro j hj
    have hL : L ≠ 0 := by have := List.mem_range.mp hj; omega
    simp only [Function.comp, CRF.runningScore, hL, if_false]
    rfl
  rw [e1]
  exact Value_Concat_scalars _

/-- The buffer that `totalScoreStep` returns has one element per label. -/
theorem length_alphaStep {α : Type} [Field α] (f : ExpLog α) (T : Matrix α) (L : Nat)
    (a : List α) (e : Matrix α) : (CRF.alphaStep f T L a e).length = L := by
  simp [CRF.alphaStep]

/-- The loop of `totalScore` over the remaining emission scores. -/
theorem totalScore_loop {α : Type} [Field α] (f : ExpLog α) (p : CRF.Processor α) (L : Nat)
    (hr : p.transitionScores.rows = L + 1) (hc : p.transitionScores.cols = L + 1)
    (es : List (Matrix α)) :
    ∀ a : List α, a.length = L → (∀ e ∈ es, e.rows = L ∧ e.cols = 1) →
      es.foldlM (fun tv x => p.totalScoreStep f tv x) (NewVecDense a) =
        .ok (NewVecDense (es.foldl (CRF.alphaStep f p.transitionScores L) a)) ∧
      (es.foldl (CRF.alphaStep f p.transitionScores L) a).length = L := by
  induction es with
  | nil => intro a ha _; exact ⟨rfl, ha⟩
  | cons e rest ih =>
    intro a ha hes
    have he := hes e (List.mem_cons_self _ _)
    have h := ih (CRF.alphaStep f p.transitionScores L a e) (length_alphaStep _ _ _ _ _)
      (fun x hx => hes x (List.mem_cons_of_mem _ hx))
    refine ⟨?_, h.2⟩
    rw [List.foldlM_cons, totalScoreStep_eq f p L hr hc a ha e he.1 he.2]
    exact h.1

/-- The value of `totalScore` on a non-empty sequence of emission scores. -/
theorem totalScore_eq {α : Type} [Field α] (f : ExpLog α) (p : CRF.Processor α) (L : Nat)
    (hr : p.transitionScores.rows = L + 1) (hc : p.transitionScores.cols = L + 1)
    (e0 : Matrix α) (es : List (Matrix α))
    (hes : ∀ e ∈ e0 :: es, e.rows = L ∧ e.cols = 1) :
    p.totalScore f (e0 :: es) =
      .ok (NewScalar (f.log (CRF.alphaEnd f p.transitionScores L
        (es.foldl (CRF.alphaStep f p.transitionScores L)
          (CRF.alphaStart p.transitionScores L e0))).sum)) := by
  have h0 := hes e0 (List.mem_cons_self _ _)
  have hl : (CRF.alphaStart p.transitionScores L e0).length = L := by simp [CRF.alphaStart]
  have h := totalScore_loop f p L hr hc es _ hl (fun x hx => hes x (List.mem_cons_of_mem _ hx))
  simp only [CRF.Processor.totalScore, totalScoreStart_eq p L hr hc e0 h0.1 h0.2, bind,
    Except.bind, h.1, totalScoreEnd_eq f p L hr hc _ h.2, pure, Except.pure]
  rfl

/-- The loop of `goldScore` adds the rest of the score to the accumulator. -/
theorem goldScoreFrom_eq {α : Type} [Field α] (p : CRF.Processor α) (L : Nat)
    (hr : p.transitionScores.rows = L + 1) (hc : p.transitionScores.cols = L + 1)
    (ts : List Nat) :
    ∀ (acc : α) (prev : Nat) (es : List (Matrix α)), prev ≤ L → es.length = ts.length →
      (∀ e ∈ es, e.rows = L ∧ e.cols = 1) → (∀ t ∈ ts, t < L) →
      p.goldScoreFrom (NewScalar acc) prev es ts =
        .ok (NewScalar (acc + CRF.chain p.transitionScores prev es ts)) := by
  induction ts with
  | nil =>
    intro acc prev es hp _ _ _
    simp only [CRF.Processor.goldScoreFrom,
      Value_At_entry p.transitionScores prev 0 (by omega) (by omega), bind, Except.bind,
      Value_Add_scalar, CRF.chain]
  | cons t rest ih =>
    intro acc prev es hp hlen hes hts
    cases es with
    | nil => simp at hlen
    | cons e es1 =>
      have he := hes e (List.mem_cons_self _ _)
      have ht : t < L := hts t (List.mem_cons_self _ _)
      have hentry : Value.At e t 0 = .ok (NewScalar (e.data.getD t 0)) := by
        rw [Value_At_entry e t 0 (by omega) (by omega)]
        simp [Matrix.entry, he.2]
      simp only [CRF.Processor.goldScoreFrom, hentry,
        Value_At_entry p.transitionScores prev (t + 1) (by omega) (by omega), bind,
        Except.bind, Value_Add_scalar]
      rw [ih _ (t + 1) es1 (by omega) (by simpa using hlen)
        (fun x hx => hes x (List.mem_cons_of_mem _ hx))
        (fun x hx => hts x (List.mem_cons_of_mem _ hx))]
      simp only [CRF.chain]
      congr 2
      ring

/-- The value of `goldScore` on a valid target. -/
theorem goldScore_eq {α : Type} [Field α] (p : CRF.Processor α) (L : Nat)
    (hr : p.transitionScores.rows = L + 1) (hc : p.transitionScores.cols = L + 1)
    (E : List (Matrix α)) (target : List Nat) (hE : E ≠ []) (hlen : target.length = E.length)
    (hes : ∀ e ∈ E, e.rows = L ∧ e.cols = 1) (hts : ∀ t ∈ target, t < L) :
    p.goldScore E target = .ok (NewScalar (CRF.chain p.transitionScores 0 E target)) := by
  cases E with
  | nil => exact absurd rfl hE
  | cons e0 es =>
    cases target with
    | nil => simp at hlen
    | cons t0 ts =>
      have he := hes e0 (List.mem_cons_self _ _)
      have ht : t0 < L := hts t0 (List.mem_cons_self _ _)
      have hentry : Value.At e0 t0 0 = .ok (NewScalar (e0.data.getD t0 0)) := by
        rw [Value_At_entry e0 t0 0 (by omega) (by omega)]
        simp [Matrix.entry, he.2]
      simp only [CRF.Processor.goldScore, hentry,
        Value_At_entry p.transitionScores 0 (t0 + 1) (by omega) (by omega), bind,
        Except.bind, Value_Add_scalar]
      rw [goldScoreFrom_eq p L hr hc ts _ (t0 + 1) es (by omega) (by simpa using hlen.symm)
        (fun x hx => hes x (List.mem_cons_of_mem _ hx))
        (fun x hx => hts x (List.mem_cons_of_mem _ hx))]
      simp only [CRF.chain]

/-- A sum over a list built by `flatMap` is the sum of the sums over its
parts. -/
theorem sum_map_flatMap {β γ α : Type} [AddCommMonoid α] (l : List β) (g : β → List γ)
    (h : γ → α) : ((l.flatMap g).map h).sum = (l.map (fun x => ((g x).map h).sum)).sum := by
  induction l with
  | nil => rfl
  | cons a rest ih =>
    simp only [List.flatMap_cons, List.map_append, List.sum_append, List.map_cons,
      List.sum_cons, ih]

/-- The two orders of summation over a pair of lists give the same sum. -/
theorem sum_map_comm {β γ α : Type} [AddCommMonoid α] (l1 : List β) (l2 : List γ)
    (F : β → γ → α) :
    (l1.map (fun i => (l2.map (fun j => F i j)).sum)).sum =
      (l2.map (fun j => (l1.map (fun i => F i j)).sum)).sum := by
  induction l1 with
  | nil => simp
  | cons a rest ih =>
    simp only [List.map_cons, List.sum_cons, ih, List.sum_map_add]

/-- The sum of a non-empty list of positive numbers is positive. -/
theorem sum_pos_of_pos {α : Type} [LinearOrderedField α] (l : List α) (hl : l ≠ [])
    (h : ∀ v ∈ l, 0 < v) : 0 < l.sum := by
  cases l with
  | nil => exact absurd rfl hl
  | cons a rest =>
    rw [List.sum_cons]
    have h1 : 0 < a := h a (List.mem_cons_self _ _)
    have h2 : 0 ≤ rest.sum :=
      List.sum_nonneg (fun v hv => le_of_lt (h v (List.mem_cons_of_mem _ hv)))
    linarith

/-- The forward recursion from any vector `a`: the sum of the vector that
`totalScoreEnd` returns after the steps over `Es` is the sum, over the labels
`i` and all label sequences `l` for `Es`, of `exp(a[i] + chain(i + 1, Es, l))`. -/
theorem forward_sum {α : Type} [LinearOrderedField α] (f : ExpLog α)
    (hadd : ∀ x y, f.exp (x + y) = f.exp x * f.exp y) (hpos : ∀ x, 0 < f.exp x)
    (hexplog : ∀ y, 0 < y → f.exp (f.log y) = y) (T : Matrix α) (L : Nat)
    (Es : List (Matrix α)) :
    ∀ a : List α,
      (CRF.alphaEnd f T L (Es.foldl (CRF.alphaStep f T L) a)).sum =
        ((List.range L).map (fun i =>
          ((CRF.labelSequences L Es.length).map (fun l =>
            f.exp (a.getD i 0 + CRF.chain T (i + 1) Es l))).sum)).sum := by
  induction Es with
  | nil =>
    intro a
    simp [CRF.alphaEnd, CRF.labelSequences, CRF.chain]
  | cons e rest ih =>
    intro a
    rw [List.foldl_cons, ih (CRF.alphaStep f T L a e)]
    have hA : ∀ j ∈ List.range L,
        ((CRF.labelSequences L rest.length).map (fun l =>
          f.exp ((CRF.alphaStep f T L a e).getD j 0 + CRF.chain T (j + 1) rest l))).sum =
        ((List.range L).map (fun i =>
          f.exp (a.getD i 0 + e.data.getD j 0 + T.entry (i + 1) (j + 1)) *
            ((CRF.labelSequences L rest.length).map (fun l =>
              f.exp (CRF.chain T (j + 1) rest l))).sum)).sum := by
      intro j hj
      have hjL : j < L := List.mem_range.mp hj
      have hget : (CRF.alphaStep f T L a e).getD j 0 =
          f.log ((List.range L).map (fun i =>
            f.exp (a.getD i 0 + e.data.getD j 0 + T.entry (i + 1) (j + 1)))).sum := by
        simp [CRF.alphaStep, List.getD_eq_getElem?_getD, List.getElem?_map,
          List.getElem?_range hjL]
      have hS : 0 < ((List.range L).map (fun i =>
          f.exp (a.getD i 0 + e.data.getD j 0 + T.entry (i + 1) (j + 1)))).sum := by
        apply sum_pos_of_pos
        · intro h0
          have := congrArg List.length h0
          simp at this
          omega
        · intro v hv
          obtain ⟨i, _, rfl⟩ := List.mem_map.mp hv
          exact hpos _
      have hterm : ∀ c : α, f.exp (f.log ((List.range L).map (fun i =>
          f.exp (a.getD i 0 + e.data.getD j 0 + T.entry (i + 1) (j + 1)))).sum + c) =
          ((List.range L).map (fun i =>
            f.exp (a.getD i 0 + e.data.getD j 0 + T.entry (i + 1) (j + 1)))).sum * f.exp c := by
        intro c
        rw [hadd, hexplog _ hS]
      rw [hget]
      simp only [hterm]
      rw [List.sum_map_mul_left, List.sum_map_mul_right]
    have hB : ∀ i ∈ List.range L,
        ((CRF.labelSequences L (e :: rest).length).map (fun l =>
          f.exp (a.getD i 0 + CRF.chain T (i + 1) (e :: rest) l))).sum =
        ((List.range L).map (fun j =>
          f.exp (a.getD i 0 + e.data.getD j 0 + T.entry (i + 1) (j + 1)) *
            ((CRF.labelSequences L rest.length).map (fun l =>
              f.exp (CRF.chain T (j + 1) rest l))).sum)).sum := by
      intro i _
      simp only [List.length_cons, CRF.labelSequences]
      rw [sum_map_flatMap]
      apply congrArg
      apply List.map_congr_left
      intro j _
      rw [List.map_map, ← List.sum_map_mul_left]
      apply congrArg
      apply List.map_congr_left
      intro l _
      simp only [Function.comp, CRF.chain]
      rw [← hadd]
      congr 1
      ring
    rw [List.map_congr_left hA, List.map_congr_left hB]
    exact (sum_map_comm _ _ _).symm

/-- The label sequences are the lists of `n` labels below `L`. -/
theorem mem_labelSequences (L : Nat) :
    ∀ (n : Nat) (l : List Nat),
      l ∈ CRF.labelSequences L n ↔ l.length = n ∧ ∀ x ∈ l, x < L := by
  intro n
  induction n with
  | zero =>
    intro l
    simp only [CRF.labelSequences, List.mem_singleton, List.length_eq_zero]
    constructor
    · rintro rfl
      exact ⟨rfl, fun x hx => by cases hx⟩
    · exact fun h => h.1
  | succ n ih =>
    intro l
    simp only [CRF.labelSequences, List.mem_flatMap, List.mem_range, List.mem_map]
    constructor
    · rintro ⟨j, hj, l1, hl1, rfl⟩
      have h := (ih l1).1 hl1
      refine ⟨by simp [h.1], fun x hx => ?_⟩
      rcases List.mem_cons.mp hx with e | e
      · rw [e]; exact hj
      · exact h.2 x e
    · rintro ⟨hlen, hall⟩
      cases l with
      | nil => simp at hlen
      | cons j l1 =>
        exact ⟨j, hall j (List.mem_cons_self _ _), l1,
          (ih l1).2 ⟨by simpa using hlen, fun x hx => hall x (List.mem_cons_of_mem _ hx)⟩,
          rfl⟩

/-- There are `L ^ n` label sequences. -/
theorem length_labelSequences (L : Nat) :
    ∀ n : Nat, (CRF.labelSequences L n).length = L ^ n := by
  intro n
  induction n with
  | zero => rfl
  | succ n ih =>
    have h : ∀ k : List Nat,
        (k.flatMap (fun j => (CRF.labelSequences L n).map (fun l => j :: l))).length =
          k.length * L ^ n := by
      intro k
      induction k with
      | nil => simp
      | cons a rest ihk =>
        rw [List.flatMap_cons, List.length_append, ihk, List.length_map, ih,
          List.length_cons]
        ring
    rw [CRF.labelSequences, h, List.length_range, pow_succ, Nat.mul_comm]

/-- No label sequence is listed twice. -/
theorem nodup_labelSequences (L : Nat) :
    ∀ n : Nat, (CRF.labelSequences L n).Nodup := by
  intro n
  induction n with
  | zero => simp [CRF.labelSequences]
  | succ n ih =>
    rw [CRF.labelSequences, List.nodup_flatMap]
    refine ⟨fun j _ => ih.map (fun l1 l2 h => (List.cons.inj h).2), ?_⟩
    apply List.Nodup.pairwise_of_forall_ne (List.nodup_range L)
    intro i _ j _ hij
    intro l hi hj
    obtain ⟨l1, _, rfl⟩ := List.mem_map.mp hi
    obtain ⟨l2, _, h2⟩ := List.mem_map.mp hj
    exact hij (List.cons.inj h2).1.symm

/-- The score in the words of the claim is the score that `goldScore` adds
up, from any row of the transition scores. -/
theorem score_eq_chain_aux {α : Type} [Field α] (T : Matrix α) (ts : List Nat) :
    ∀ (prev t : Nat) (e : Matrix α) (es : List (Matrix α)), es.length = ts.length →
      CRF.chain T prev (e :: es) (t :: ts) =
        (List.zipWith (fun (e : Matrix α) li => e.data.getD li 0) (e :: es) (t :: ts)).sum
          + T.entry prev (t + 1)
          + (List.zipWith (fun a b => T.entry (a + 1) (b + 1)) (t :: ts) ts).sum
          + T.entry ((t :: ts).getLastD 0 + 1) 0 := by
  induction ts with
  | nil =>
    intro prev t e es hlen
    have : es = [] := List.length_eq_zero.mp hlen
    subst this
    simp [CRF.chain]
  | cons t1 rest ih =>
    intro prev t e es hlen
    cases es with
    | nil => simp at hlen
    | cons e1 es1 =>
      have h := ih (t + 1) t1 e1 es1 (by simpa using hlen)
      rw [CRF.chain, h]
      simp only [List.zipWith_cons_cons, List.sum_cons, List.getLastD_cons]
      ring

/-- The score in the words of the claim is the score that `goldScore` adds
up. -/
theorem score_eq_chain {α : Type} [Field α] (T : Matrix α) (E : List (Matrix α))
    (l : List Nat) (hE : E ≠ []) (hlen : l.length = E.length) :
    CRF.score T E l = CRF.chain T 0 E l := by
  cases E with
  | nil => exact absurd rfl hE
  | cons e es =>
    cases l with
    | nil => simp at hlen
    | cons t ts =>
      rw [score_eq_chain_aux T ts 0 t e es (by simpa using hlen.symm)]
      simp [CRF.score]

/-- The value of `totalScore` is the brute-force total score. -/
theorem totalScore_bruteForce {α : Type} [LinearOrderedField α] (f : ExpLog α)
    (hadd : ∀ x y, f.exp (x + y) = f.exp x * f.exp y) (hpos : ∀ x, 0 < f.exp x)
    (hexplog : ∀ y, 0 < y → f.exp (f.log y) = y) (p : CRF.Processor α) (L : Nat)
    (hr : p.transitionScores.rows = L + 1) (hc : p.transitionScores.cols = L + 1)
    (E : List (Matrix α)) (hE : E ≠ []) (hes : ∀ e ∈ E, e.rows = L ∧ e.cols = 1) :
    p.totalScore f E = .ok (NewScalar (CRF.bruteForce f p.transitionScores E L)) := by
  cases E with
  | nil => exact absurd rfl hE
  | cons e0 es =>
    rw [totalScore_eq f p L hr hc e0 es hes,
      forward_sum f hadd hpos hexplog p.transitionScores L es]
    unfold CRF.bruteForce
    congr 3
    simp only [List.length_cons, CRF.labelSequences]
    rw [sum_map_flatMap]
    apply congrArg
    apply List.map_congr_left
    intro j hj
    have hjL : j < L := List.mem_range.mp hj
    rw [List.map_map]
    apply congrArg
    apply List.map_congr_left
    intro l hl
    have hlen : l.length = es.length := ((mem_labelSequences L es.length l).1 hl).1
    simp only [Function.comp]
    rw [score_eq_chain p.transitionScores (e0 :: es) (j :: l) (by simp) (by simp [hlen])]
    simp [CRF.chain, CRF.alphaStart, List.getD_eq_getElem?_getD, List.getElem?_map,
      List.getElem?_range hjL]

/-- C29: in exact arithmetic, that is over a linear ordered field and for
`exp` and `log` with the laws of the real exponential and logarithm, for
transition scores of `L + 1` rows and columns and a non-empty
sequence of emission column vectors over `L` labels, `totalScore` returns the
scalar `log Σ_l exp(score(l))`, the sum running over the `L ^ n` label
sequences, each listed once; for every valid target `goldScore` returns the
scalar `score(target)`, and `NegativeLogLoss` returns the scalar holding their
difference, which is non-negative. -/
theorem CRF_forward_is_brute_force {α : Type} [LinearOrderedField α] (f : ExpLog α)
    (hadd : ∀ x y, f.exp (x + y) = f.exp x * f.exp y) (hpos : ∀ x, 0 < f.exp x)
    (hexplog : ∀ y, 0 < y → f.exp (f.log y) = y) (hlogexp : ∀ x, f.log (f.exp x) = x)
    (hmono : ∀ a b, 0 < a → a ≤ b → f.log a ≤ f.log b)
    (p : CRF.Processor α) (L : Nat)
    (hr : p.transitionScores.rows = L + 1) (hc : p.transitionScores.cols = L + 1)
    (E : List (Matrix α)) (hE : E ≠ []) (hes : ∀ e ∈ E, e.rows = L ∧ e.cols = 1) :
    p.totalScore f E = .ok (NewScalar (CRF.bruteForce f p.transitionScores E L)) ∧
    CRF.bruteForce f p.transitionScores E L =
      f.log (((CRF.labelSequences L E.length).map
        (fun l => f.exp (CRF.score p.transitionScores E l))).sum) ∧
    ((CRF.labelSequences L E.length).length = L ^ E.length ∧
      (CRF.labelSequences L E.length).Nodup ∧
      ∀ l, l ∈ CRF.labelSequences L E.length ↔ l.length = E.length ∧ ∀ x ∈ l, x < L) ∧
    ∀ target : List Nat, target.length = E.length → (∀ t ∈ target, t < L) →
      p.goldScore E target = .ok (NewScalar (CRF.score p.transitionScores E target)) ∧
      p.NegativeLogLoss f E target =
        .ok (NewScalar (CRF.bruteForce f p.transitionScores E L -
          CRF.score p.transitionScores E target)) ∧
      0 ≤ CRF.bruteForce f p.transitionScores E L - CRF.score p.transitionScores E target := by
  have htotal := totalScore_bruteForce f hadd hpos hexplog p L hr hc E hE hes
  refine ⟨htotal, rfl, ⟨length_labelSequences L _, nodup_labelSequences L _,
    mem_labelSequences L _⟩, fun target hlen hts => ?_⟩
  have hgold : p.goldScore E target =
      .ok (NewScalar (CRF.score p.transitionScores E target)) := by
    rw [goldScore_eq p L hr hc E target hE hlen hes hts,
      score_eq_chain p.transitionScores E target hE hlen]
  refine ⟨hgold, ?_, ?_⟩
  · simp only [CRF.Processor.NegativeLogLoss, hgold, htotal, bind, Except.bind,
      Value_Sub_scalar]
  · have hmem : target ∈ CRF.labelSequences L E.length :=
      (mem_labelSequences L _ target).2 ⟨hlen, hts⟩
    have hle : f.exp (CRF.score p.transitionScores E target) ≤
        ((CRF.labelSequences L E.length).map
          (fun l => f.exp (CRF.score p.transitionScores E l))).sum :=
      List.single_le_sum
        (fun v hv => by
          obtain ⟨l, _, rfl⟩ := List.mem_map.mp hv
          exact le_of_lt (hpos _))
        _ (List.mem_map.mpr ⟨target, hmem, rfl⟩)
    have h := hmono _ _ (hpos _) hle
    rw [hlogexp] at h
    unfold CRF.bruteForce
    linarith

/-- C29 (witness): the statement for the real exponential and logarithm, two
labels and two emission vectors, so that `totalScoreStart`, `totalScoreStep`
and `totalScoreEnd` all run. -/
theorem CRF_forward_is_brute_force_witness :
    (sampleEmissions ℝ).length = 2 ∧
    ((sampleCRF ℝ).totalScore ⟨Real.exp, Real.log⟩ (sampleEmissions ℝ) =
      .ok (NewScalar (CRF.bruteForce ⟨Real.exp, Real.log⟩ (sampleCRF ℝ).transitionScores
        (sampleEmissions ℝ) 2)) ∧
    CRF.bruteForce ⟨Real.exp, Real.log⟩ (sampleCRF ℝ).transitionScores (sampleEmissions ℝ) 2 =
      Real.log (((CRF.labelSequences 2 (sampleEmissions ℝ).length).map
        (fun l => Real.exp (CRF.score (sampleCRF ℝ).transitionScores
          (sampleEmissions ℝ) l))).sum) ∧
    ((CRF.labelSequences 2 (sampleEmissions ℝ).length).length = 2 ^ (sampleEmissions ℝ).length ∧
      (CRF.labelSequences 2 (sampleEmissions ℝ).length).Nodup ∧
      ∀ l, l ∈ CRF.labelSequences 2 (sampleEmissions ℝ).length ↔
        l.length = (sampleEmissions ℝ).length ∧ ∀ x ∈ l, x < 2) ∧
    ∀ target : List Nat, target.length = (sampleEmissions ℝ).length → (∀ t ∈ target, t < 2) →
      (sampleCRF ℝ).goldScore (sampleEmissions ℝ) target =
        .ok (NewScalar (CRF.score (sampleCRF ℝ).transitionScores (sampleEmissions ℝ) target)) ∧
      (sampleCRF ℝ).NegativeLogLoss ⟨Real.exp, Real.log⟩ (sampleEmissions ℝ) target =
        .ok (NewScalar (CRF.bruteForce ⟨Real.exp, Real.log⟩ (sampleCRF ℝ).transitionScores
          (sampleEmissions ℝ) 2 -
          CRF.score (sampleCRF ℝ).transitionScores (sampleEmissions ℝ) target)) ∧
      0 ≤ CRF.bruteForce ⟨Real.exp, Real.log⟩ (sampleCRF ℝ).transitionScores
          (sampleEmissions ℝ) 2 -
        CRF.score (sampleCRF ℝ).transitionScores (sampleEmissions ℝ) target) :=
  ⟨rfl, CRF_forward_is_brute_force (⟨Real.exp, Real.log⟩ : ExpLog ℝ) Real.exp_add Real.exp_pos
    (fun _ hy => Real.exp_log hy) Real.log_exp (fun _ _ ha hab => Real.log_le_log ha hab)
    (sampleCRF ℝ) 2 rfl rfl (sampleEmissions ℝ) (by simp [sampleEmissions])
    (by simp [sampleEmissions, NewVecDense])⟩

set_option exponentiation.threshold 5000 in
set_option maxRecDepth 10000 in
/-- C29: in `float64` the loss of the CRF can be negative. For one label,
transition scores zero and the one emission score `2^-60`, the exponential of
the score `2^-60` is 1 and its logarithm 0, so `totalScore` returns 0, which
is also the brute-force value computed in `float64`, while `goldScore`
returns `2^-60` for the target `[0]`: `NegativeLogLoss` returns `-2^-60`,
which is `< 0`. -/
theorem CRF_float_counterexample :
    (∀ core : ExpLog F64,
      (⟨NewEmptyDense 2 2⟩ : CRF.Processor F64).totalScore (F64.expLog core)
        [NewVecDense [F64.pow2 (-60)]] = .ok (NewScalar 0) ∧
      CRF.bruteForce (F64.expLog core) (NewEmptyDense 2 2) [NewVecDense [F64.pow2 (-60)]] 1
        = 0 ∧
      (⟨NewEmptyDense 2 2⟩ : CRF.Processor F64).goldScore
        [NewVecDense [F64.pow2 (-60)]] [0] = .ok (NewScalar (F64.pow2 (-60))) ∧
      (⟨NewEmptyDense 2 2⟩ : CRF.Processor F64).NegativeLogLoss (F64.expLog core)
        [NewVecDense [F64.pow2 (-60)]] [0] = .ok (NewScalar (0 - F64.pow2 (-60)))) ∧
    CRF.score (NewEmptyDense 2 2) [NewVecDense [F64.pow2 (-60)]] [0] = F64.pow2 (-60) ∧
    F64.lt (0 - F64.pow2 (-60)) 0 = true ∧
    F64.le 0 (0 - F64.pow2 (-60)) = false := by
  refine ⟨fun core => ⟨rfl, rfl, rfl, rfl⟩, by decide, by decide, by decide⟩

end Spago
